import Mathlib

/-!
# warpwallet: Koblitz elliptic-curve arithmetic (`bitelliptic.go`)

A shallow embedding of the point arithmetic engine of `warpwallet/bitelliptic.go`.

* `*big.Int` values are `Int`; a nil `*big.Int` is `none : Option Int`.
* `big.Int.Mod` is the Euclidean modulus, which is `%` on `Int`; `Lsh(x, 1)` is `x * 2` and
  `x.Sign() == -1` is `x < 0`.
* A call that ends in a run-time panic (division by a zero modulus, a method call on the
  nil pointer returned by `ModInverse`) is `none : Option _` at the outermost level.
* The scalar `k []byte` is a `List Nat` (each entry a byte, `< 256`); the shift
  `byte <<= 1` on a `uint8` is `(byte * 2) % 256`.
-/

namespace Warpwallet

/-! ## `math/big` primitives used by the source -/

/-- Extended Euclid on the remainders `r0, r1`, carrying the cofactors `s0, s1` of the
first argument of `ModInverse`; returns the cofactor that goes with the last nonzero
remainder. -/
def xgcdFuel : Nat → Nat → Nat → Int → Int → Int
  | 0, _, _, s0, _ => s0
  | fuel + 1, r0, r1, s0, s1 =>
    if r1 = 0 then s0 else xgcdFuel fuel r1 (r0 % r1) s1 (s0 - ((r0 / r1 : Nat) : Int) * s1)

/-- The library method `big.Int.ModInverse(g, n)`, for `n ≠ 0`, after its documented
contract: the multiplicative inverse of `g` in `ℤ/nℤ`, in the range `[0, |n|)`, or the nil
pointer (`none`) when `g` and `n` are not relatively prime. `affineFromJacobian` reduces
modulo `P` after multiplying by the inverse, so its result does not depend on which
representative of the inverse the library returns. -/
def ModInverse (g n : Int) : Option Int :=
  if Int.gcd g n = 1 then
    some (xgcdFuel ((g % n).toNat + 1) n.natAbs (g % n).toNat 0 1 % n)
  else none

/-! ## The curve type -/

/-- A BitCurve represents a Koblitz Curve with a=0. -/
structure BitCurve where
  /-- the order of the underlying field -/
  P : Int
  /-- the order of the base point -/
  N : Int
  /-- the constant of the BitCurve equation -/
  B : Int
  /-- x of the base point -/
  Gx : Int
  /-- y of the base point -/
  Gy : Int
  /-- the size of the underlying field -/
  BitSize : Int
  deriving DecidableEq, Repr

/-- The method `affineFromJacobian` reverses the Jacobian transform.

`zinv := new(big.Int).ModInverse(z, P)` is nil when `z` has no inverse, and the next
statement `Mul(zinv, zinv)` then panics; with `P = 0` the reductions `Mod(_, P)` panic. -/
def affineFromJacobian (c : BitCurve) (x y z : Int) : Option (Int × Int) :=
  if c.P = 0 then none else
  match ModInverse z c.P with
  | none => none
  | some zinv =>
    let zinvsq := zinv * zinv
    let xOut := x * zinvsq
    let xOut := xOut % c.P
    let zinvsq := zinvsq * zinv
    let yOut := y * zinvsq
    let yOut := yOut % c.P
    some (xOut, yOut)

/-- The method `addJacobian` takes two points in Jacobian coordinates, (x1, y1, z1) and
(x2, y2, z2) and returns their sum, also in Jacobian form. -/
def addJacobian (c : BitCurve) (x1 y1 z1 x2 y2 z2 : Int) : Option (Int × Int × Int) :=
  if c.P = 0 then none else
  let z1z1 := z1 * z1
  let z1z1 := z1z1 % c.P
  let z2z2 := z2 * z2
  let z2z2 := z2z2 % c.P
  let u1 := x1 * z2z2
  let u1 := u1 % c.P
  let u2 := x2 * z1z1
  let u2 := u2 % c.P
  let h := u2 - u1
  let h := if h < 0 then h + c.P else h
  let i := h * 2
  let i := i * i
  let j := h * i
  let s1 := y1 * z2
  let s1 := s1 * z2z2
  let s1 := s1 % c.P
  let s2 := y2 * z1
  let s2 := s2 * z1z1
  let s2 := s2 % c.P
  let r := s2 - s1
  let r := if r < 0 then r + c.P else r
  let r := r * 2
  let v := u1 * i
  let x3 := r
  let x3 := x3 * x3
  let x3 := x3 - j
  let x3 := x3 - v
  let x3 := x3 - v
  let x3 := x3 % c.P
  let y3 := r
  let v := v - x3
  let y3 := y3 * v
  let s1 := s1 * j
  let s1 := s1 * 2
  let y3 := y3 - s1
  let y3 := y3 % c.P
  let z3 := z1 + z2
  let z3 := z3 * z3
  let z3 := z3 - z1z1
  let z3 := if z3 < 0 then z3 + c.P else z3
  let z3 := z3 - z2z2
  let z3 := if z3 < 0 then z3 + c.P else z3
  let z3 := z3 * h
  let z3 := z3 % c.P
  some (x3, y3, z3)

/-- The method `doubleJacobian` takes a point in Jacobian coordinates, (x, y, z), and
returns its double, also in Jacobian form. -/
def doubleJacobian (c : BitCurve) (x y z : Int) : Option (Int × Int × Int) :=
  if c.P = 0 then none else
  let a := x * x
  let b := y * y
  let c2 := b * b
  let d := x + b
  let d := d * d
  let d := d - a
  let d := d - c2
  let d := d * 2
  let e := 3 * a
  let f := e * e
  let x3 := 2 * d
  let x3 := f - x3
  let x3 := x3 % c.P
  let y3 := d - x3
  let y3 := e * y3
  let y3 := y3 - 8 * c2
  let y3 := y3 % c.P
  let z3 := y * z
  let z3 := 2 * z3
  let z3 := z3 % c.P
  some (x3, y3, z3)

/-- The loop state of `ScalarMult`: the running point `x, y, z` and `seenFirstTrue`. -/
structure LoopState where
  x : Int
  y : Int
  z : Int
  seenFirstTrue : Bool
  deriving DecidableEq, Repr

/-- One pass through the body of the inner loop of `ScalarMult`, for the bit tested by
`byte&0x80 == 0x80`. -/
def bitStep (c : BitCurve) (Bx By Bz : Int) (s : LoopState) (byte : Nat) : Option LoopState :=
  match (if s.seenFirstTrue then doubleJacobian c s.x s.y s.z else some (s.x, s.y, s.z)) with
  | none => none
  | some (x, y, z) =>
    if byte &&& 0x80 = 0x80 then
      if !s.seenFirstTrue then
        some ⟨x, y, z, true⟩
      else
        match addJacobian c Bx By Bz x y z with
        | none => none
        | some (x, y, z) => some ⟨x, y, z, s.seenFirstTrue⟩
    else some ⟨x, y, z, s.seenFirstTrue⟩

/-- The inner loop `for bitNum := 0; bitNum < 8; bitNum++`, with `n` iterations left. -/
def bitLoop (c : BitCurve) (Bx By Bz : Int) : Nat → LoopState → Nat → Option LoopState
  | 0, s, _ => some s
  | n + 1, s, byte =>
    match bitStep c Bx By Bz s byte with
    | none => none
    | some s => bitLoop c Bx By Bz n s ((byte * 2) % 256)

/-- The outer loop `for _, byte := range k`. -/
def byteLoop (c : BitCurve) (Bx By Bz : Int) : LoopState → List Nat → Option LoopState
  | s, [] => some s
  | s, byte :: k =>
    match bitLoop c Bx By Bz 8 s byte with
    | none => none
    | some s => byteLoop c Bx By Bz s k

/-- The method `ScalarMult` returns k*(Bx,By) where k is a number in big-endian form.
The result `(none, none)` is the pair of nil pointers `nil, nil`. -/
def ScalarMult (c : BitCurve) (Bx By : Int) (k : List Nat) : Option (Option Int × Option Int) :=
  let Bz : Int := 1
  match byteLoop c Bx By Bz ⟨Bx, By, Bz, false⟩ k with
  | none => none
  | some s =>
    if !s.seenFirstTrue then some (none, none)
    else
      match affineFromJacobian c s.x s.y s.z with
      | none => none
      | some (x, y) => some (some x, some y)

/-- The method `ScalarBaseMult` returns k*G, where G is the base point of the group and k
is an integer in big-endian form. -/
def ScalarBaseMult (c : BitCurve) (k : List Nat) : Option (Option Int × Option Int) :=
  ScalarMult c c.Gx c.Gy k

/-- The value `secp256k1` built by `initS256` (see SEC 2 section 2.7.1). -/
def secp256k1 : BitCurve where
  P := 0xFFFFFFFFFFFFFFFFFFFFFFFFFFFFFFFFFFFFFFFFFFFFFFFFFFFFFFFEFFFFFC2F
  N := 0xFFFFFFFFFFFFFFFFFFFFFFFFFFFFFFFEBAAEDCE6AF48A03BBFD25E8CD0364141
  B := 0x0000000000000000000000000000000000000000000000000000000000000007
  Gx := 0x79BE667EF9DCBBAC55A06295CE870B07029BFCDB2DCE28D959F2815B16F81798
  Gy := 0x483ADA7726A3C4655DA4FBFC0E1108A8FD17B448A68554199C47D08FFB10D4B8
  BitSize := 256

/-- The function `S256` returns a BitCurve which implements secp256k1. -/
def S256 : BitCurve := secp256k1

/-- The 32-byte big-endian encoding of a small scalar `b < 256`: 31 zero bytes, then `b`. -/
def scalar32 (b : Nat) : List Nat := List.replicate 31 0 ++ [b]

/-- Lift the affine point `(x, y)` to Jacobian form with `Z = 1`, apply `doubleJacobian`
and convert back with `affineFromJacobian`. -/
def liftDoubleAffine (c : BitCurve) (x y : Int) : Option (Int × Int) :=
  match doubleJacobian c x y 1 with
  | none => none
  | some (x3, y3, z3) => affineFromJacobian c x3 y3 z3

/-- Lift the affine points `(x1, y1)` and `(x2, y2)` to Jacobian form with `Z = 1`, combine
them with `addJacobian` and convert back with `affineFromJacobian`. -/
def liftAddAffine (c : BitCurve) (x1 y1 x2 y2 : Int) : Option (Int × Int) :=
  match addJacobian c x1 y1 1 x2 y2 1 with
  | none => none
  | some (x3, y3, z3) => affineFromJacobian c x3 y3 z3

/-! ## The textbook affine group law (the reference the code is compared with) -/

/-- The affine tangent rule for a curve with `a = 0`, modulo `P`: slope `3x²/(2y)`,
`x' = slope² - 2x`, `y' = slope·(x - x') - y`. The result is `none` when `2y` has no
inverse modulo `P`. -/
def affineDouble (P x y : Int) : Option (Int × Int) :=
  match ModInverse (2 * y) P with
  | none => none
  | some inv =>
    let slope := 3 * x ^ 2 * inv % P
    let x' := (slope ^ 2 - 2 * x) % P
    let y' := (slope * (x - x') - y) % P
    some (x', y')

/-- The affine chord rule modulo `P`: slope `(y2 - y1)/(x2 - x1)`,
`x3 = slope² - x1 - x2`, `y3 = slope·(x1 - x3) - y1`. The result is `none` when
`x2 - x1` has no inverse modulo `P`. -/
def affineAdd (P x1 y1 x2 y2 : Int) : Option (Int × Int) :=
  match ModInverse (x2 - x1) P with
  | none => none
  | some inv =>
    let slope := (y2 - y1) * inv % P
    let x3 := (slope ^ 2 - x1 - x2) % P
    let y3 := (slope * (x1 - x3) - y1) % P
    some (x3, y3)

/-- The chord-and-tangent group law on the points of `y² = x³ + b` over the field of `P`
elements; `none` is the point at infinity. -/
def ecAdd (P : Int) : Option (Int × Int) → Option (Int × Int) → Option (Int × Int)
  | none, q => q
  | some a, none => some a
  | some (x1, y1), some (x2, y2) =>
    if x1 % P = x2 % P then
      if (y1 + y2) % P = 0 then none else affineDouble P x1 y1
    else affineAdd P x1 y1 x2 y2

/-- The `n`-fold sum `g + g + ... + g` under `ecAdd`. -/
def ecMul (P : Int) : Nat → Option (Int × Int) → Option (Int × Int)
  | 0, _ => none
  | n + 1, g => ecAdd P (ecMul P n g) g

/-- The point `g` has order `N` under `ecAdd`: `N` is the least positive number of copies
of `g` that sum to the point at infinity. -/
def HasOrder (P : Int) (g : Option (Int × Int)) (N : Nat) : Prop :=
  0 < N ∧ ecMul P N g = none ∧ ∀ m, 0 < m → m < N → ecMul P m g ≠ none

/-- The integer value of a big-endian byte sequence. -/
def bytesToNat (k : List Nat) : Nat :=
  k.foldl (fun acc b => acc * 256 + b) 0

/-- The curve `y² = x³ + B` over the field `ZMod p`, as a Weierstrass curve with
`a₁ = a₂ = a₃ = a₄ = 0` and `a₆ = B`. -/
def curveW (p : Nat) (B : Int) : WeierstrassCurve.Affine (ZMod p) :=
  { a₁ := 0, a₂ := 0, a₃ := 0, a₄ := 0, a₆ := (B : ZMod p) }

/-- The pair of integers `q` (or `none`, the point at infinity) is the canonical
representative, with coordinates in `[0, p)`, of the point `Q` of `curveW p B`. -/
def Represents (p : Nat) (B : Int) :
    Option (Int × Int) → (curveW p B).Point → Prop
  | none, .zero => True
  | some (x, y), @WeierstrassCurve.Affine.Point.some _ _ _ x' y' _ =>
      0 ≤ x ∧ x < p ∧ 0 ≤ y ∧ y < p ∧ (x : ZMod p) = x' ∧ (y : ZMod p) = y'
  | _, _ => False

/-- The Jacobian triple `(X, Y, Z)` has `Z` invertible modulo `p`, and
`affineFromJacobian` maps it to the canonical representative of the point `Q`. -/
def JacRepresents (c : BitCurve) (p : Nat) (X Y Z : Int) (Q : (curveW p c.B).Point) : Prop :=
  ¬ (p : Int) ∣ Z ∧
    ∃ x y, affineFromJacobian c X Y Z = some (x, y) ∧ Represents p c.B (some (x, y)) Q

/-- The invariant of the loops of `ScalarMult` once the scanned bits have the value `m`:
before the first set bit the running point is the input point with `Z = 1`; afterwards it
is a Jacobian form of `m • G`. -/
def LoopInv (c : BitCurve) (p : Nat) [Fact p.Prime] (Bx By : Int) (G : (curveW p c.B).Point)
    (s : LoopState) (m : Nat) : Prop :=
  (s.seenFirstTrue = false ∧ m = 0 ∧ s.x = Bx ∧ s.y = By ∧ s.z = 1) ∨
  (s.seenFirstTrue = true ∧ 0 < m ∧ JacRepresents c p s.x s.y s.z (m • G))

/-- The condition under which the loop of `ScalarMult` can scan one more bit, `v` being the
value of the bits scanned so far, the new bit included: `v • G` is not the point at infinity,
and when the new bit is set (and is not the first set bit), the doubled point `(v - 1) • G`
is not the input point `G` itself, the case `addJacobian` has no formula for. -/
def StepOK {p : Nat} [Fact p.Prime] {B : Int} (G : (curveW p B).Point) (v : Nat) : Prop :=
  0 < v → v • G ≠ 0 ∧ (v % 2 = 1 → 1 < v → G ≠ (v - 1) • G)

/-- The value read by `n` passes of the inner loop of `ScalarMult` that start from the
accumulated value `m` and the (shifted) byte `byte`. -/
def bitsValue : Nat → Nat → Nat → Nat
  | 0, m, _ => m
  | n + 1, m, byte =>
    bitsValue n (2 * m + (if byte &&& 0x80 = 0x80 then 1 else 0)) ((byte * 2) % 256)

/-- Square-and-multiply modular exponentiation, `fuel` bounding the number of halvings. -/
def powModAux : Nat → Nat → Nat → Nat → Nat
  | 0, _, _, n => 1 % n
  | fuel + 1, a, e, n =>
    if e = 0 then 1 % n
    else
      let h := powModAux fuel a (e / 2) n
      if e % 2 = 0 then h * h % n else h * h % n * a % n

/-- Modular exponentiation `a ^ e % n`. -/
def powMod (a e n : Nat) : Nat := powModAux e a e n

/-- The check of a Pratt certificate for `p`: `fs` lists the prime factors of `p - 1` with
their exponents, and `a` has multiplicative order `p - 1` modulo `p`. -/
def prattCheck (p a : Nat) (fs : List (Nat × Nat)) : Bool :=
  decide (1 < p) && ((fs.map fun f => f.1 ^ f.2).prod == p - 1) &&
    (powMod a (p - 1) p == 1) && fs.all fun f => powMod a ((p - 1) / f.1) p != 1

/-- Double-and-add evaluation of the `n`-fold sum under `ecAdd`, `fuel` bounding the number
of halvings of `n`. -/
def ecMulBin (P : Int) : Nat → Nat → Option (Int × Int) → Option (Int × Int)
  | 0, _, _ => none
  | fuel + 1, n, g =>
    if n = 0 then none
    else
      let h := ecMulBin P fuel (n / 2) g
      let d := ecAdd P h h
      if n % 2 = 0 then d else ecAdd P d g

/-- The additivity property of `ScalarBaseMult` on S256 at the scalars `k1`, `k2` and `k3`
(`k3` encoding the sum): both multiples are points, their sum through `addJacobian` on the
lifts with `Z = 1` followed by `affineFromJacobian` is a point, and it is the point that
`ScalarBaseMult` returns for `k3`. -/
def AddsTo (k1 k2 k3 : List Nat) : Prop :=
  ∃ x1 y1 x2 y2 x3 y3, ScalarBaseMult S256 k1 = some (some x1, some y1) ∧
    ScalarBaseMult S256 k2 = some (some x2, some y2) ∧
    liftAddAffine S256 x1 y1 x2 y2 = some (x3, y3) ∧
    ScalarBaseMult S256 k3 = some (some x3, some y3)

/-- The 32-byte big-endian encoding of `N - 2`, the second largest scalar below the group
order of secp256k1. -/
def sampleScalar : List Nat :=
  [255, 255, 255, 255, 255, 255, 255, 255, 255, 255, 255, 255, 255, 255, 255, 254,
   186, 174, 220, 230, 175, 72, 160, 59, 191, 210, 94, 140, 208, 54, 65, 63]

/-- The doubling formula for `a = 0` in the words of the specification: `A = X²`, `B = Y²`,
`C = B²`, `D = 2·((X+B)² − A − C)`, `E = 3A`, `F = E²`, `X' = F − 2D`,
`Y' = E·(D − X') − 8C`, `Z' = 2·Y·Z`, each output reduced modulo `P`. -/
def doubleJacobianSpec (P X Y Z : Int) : Int × Int × Int :=
  let A := X ^ 2
  let B := Y ^ 2
  let C := B ^ 2
  let D := 2 * ((X + B) ^ 2 - A - C)
  let E := 3 * A
  let F := E ^ 2
  let X' := (F - 2 * D) % P
  let Y' := (E * (D - X') - 8 * C) % P
  let Z' := (2 * Y * Z) % P
  (X', Y', Z')

/-- The addition formula in the words of the specification: `U1`, `U2`, `S1`, `S2` the
cross-multiplied coordinates modulo `P`, `H = U2 − U1` and `R = 2·(S2 − S1)` with the
differences renormalised into `[0, P)`, `I = (2H)²`, `J = H·I`, `V = U1·I`, and the three
outputs reduced modulo `P`. -/
def addJacobianSpec (P X1 Y1 Z1 X2 Y2 Z2 : Int) : Int × Int × Int :=
  let U1 := X1 * Z2 ^ 2 % P
  let U2 := X2 * Z1 ^ 2 % P
  let S1 := Y1 * Z2 ^ 3 % P
  let S2 := Y2 * Z1 ^ 3 % P
  let H := (U2 - U1) % P
  let R := 2 * ((S2 - S1) % P)
  let I := (2 * H) ^ 2
  let J := H * I
  let V := U1 * I
  let X3 := (R ^ 2 - J - 2 * V) % P
  let Y3 := (R * (V - X3) - 2 * S1 * J) % P
  let Z3 := (H * ((Z1 + Z2) ^ 2 - Z1 ^ 2 - Z2 ^ 2)) % P
  (X3, Y3, Z3)

/-- Number of halvings that bring `n` to zero, with `fuel` bounding the recursion. -/
def bitLenFuel : Nat → Nat → Nat
  | 0, _ => 0
  | fuel + 1, n => if n = 0 then 0 else bitLenFuel fuel (n / 2) + 1

/-- The library method `big.Int.BitLen`: the length of the absolute value in bits. -/
def BitLen (x : Int) : Nat := bitLenFuel x.natAbs x.natAbs

/-- The 32-byte big-endian encoding of the group order `N` of secp256k1. -/
def orderScalar : List Nat :=
  [255, 255, 255, 255, 255, 255, 255, 255, 255, 255, 255, 255, 255, 255, 255, 254,
   186, 174, 220, 230, 175, 72, 160, 59, 191, 210, 94, 140, 208, 54, 65, 65]

/-- The 32-byte big-endian encoding of `N + 1`. -/
def orderPlusOneScalar : List Nat :=
  [255, 255, 255, 255, 255, 255, 255, 255, 255, 255, 255, 255, 255, 255, 255, 254,
   186, 174, 220, 230, 175, 72, 160, 59, 191, 210, 94, 140, 208, 54, 65, 66]

/-- The 32-byte big-endian encoding of `N + 2`. -/
def orderPlusTwoScalar : List Nat :=
  [255, 255, 255, 255, 255, 255, 255, 255, 255, 255, 255, 255, 255, 255, 255, 254,
   186, 174, 220, 230, 175, 72, 160, 59, 191, 210, 94, 140, 208, 54, 65, 67]


/-! ## The traced loop of `ScalarMult` -/

/-- What one statement of the loop of `ScalarMult` did to the running point:
`doubled x y z` records the result of a call `doubleJacobian`, and
`added x1 y1 z1 x2 y2 z2 x3 y3 z3` the arguments and the result of a call `addJacobian`. -/
inductive Event where
  | doubled (x y z : Int)
  | added (x1 y1 z1 x2 y2 z2 x3 y3 z3 : Int)
  deriving DecidableEq, Repr

/-- The value `h = u2 - u1` that `addJacobian` computes from its arguments, before the sign
correction. -/
def addJacobianH (c : BitCurve) (x1 z1 x2 z2 : Int) : Int :=
  let z1z1 := z1 * z1
  let z1z1 := z1z1 % c.P
  let z2z2 := z2 * z2
  let z2z2 := z2z2 % c.P
  let u1 := x1 * z2z2
  let u1 := u1 % c.P
  let u2 := x2 * z1z1
  let u2 := u2 % c.P
  u2 - u1

/-- The event is not degenerate: the running `Z` it produces is nonzero modulo `P`, and for
a call of `addJacobian` both input `Z` are nonzero and `H = U2 - U1` is nonzero modulo `P`
(the two input points are distinct and not inverses of each other). -/
def Event.Safe (c : BitCurve) : Event → Prop
  | .doubled _ _ z => z % c.P ≠ 0
  | .added x1 _ z1 x2 _ z2 _ _ z3 =>
      z1 % c.P ≠ 0 ∧ z2 % c.P ≠ 0 ∧ addJacobianH c x1 z1 x2 z2 % c.P ≠ 0 ∧ z3 % c.P ≠ 0

/-- The function `bitStep` with a record of the calls it makes. -/
def bitStepTrace (c : BitCurve) (Bx By Bz : Int) (s : LoopState) (byte : Nat) :
    Option (LoopState × List Event) :=
  match (if s.seenFirstTrue then
      (doubleJacobian c s.x s.y s.z).map fun r => (r, [Event.doubled r.1 r.2.1 r.2.2])
    else some ((s.x, s.y, s.z), [])) with
  | none => none
  | some ((x, y, z), evs) =>
    if byte &&& 0x80 = 0x80 then
      if !s.seenFirstTrue then
        some (⟨x, y, z, true⟩, evs)
      else
        match addJacobian c Bx By Bz x y z with
        | none => none
        | some (x3, y3, z3) =>
          some (⟨x3, y3, z3, s.seenFirstTrue⟩, evs ++ [Event.added Bx By Bz x y z x3 y3 z3])
    else some (⟨x, y, z, s.seenFirstTrue⟩, evs)

/-- The function `bitLoop` with a record of the calls it makes. -/
def bitLoopTrace (c : BitCurve) (Bx By Bz : Int) :
    Nat → LoopState → Nat → Option (LoopState × List Event)
  | 0, s, _ => some (s, [])
  | n + 1, s, byte =>
    match bitStepTrace c Bx By Bz s byte with
    | none => none
    | some (s, evs) =>
      (bitLoopTrace c Bx By Bz n s ((byte * 2) % 256)).map fun r => (r.1, evs ++ r.2)

/-- The function `byteLoop` with a record of the calls it makes. -/
def byteLoopTrace (c : BitCurve) (Bx By Bz : Int) :
    LoopState → List Nat → Option (LoopState × List Event)
  | s, [] => some (s, [])
  | s, byte :: k =>
    match bitLoopTrace c Bx By Bz 8 s byte with
    | none => none
    | some (s, evs) => (byteLoopTrace c Bx By Bz s k).map fun r => (r.1, evs ++ r.2)

/-! ## `getPublic` (`warpwallet.go`) -/

/-- Big-endian bytes of `n` without leading zeros, `fuel` bounding the number of bytes. -/
def natBytesFuel : Nat → Nat → List Nat
  | 0, _ => []
  | fuel + 1, n => if n = 0 then [] else natBytesFuel fuel (n / 256) ++ [n % 256]

/-- The library method `big.Int.Bytes`: the absolute value as a big-endian byte slice
without leading zero bytes (empty for zero). -/
def Bytes (x : Int) : List Nat := natBytesFuel x.natAbs x.natAbs

/-- The statement `copy(ret[lo:hi], src)`: the slice expression panics (`none`) unless
`0 ≤ lo ≤ hi ≤ len(ret)`; `copy` then writes the first `min(hi - lo, len(src))` elements
of `src` at `ret[lo], ret[lo+1], ...`. The result is the updated `ret`. -/
def copySlice (ret : List Nat) (lo hi : Int) (src : List Nat) : Option (List Nat) :=
  if 0 ≤ lo ∧ lo ≤ hi ∧ hi ≤ (ret.length : Int) then
    let n := min (hi - lo).toNat src.length
    some (ret.take lo.toNat ++ src.take n ++ ret.drop (lo.toNat + n))
  else none

/-- The function `getPublic` of `warpwallet.go`. The callee `kelliptic.S256().ScalarBaseMult`
belongs to an imported package and is the parameter `scalarBaseMult`; calling `Bytes` on a
nil result panics (`none`). -/
def getPublic (scalarBaseMult : List Nat → Option (Option Int × Option Int))
    (priv_key : List Nat) : Option (List Nat) :=
  match scalarBaseMult priv_key with
  | some (some x, some y) =>
    let xbytes := Bytes x
    let ybytes := Bytes y
    let ret := List.replicate 65 0
    let ret := ret.set 0 4
    match copySlice ret (1 + 32 - (xbytes.length : Int)) 33 xbytes with
    | none => none
    | some ret => copySlice ret (33 + 32 - (ybytes.length : Int)) 65 ybytes
  | _ => none

/-- The 32-byte big-endian encoding of `x`, left-padded with zeros: byte `i` (from the most
significant end) is `x / 256^(31 - i) % 256`. -/
def be32 (x : Int) : List Nat :=
  (List.range 32).map fun i => x.toNat / 256 ^ (31 - i) % 256

/-- The `L`-byte big-endian encoding of `n`, built from the least significant byte. -/
def bePad : Nat → Nat → List Nat
  | 0, _ => []
  | L + 1, n => bePad L (n / 256) ++ [n % 256]


/-! ## The contract of `ModInverse` -/

/-- Invariant of extended Euclid: the returned cofactor times `g` is congruent to the gcd of
the two remainders, given enough fuel. -/
theorem xgcdFuel_modEq (g n : Int) :
    ∀ (fuel r0 r1 : Nat) (s0 s1 : Int), r1 < fuel →
      s0 * g ≡ (r0 : Int) [ZMOD n] → s1 * g ≡ (r1 : Int) [ZMOD n] →
      xgcdFuel fuel r0 r1 s0 s1 * g ≡ (Nat.gcd r0 r1 : Int) [ZMOD n] := by
  intro fuel
  induction fuel with
  | zero => intro r0 r1 s0 s1 h; omega
  | succ fuel ih =>
    intro r0 r1 s0 s1 hlt h0 h1
    unfold xgcdFuel
    by_cases hr : r1 = 0
    · subst hr
      simpa using h0
    · rw [if_neg hr]
      have hpos : 0 < r1 := Nat.pos_of_ne_zero hr
      have hmod : r0 % r1 < fuel := by
        have := Nat.mod_lt r0 hpos
        omega
      have hstep : (s0 - ((r0 / r1 : Nat) : Int) * s1) * g ≡ ((r0 % r1 : Nat) : Int) [ZMOD n] := by
        have e : ((r0 % r1 : Nat) : Int) = (r0 : Int) - ((r0 / r1 : Nat) : Int) * (r1 : Int) := by
          have := Nat.div_add_mod r0 r1
          have h2 : ((r1 * (r0 / r1) + r0 % r1 : Nat) : Int) = (r0 : Int) := by rw [this]
          push_cast at h2 ⊢
          linarith
        rw [e, sub_mul, mul_assoc]
        exact Int.ModEq.sub h0 (Int.ModEq.mul_left _ h1)
      have := ih r1 (r0 % r1) s1 _ hmod h1 hstep
      rwa [Nat.gcd_comm r0 r1, Nat.gcd_rec r1 r0, Nat.gcd_comm]

theorem gcd_emod_toNat (g n : Int) (hn : n ≠ 0) (hg : Int.gcd g n = 1) :
    Nat.gcd n.natAbs (g % n).toNat = 1 := by
  have hnn : 0 ≤ g % n := Int.emod_nonneg _ hn
  have hco : IsCoprime g n := Int.isCoprime_iff_gcd_eq_one.2 hg
  have hco2 : IsCoprime (g % n) n := by
    have e : g % n = g + n * (-(g / n)) := by
      have := Int.emod_add_ediv g n
      linarith
    rw [e]
    exact hco.add_mul_left_left _
  have h1 : Int.gcd (g % n) n = 1 := Int.isCoprime_iff_gcd_eq_one.1 hco2
  rw [Int.gcd_eq_natAbs] at h1
  rw [Nat.gcd_comm]
  have e2 : (g % n).toNat = (g % n).natAbs := by
    apply Int.ofNat_inj.1
    rw [Int.toNat_of_nonneg hnn, Int.natCast_natAbs, abs_of_nonneg hnn]
  rw [e2]
  exact h1

/-- The contract of `ModInverse`: for `g` coprime to `n ≠ 0` it returns `i` in `[0, |n|)`
with `i * g ≡ 1` modulo `n`. -/
theorem ModInverse_spec (g n : Int) (hn : n ≠ 0) (hg : Int.gcd g n = 1) :
    ∃ i, ModInverse g n = some i ∧ 0 ≤ i ∧ i < |n| ∧ i * g ≡ 1 [ZMOD n] := by
  refine ⟨xgcdFuel ((g % n).toNat + 1) n.natAbs (g % n).toNat 0 1 % n,
    by simp [ModInverse, hg], Int.emod_nonneg _ hn, Int.emod_lt _ hn, ?_⟩
  have hnn : 0 ≤ g % n := Int.emod_nonneg _ hn
  have h := xgcdFuel_modEq g n ((g % n).toNat + 1) n.natAbs (g % n).toNat 0 1 (Nat.lt_succ_self _)
    (by
      rw [zero_mul]
      exact (Int.modEq_zero_iff_dvd.2 (by simp)).symm)
    (by
      rw [one_mul, Int.toNat_of_nonneg hnn]
      exact (Int.mod_modEq g n).symm)
  rw [gcd_emod_toNat g n hn hg] at h
  exact (Int.ModEq.mul_right _ (Int.mod_modEq _ n)).trans (by simpa using h)

/-- When `g` and `n` are not coprime `ModInverse` returns the nil pointer. -/
theorem ModInverse_none (g n : Int) (hg : Int.gcd g n ≠ 1) : ModInverse g n = none := by
  simp [ModInverse, hg]


/-! ## Scalar multiplication on concrete scalars -/

/-- Before the first set bit, the inner loop leaves the state unchanged on a zero byte. -/
theorem bitLoop_zero_byte (c : BitCurve) (Bx By Bz x y z : Int) (n : Nat) :
    bitLoop c Bx By Bz n ⟨x, y, z, false⟩ 0 = some ⟨x, y, z, false⟩ := by
  induction n with
  | zero => rfl
  | succ n ih => simpa [bitLoop, bitStep] using ih

/-- Before the first set bit, the outer loop leaves the state unchanged on zero bytes. -/
theorem byteLoop_zero_bytes (c : BitCurve) (Bx By Bz x y z : Int) (m : Nat) :
    byteLoop c Bx By Bz ⟨x, y, z, false⟩ (List.replicate m 0) = some ⟨x, y, z, false⟩ := by
  induction m with
  | zero => rfl
  | succ m ih => simp [List.replicate_succ, byteLoop, bitLoop_zero_byte, ih]

/-- C2: on the S256 curve, `ScalarBaseMult` of the 32-byte big-endian scalar `0x00...01`
returns exactly the base point `(Gx, Gy)`. -/
theorem ScalarBaseMult_one :
    ScalarBaseMult S256 (scalar32 1) = some (some S256.Gx, some S256.Gy) := by
  decide

/-- C3: for every curve, every input point and every scalar made of `m` zero bytes (any
`m`, the empty scalar included), `ScalarMult` returns the pair `nil, nil`, which is not the
point `(0, 0)`; in particular `ScalarBaseMult` on S256 returns `nil, nil` on the all-zero
32-byte scalar. -/
theorem ScalarMult_zero_scalar (c : BitCurve) (Bx By : Int) (m : Nat) :
    ScalarMult c Bx By (List.replicate m 0) = some (none, none) ∧
    ScalarMult c Bx By (List.replicate m 0) ≠ some (some 0, some 0) ∧
    ScalarBaseMult S256 (List.replicate 32 0) = some (none, none) := by
  have h : ∀ (c : BitCurve) (Bx By : Int) (m : Nat),
      ScalarMult c Bx By (List.replicate m 0) = some (none, none) := by
    intro c Bx By m
    simp [ScalarMult, byteLoop_zero_bytes]
  refine ⟨h c Bx By m, ?_, h _ _ _ 32⟩
  rw [h]; simp

set_option maxRecDepth 100000 in
/-- C4: on the S256 curve, `ScalarBaseMult` of the 32-byte big-endian scalar 2 returns the
published double of the secp256k1 base point. -/
theorem ScalarBaseMult_two :
    ScalarBaseMult S256 (scalar32 2) =
      some (some 0xC6047F9441ED7D6D3045406E95C07CD85C778E4B8CEF3CA7ABAC09B95C709EE5,
            some 0x1AE168FEA63DC339A3C58419466CEAEEF7F632653266D0E1236431A950CFE52A) := by
  decide

set_option maxRecDepth 100000 in
/-- C6: on the S256 curve, the step "lift with `Z = 1`, `doubleJacobian`,
`affineFromJacobian`" applied twice to the base point gives the same affine point as
`ScalarBaseMult` of the 32-byte big-endian scalar 4. -/
theorem double_twice_eq_ScalarBaseMult_four :
    ((liftDoubleAffine S256 S256.Gx S256.Gy).bind fun p => liftDoubleAffine S256 p.1 p.2) =
      some (0xE493DBF1C10D80F3581E4904930B1404CC6C13900EE0758474FA94ABE8C4CD13,
        0x51ED993EA0D455B75642E2098EA51448D967AE33BFBDFE40CFE97BDC47739922) ∧
    ScalarBaseMult S256 (scalar32 4) =
      some (some 0xE493DBF1C10D80F3581E4904930B1404CC6C13900EE0758474FA94ABE8C4CD13,
        some 0x51ED993EA0D455B75642E2098EA51448D967AE33BFBDFE40CFE97BDC47739922) := by
  constructor <;> decide

/-! ## `affineFromJacobian` -/

/-- For `P > 1` and `Z` coprime to `P`, `affineFromJacobian` returns reduced coordinates
with `xOut * Z^2 ≡ X` and `yOut * Z^3 ≡ Y` modulo `P`. -/
theorem affineFromJacobian_modEq (c : BitCurve) (X Y Z : Int) (hP : 1 < c.P)
    (hZ : Int.gcd Z c.P = 1) :
    ∃ xOut yOut, affineFromJacobian c X Y Z = some (xOut, yOut) ∧
      0 ≤ xOut ∧ xOut < c.P ∧ 0 ≤ yOut ∧ yOut < c.P ∧
      xOut * Z ^ 2 ≡ X [ZMOD c.P] ∧ yOut * Z ^ 3 ≡ Y [ZMOD c.P] := by
  have hP0 : c.P ≠ 0 := by omega
  have hPpos : 0 < c.P := by omega
  obtain ⟨i, hi, -, -, hinv⟩ := ModInverse_spec Z c.P hP0 hZ
  refine ⟨X * (i * i) % c.P, Y * (i * i * i) % c.P, by simp [affineFromJacobian, hP0, hi],
    Int.emod_nonneg _ hP0, Int.emod_lt_of_pos _ hPpos, Int.emod_nonneg _ hP0,
    Int.emod_lt_of_pos _ hPpos, ?_, ?_⟩
  · have h1 : X * (i * i) % c.P * Z ^ 2 ≡ X * (i * i) * Z ^ 2 [ZMOD c.P] :=
      Int.ModEq.mul_right _ (Int.mod_modEq _ _)
    have h2 : X * (i * i) * Z ^ 2 = X * (i * Z) ^ 2 := by ring
    have h3 : X * (i * Z) ^ 2 ≡ X * 1 ^ 2 [ZMOD c.P] := Int.ModEq.mul_left _ (hinv.pow 2)
    rw [h2] at h1
    simpa using h1.trans h3
  · have h1 : Y * (i * i * i) % c.P * Z ^ 3 ≡ Y * (i * i * i) * Z ^ 3 [ZMOD c.P] :=
      Int.ModEq.mul_right _ (Int.mod_modEq _ _)
    have h2 : Y * (i * i * i) * Z ^ 3 = Y * (i * Z) ^ 3 := by ring
    have h3 : Y * (i * Z) ^ 3 ≡ Y * 1 ^ 3 [ZMOD c.P] := Int.ModEq.mul_left _ (hinv.pow 3)
    rw [h2] at h1
    simpa using h1.trans h3

/-- With `Z = 1`, `affineFromJacobian` returns reduced coordinates unchanged. -/
theorem affineFromJacobian_one (c : BitCurve) (x y : Int) (hP : 1 < c.P)
    (hx0 : 0 ≤ x) (hx : x < c.P) (hy0 : 0 ≤ y) (hy : y < c.P) :
    affineFromJacobian c x y 1 = some (x, y) := by
  obtain ⟨xOut, yOut, h, hx0', hx', hy0', hy', h1, h2⟩ :=
    affineFromJacobian_modEq c x y 1 hP (by simp)
  rw [h]
  simp only [one_pow, mul_one] at h1 h2
  have e1 : xOut = x := by
    have := h1.eq
    rwa [Int.emod_eq_of_lt hx0' hx', Int.emod_eq_of_lt hx0 hx] at this
  have e2 : yOut = y := by
    have := h2.eq
    rwa [Int.emod_eq_of_lt hy0' hy', Int.emod_eq_of_lt hy0 hy] at this
  rw [e1, e2]

/-- C8: `affineFromJacobian` reverses the Jacobian transform. For `P > 1` and `Z`
invertible modulo `P` it returns `(xOut, yOut)` with both coordinates in `[0, P)`,
`xOut * Z^2 ≡ X` and `yOut * Z^3 ≡ Y` modulo `P`. -/
theorem affineFromJacobian_reverses (c : BitCurve) (X Y Z : Int) (hP : 1 < c.P)
    (hZ : Int.gcd Z c.P = 1) :
    ∃ xOut yOut, affineFromJacobian c X Y Z = some (xOut, yOut) ∧
      0 ≤ xOut ∧ xOut < c.P ∧ 0 ≤ yOut ∧ yOut < c.P ∧
      xOut * Z ^ 2 ≡ X [ZMOD c.P] ∧ yOut * Z ^ 3 ≡ Y [ZMOD c.P] :=
  affineFromJacobian_modEq c X Y Z hP hZ

/-- The hypotheses of `affineFromJacobian_reverses` hold on S256 for the Jacobian form
`(4 Gx, 8 Gy, 2)` of the base point. -/
theorem affineFromJacobian_reverses_witness :
    1 < S256.P ∧ Int.gcd 2 S256.P = 1 ∧
    ∃ xOut yOut, affineFromJacobian S256 (4 * S256.Gx) (8 * S256.Gy) 2 = some (xOut, yOut) ∧
      0 ≤ xOut ∧ xOut < S256.P ∧ 0 ≤ yOut ∧ yOut < S256.P ∧
      xOut * 2 ^ 2 ≡ 4 * S256.Gx [ZMOD S256.P] ∧ yOut * 2 ^ 3 ≡ 8 * S256.Gy [ZMOD S256.P] :=
  ⟨by decide, by decide,
    affineFromJacobian_reverses S256 (4 * S256.Gx) (8 * S256.Gy) 2 (by decide) (by decide)⟩

/-- C7: round trip. For every curve with `P > 1` and every affine point with both
coordinates in `[0, P)`, `affineFromJacobian (x, y, 1)` returns `(x, y)` unchanged. -/
theorem affineFromJacobian_lift (c : BitCurve) (x y : Int) (hP : 1 < c.P)
    (hx0 : 0 ≤ x) (hx : x < c.P) (hy0 : 0 ≤ y) (hy : y < c.P) :
    affineFromJacobian c x y 1 = some (x, y) :=
  affineFromJacobian_one c x y hP hx0 hx hy0 hy

/-- The hypotheses of `affineFromJacobian_lift` hold on S256 for the base point. -/
theorem affineFromJacobian_lift_witness :
    1 < S256.P ∧ 0 ≤ S256.Gx ∧ S256.Gx < S256.P ∧ 0 ≤ S256.Gy ∧ S256.Gy < S256.P ∧
    affineFromJacobian S256 S256.Gx S256.Gy 1 = some (S256.Gx, S256.Gy) :=
  ⟨by decide, by decide, by decide, by decide, by decide,
    affineFromJacobian_lift S256 S256.Gx S256.Gy (by decide) (by decide) (by decide)
      (by decide) (by decide)⟩

/-! ## From integers modulo `P` to the field `ZMod p` -/

section Field

variable {p : Nat} [Fact p.Prime]

theorem cast_emod (a : Int) : (((a % (p : Int) : Int)) : ZMod p) = (a : ZMod p) :=
  ZMod.intCast_mod a p

theorem cast_eq_zero_iff (a : Int) : (a : ZMod p) = 0 ↔ (p : Int) ∣ a :=
  ZMod.intCast_zmod_eq_zero_iff_dvd a p

theorem eq_of_cast_eq {a b : Int} (ha0 : 0 ≤ a) (ha : a < p) (hb0 : 0 ≤ b) (hb : b < p)
    (h : (a : ZMod p) = (b : ZMod p)) : a = b := by
  have := ((ZMod.intCast_eq_intCast_iff a b p).1 h).eq
  rwa [Int.emod_eq_of_lt ha0 ha, Int.emod_eq_of_lt hb0 hb] at this

theorem gcd_eq_one_of_not_dvd {a : Int} (h : ¬ (p : Int) ∣ a) : Int.gcd a p = 1 := by
  have hp : Nat.Prime p := Fact.out
  have : Nat.Coprime p a.natAbs := by
    rw [Nat.Prime.coprime_iff_not_dvd hp]
    intro hd
    exact h (Int.natCast_dvd.2 hd)
  rw [Int.gcd_eq_natAbs, Int.natAbs_ofNat]
  exact this.symm

theorem one_lt_cast : (1 : Int) < (p : Int) := by
  have hp : Nat.Prime p := Fact.out
  exact_mod_cast hp.one_lt

theorem ModInverse_cast {a : Int} (h : ¬ (p : Int) ∣ a) :
    ∃ i, ModInverse a p = some i ∧ (i : ZMod p) = (a : ZMod p)⁻¹ := by
  have hp1 := one_lt_cast (p := p)
  obtain ⟨i, hi, -, -, hinv⟩ := ModInverse_spec a p (by omega) (gcd_eq_one_of_not_dvd h)
  refine ⟨i, hi, ?_⟩
  have h1 : ((i * a : Int) : ZMod p) = ((1 : Int) : ZMod p) :=
    (ZMod.intCast_eq_intCast_iff _ _ p).2 hinv
  push_cast at h1
  exact eq_inv_of_mul_eq_one_left h1

/-- In the field `ZMod p`, `affineFromJacobian` computes `X / Z^2` and `Y / Z^3`. -/
theorem affineFromJacobian_cast (c : BitCurve) (hc : c.P = p) (X Y Z : Int)
    (hZ : ¬ (p : Int) ∣ Z) :
    ∃ x y, affineFromJacobian c X Y Z = some (x, y) ∧ 0 ≤ x ∧ x < p ∧ 0 ≤ y ∧ y < p ∧
      (x : ZMod p) = (X : ZMod p) / (Z : ZMod p) ^ 2 ∧
      (y : ZMod p) = (Y : ZMod p) / (Z : ZMod p) ^ 3 := by
  have hp1 := one_lt_cast (p := p)
  obtain ⟨x, y, h, hx0, hx, hy0, hy, h1, h2⟩ :=
    affineFromJacobian_modEq c X Y Z (by omega) (by rw [hc]; exact gcd_eq_one_of_not_dvd hZ)
  rw [hc] at hx hy h1 h2
  have hz : (Z : ZMod p) ≠ 0 := fun h0 => hZ ((cast_eq_zero_iff Z).1 h0)
  refine ⟨x, y, h, hx0, hx, hy0, hy, ?_, ?_⟩
  · have := (ZMod.intCast_eq_intCast_iff _ _ p).2 h1
    push_cast at this
    exact (eq_div_iff (pow_ne_zero 2 hz)).2 this
  · have := (ZMod.intCast_eq_intCast_iff _ _ p).2 h2
    push_cast at this
    exact (eq_div_iff (pow_ne_zero 3 hz)).2 this

/-- The outputs of `doubleJacobian`, read in `ZMod p`. -/
theorem doubleJacobian_cast (c : BitCurve) (hc : c.P = p) (X Y Z : Int) :
    ∃ X' Y' Z', doubleJacobian c X Y Z = some (X', Y', Z') ∧
      (X' : ZMod p) = 9 * (X : ZMod p) ^ 4 - 8 * X * (Y : ZMod p) ^ 2 ∧
      (Y' : ZMod p) = 3 * (X : ZMod p) ^ 2 * (4 * X * (Y : ZMod p) ^ 2 - X') - 8 * (Y : ZMod p) ^ 4 ∧
      (Z' : ZMod p) = 2 * Y * Z := by
  have hp1 := one_lt_cast (p := p)
  have hP0 : c.P ≠ 0 := by omega
  refine ⟨_, _, _, by simp only [doubleJacobian, if_neg hP0]; rfl, ?_, ?_, ?_⟩
  · rw [hc]; push_cast [cast_emod]; ring
  · rw [hc]; push_cast [cast_emod]; ring
  · rw [hc]; push_cast [cast_emod]; ring


theorem cast_renorm (h : Int) :
    (((if h < 0 then h + (p : Int) else h : Int)) : ZMod p) = (h : ZMod p) := by
  split_ifs <;> simp

/-- The outputs of `addJacobian`, read in `ZMod p`. -/
theorem addJacobian_cast (c : BitCurve) (hc : c.P = p) (X1 Y1 Z1 X2 Y2 Z2 : Int) :
    ∃ X3 Y3 Z3, addJacobian c X1 Y1 Z1 X2 Y2 Z2 = some (X3, Y3, Z3) ∧
      (X3 : ZMod p) = (2 * ((Y2 : ZMod p) * Z1 ^ 3 - Y1 * Z2 ^ 3)) ^ 2
          - 4 * ((X2 : ZMod p) * Z1 ^ 2 - X1 * Z2 ^ 2) ^ 3
          - 8 * (X1 * Z2 ^ 2) * ((X2 : ZMod p) * Z1 ^ 2 - X1 * Z2 ^ 2) ^ 2 ∧
      (Y3 : ZMod p) = (2 * ((Y2 : ZMod p) * Z1 ^ 3 - Y1 * Z2 ^ 3))
            * (4 * (X1 * Z2 ^ 2) * ((X2 : ZMod p) * Z1 ^ 2 - X1 * Z2 ^ 2) ^ 2 - X3)
          - 8 * (Y1 * Z2 ^ 3) * ((X2 : ZMod p) * Z1 ^ 2 - X1 * Z2 ^ 2) ^ 3 ∧
      (Z3 : ZMod p) = 2 * Z1 * Z2 * ((X2 : ZMod p) * Z1 ^ 2 - X1 * Z2 ^ 2) := by
  have hp1 := one_lt_cast (p := p)
  have hP0 : c.P ≠ 0 := by omega
  refine ⟨_, _, _, by simp only [addJacobian, if_neg hP0]; rfl, ?_, ?_, ?_⟩
  · rw [hc]; simp only [Int.cast_mul, Int.cast_sub, Int.cast_add, Int.cast_ofNat, cast_emod, cast_renorm]; ring
  · rw [hc]; simp only [Int.cast_mul, Int.cast_sub, Int.cast_add, Int.cast_ofNat, cast_emod, cast_renorm]; ring
  · rw [hc]; simp only [Int.cast_mul, Int.cast_sub, Int.cast_add, Int.cast_ofNat, cast_emod, cast_renorm]; ring

/-- The outputs of the tangent rule `affineDouble`, read in `ZMod p`. -/
theorem affineDouble_cast (x y : Int) (hy : ¬ (p : Int) ∣ 2 * y) :
    ∃ x' y', affineDouble p x y = some (x', y') ∧ 0 ≤ x' ∧ x' < p ∧ 0 ≤ y' ∧ y' < p ∧
      (x' : ZMod p) = (3 * (x : ZMod p) ^ 2 / (2 * y)) ^ 2 - 2 * x ∧
      (y' : ZMod p) = (3 * (x : ZMod p) ^ 2 / (2 * y)) * (x - x') - y := by
  have hp1 := one_lt_cast (p := p)
  have hp0 : (p : Int) ≠ 0 := by omega
  have hpp : (0 : Int) < p := by omega
  obtain ⟨i, hi, hinv⟩ := ModInverse_cast hy
  refine ⟨_, _, by simp only [affineDouble, hi]; rfl, Int.emod_nonneg _ hp0,
    Int.emod_lt_of_pos _ hpp, Int.emod_nonneg _ hp0, Int.emod_lt_of_pos _ hpp, ?_, ?_⟩
  · push_cast [cast_emod, hinv]; ring
  · push_cast [cast_emod, hinv]; ring

/-- The outputs of the chord rule `affineAdd`, read in `ZMod p`. -/
theorem affineAdd_cast (x1 y1 x2 y2 : Int) (hx : ¬ (p : Int) ∣ x2 - x1) :
    ∃ x3 y3, affineAdd p x1 y1 x2 y2 = some (x3, y3) ∧ 0 ≤ x3 ∧ x3 < p ∧ 0 ≤ y3 ∧ y3 < p ∧
      (x3 : ZMod p) = (((y2 : ZMod p) - y1) / (x2 - x1)) ^ 2 - x1 - x2 ∧
      (y3 : ZMod p) = (((y2 : ZMod p) - y1) / (x2 - x1)) * (x1 - x3) - y1 := by
  have hp1 := one_lt_cast (p := p)
  have hp0 : (p : Int) ≠ 0 := by omega
  have hpp : (0 : Int) < p := by omega
  obtain ⟨i, hi, hinv⟩ := ModInverse_cast hx
  refine ⟨_, _, by simp only [affineAdd, hi]; rfl, Int.emod_nonneg _ hp0,
    Int.emod_lt_of_pos _ hpp, Int.emod_nonneg _ hp0, Int.emod_lt_of_pos _ hpp, ?_, ?_⟩
  · push_cast [cast_emod, hinv]; ring
  · push_cast [cast_emod, hinv]; ring


/-- The field identity behind `doubleJacobian`: the formulas of dbl-2009-l on `(x Z², y Z³, Z)`
give the tangent-rule double of `(x, y)`. -/
theorem double_field_identity {F : Type*} [Field F] (x y Z X' : F) (hy : y ≠ 0) (hZ : Z ≠ 0)
    (h2 : (2 : F) ≠ 0) :
    (9 * (x * Z ^ 2) ^ 4 - 8 * (x * Z ^ 2) * (y * Z ^ 3) ^ 2) / (2 * (y * Z ^ 3) * Z) ^ 2 =
        (3 * x ^ 2 / (2 * y)) ^ 2 - 2 * x ∧
    (3 * (x * Z ^ 2) ^ 2 * (4 * (x * Z ^ 2) * (y * Z ^ 3) ^ 2 - X') - 8 * (y * Z ^ 3) ^ 4) /
        (2 * (y * Z ^ 3) * Z) ^ 3 =
        (3 * x ^ 2 / (2 * y)) * (x - X' / (2 * (y * Z ^ 3) * Z) ^ 2) - y := by
  have hd : 2 * (y * Z ^ 3) * Z ≠ 0 :=
    mul_ne_zero (mul_ne_zero h2 (mul_ne_zero hy (pow_ne_zero 3 hZ))) hZ
  have hy2 : 2 * y ≠ 0 := mul_ne_zero h2 hy
  constructor
  · field_simp
    ring
  · field_simp
    ring

/-- The field identity behind `addJacobian`: the formulas of add-2007-bl on
`(x1 Z1², y1 Z1³, Z1)` and `(x2 Z2², y2 Z2³, Z2)` give the chord-rule sum. -/
theorem add_field_identity {F : Type*} [Field F] (x1 y1 Z1 x2 y2 Z2 X3 : F) (hZ1 : Z1 ≠ 0)
    (hZ2 : Z2 ≠ 0) (hx : x2 - x1 ≠ 0) (h2 : (2 : F) ≠ 0) :
    ((2 * ((y2 * Z2 ^ 3) * Z1 ^ 3 - (y1 * Z1 ^ 3) * Z2 ^ 3)) ^ 2
          - 4 * ((x2 * Z2 ^ 2) * Z1 ^ 2 - (x1 * Z1 ^ 2) * Z2 ^ 2) ^ 3
          - 8 * ((x1 * Z1 ^ 2) * Z2 ^ 2) * ((x2 * Z2 ^ 2) * Z1 ^ 2 - (x1 * Z1 ^ 2) * Z2 ^ 2) ^ 2) /
        (2 * Z1 * Z2 * ((x2 * Z2 ^ 2) * Z1 ^ 2 - (x1 * Z1 ^ 2) * Z2 ^ 2)) ^ 2 =
        ((y2 - y1) / (x2 - x1)) ^ 2 - x1 - x2 ∧
    ((2 * ((y2 * Z2 ^ 3) * Z1 ^ 3 - (y1 * Z1 ^ 3) * Z2 ^ 3))
            * (4 * ((x1 * Z1 ^ 2) * Z2 ^ 2) * ((x2 * Z2 ^ 2) * Z1 ^ 2 - (x1 * Z1 ^ 2) * Z2 ^ 2) ^ 2 - X3)
          - 8 * ((y1 * Z1 ^ 3) * Z2 ^ 3) * ((x2 * Z2 ^ 2) * Z1 ^ 2 - (x1 * Z1 ^ 2) * Z2 ^ 2) ^ 3) /
        (2 * Z1 * Z2 * ((x2 * Z2 ^ 2) * Z1 ^ 2 - (x1 * Z1 ^ 2) * Z2 ^ 2)) ^ 3 =
        ((y2 - y1) / (x2 - x1)) *
          (x1 - X3 / (2 * Z1 * Z2 * ((x2 * Z2 ^ 2) * Z1 ^ 2 - (x1 * Z1 ^ 2) * Z2 ^ 2)) ^ 2) - y1 := by
  have e : (x2 * Z2 ^ 2) * Z1 ^ 2 - (x1 * Z1 ^ 2) * Z2 ^ 2 = (x2 - x1) * (Z1 ^ 2 * Z2 ^ 2) := by ring
  have hd : 2 * Z1 * Z2 * ((x2 - x1) * (Z1 ^ 2 * Z2 ^ 2)) ≠ 0 :=
    mul_ne_zero (mul_ne_zero (mul_ne_zero h2 hZ1) hZ2)
      (mul_ne_zero hx (mul_ne_zero (pow_ne_zero 2 hZ1) (pow_ne_zero 2 hZ2)))
  rw [e]
  constructor
  · field_simp
    ring
  · field_simp
    ring

theorem two_ne_zero_cast (hodd : p ≠ 2) : (2 : ZMod p) ≠ 0 := by
  have hp : Nat.Prime p := Fact.out
  intro h
  have h' : ((2 : Nat) : ZMod p) = 0 := by exact_mod_cast h
  rw [ZMod.natCast_zmod_eq_zero_iff_dvd] at h'
  exact hodd ((Nat.prime_dvd_prime_iff_eq hp Nat.prime_two).1 h')

theorem cast_ne_zero_of_not_dvd {a : Int} (h : ¬ (p : Int) ∣ a) : (a : ZMod p) ≠ 0 :=
  fun h0 => h ((cast_eq_zero_iff a).1 h0)

theorem not_dvd_of_cast_ne_zero {a : Int} (h : (a : ZMod p) ≠ 0) : ¬ (p : Int) ∣ a :=
  fun h0 => h ((cast_eq_zero_iff a).2 h0)

/-- For an odd prime, `doubleJacobian` followed by `affineFromJacobian` is the tangent rule on
the affine point. -/
theorem doubleJacobian_affine (c : BitCurve) (hc : c.P = p) (hodd : p ≠ 2) (X Y Z : Int)
    (hZ : ¬ (p : Int) ∣ Z) (hY : ¬ (p : Int) ∣ Y) :
    ∃ X' Y' Z' x y x' y', doubleJacobian c X Y Z = some (X', Y', Z') ∧ ¬ (p : Int) ∣ Z' ∧
      affineFromJacobian c X Y Z = some (x, y) ∧
      affineDouble c.P x y = some (x', y') ∧
      affineFromJacobian c X' Y' Z' = some (x', y') := by
  have h2 := two_ne_zero_cast hodd
  have hz := cast_ne_zero_of_not_dvd hZ
  have hy := cast_ne_zero_of_not_dvd hY
  obtain ⟨x, y, hxy, hx0, hx1, hy0, hy1, ex, ey⟩ := affineFromJacobian_cast c hc X Y Z hZ
  obtain ⟨X', Y', Z', hd, eX', eY', eZ'⟩ := doubleJacobian_cast c hc X Y Z
  have hz' : (Z' : ZMod p) ≠ 0 := by
    rw [eZ']; exact mul_ne_zero (mul_ne_zero h2 hy) hz
  have hZ' := not_dvd_of_cast_ne_zero hz'
  have hyc : (y : ZMod p) ≠ 0 := by
    rw [ey]; exact div_ne_zero hy (pow_ne_zero 3 hz)
  have h2y : ¬ (p : Int) ∣ 2 * y := by
    apply not_dvd_of_cast_ne_zero
    push_cast
    exact mul_ne_zero h2 hyc
  obtain ⟨x', y', hdbl, hx'0, hx'1, hy'0, hy'1, ex', ey'⟩ := affineDouble_cast x y h2y
  obtain ⟨x'', y'', haff, hx''0, hx''1, hy''0, hy''1, ex'', ey''⟩ :=
    affineFromJacobian_cast c hc X' Y' Z' hZ'
  have eX : (X : ZMod p) = x * (Z : ZMod p) ^ 2 := by
    rw [ex]; field_simp
  have eY : (Y : ZMod p) = y * (Z : ZMod p) ^ 3 := by
    rw [ey]; field_simp
  obtain ⟨id1, id2⟩ := double_field_identity (x : ZMod p) (y : ZMod p) (Z : ZMod p) (X' : ZMod p)
    hyc hz h2
  have e1 : x'' = x' := by
    apply eq_of_cast_eq hx''0 hx''1 hx'0 hx'1
    rw [ex'', ex', eX', eZ', eX, eY]
    exact id1
  have e2 : y'' = y' := by
    apply eq_of_cast_eq hy''0 hy''1 hy'0 hy'1
    rw [ey'', ey', eY', ex', eZ', eX, eY]
    rw [← id1, ← eX, ← eY, ← eX', eX, eY]
    exact id2
  refine ⟨X', Y', Z', x, y, x', y', hd, hZ', hxy, by rw [hc]; exact hdbl, ?_⟩
  rw [haff, e1, e2]

/-- For an odd prime, `addJacobian` followed by `affineFromJacobian` is the chord rule on two
affine points with distinct x-coordinates. -/
theorem addJacobian_affine (c : BitCurve) (hc : c.P = p) (hodd : p ≠ 2)
    (X1 Y1 Z1 X2 Y2 Z2 x1 y1 x2 y2 : Int)
    (hZ1 : ¬ (p : Int) ∣ Z1) (hZ2 : ¬ (p : Int) ∣ Z2)
    (h1 : affineFromJacobian c X1 Y1 Z1 = some (x1, y1))
    (h2 : affineFromJacobian c X2 Y2 Z2 = some (x2, y2)) (hx : x1 ≠ x2) :
    ∃ X3 Y3 Z3 x3 y3, addJacobian c X1 Y1 Z1 X2 Y2 Z2 = some (X3, Y3, Z3) ∧
      ¬ (p : Int) ∣ Z3 ∧
      affineAdd c.P x1 y1 x2 y2 = some (x3, y3) ∧
      affineFromJacobian c X3 Y3 Z3 = some (x3, y3) := by
  have h2' := two_ne_zero_cast hodd
  have hz1 := cast_ne_zero_of_not_dvd hZ1
  have hz2 := cast_ne_zero_of_not_dvd hZ2
  obtain ⟨a1, b1, hxy1, hx10, hx11, hy10, hy11, ex1, ey1⟩ :=
    affineFromJacobian_cast c hc X1 Y1 Z1 hZ1
  obtain ⟨a2, b2, hxy2, hx20, hx21, hy20, hy21, ex2, ey2⟩ :=
    affineFromJacobian_cast c hc X2 Y2 Z2 hZ2
  rw [h1] at hxy1
  rw [h2] at hxy2
  simp only [Option.some.injEq, Prod.mk.injEq] at hxy1 hxy2
  obtain ⟨rfl, rfl⟩ := hxy1
  obtain ⟨rfl, rfl⟩ := hxy2
  have hxc : (x2 : ZMod p) - (x1 : ZMod p) ≠ 0 := by
    intro h0
    exact hx (eq_of_cast_eq hx10 hx11 hx20 hx21 (sub_eq_zero.1 h0).symm)
  have hxd : ¬ (p : Int) ∣ x2 - x1 := by
    apply not_dvd_of_cast_ne_zero
    push_cast
    exact hxc
  have eX1 : (X1 : ZMod p) = x1 * (Z1 : ZMod p) ^ 2 := by
    rw [ex1]; field_simp
  have eY1 : (Y1 : ZMod p) = y1 * (Z1 : ZMod p) ^ 3 := by
    rw [ey1]; field_simp
  have eX2 : (X2 : ZMod p) = x2 * (Z2 : ZMod p) ^ 2 := by
    rw [ex2]; field_simp
  have eY2 : (Y2 : ZMod p) = y2 * (Z2 : ZMod p) ^ 3 := by
    rw [ey2]; field_simp
  obtain ⟨X3, Y3, Z3, hadd, eX3, eY3, eZ3⟩ := addJacobian_cast c hc X1 Y1 Z1 X2 Y2 Z2
  have hz3 : (Z3 : ZMod p) ≠ 0 := by
    rw [eZ3, eX1, eX2]
    have e : (x2 : ZMod p) * (Z2 : ZMod p) ^ 2 * (Z1 : ZMod p) ^ 2
        - (x1 : ZMod p) * (Z1 : ZMod p) ^ 2 * (Z2 : ZMod p) ^ 2
        = ((x2 : ZMod p) - x1) * ((Z1 : ZMod p) ^ 2 * (Z2 : ZMod p) ^ 2) := by ring
    rw [e]
    exact mul_ne_zero (mul_ne_zero (mul_ne_zero h2' hz1) hz2)
      (mul_ne_zero hxc (mul_ne_zero (pow_ne_zero 2 hz1) (pow_ne_zero 2 hz2)))
  have hZ3 := not_dvd_of_cast_ne_zero hz3
  obtain ⟨x3, y3, hsum, hx30, hx31, hy30, hy31, ex3, ey3⟩ := affineAdd_cast x1 y1 x2 y2 hxd
  obtain ⟨x3', y3', haff, hx30', hx31', hy30', hy31', ex3', ey3'⟩ :=
    affineFromJacobian_cast c hc X3 Y3 Z3 hZ3
  obtain ⟨id1, id2⟩ := add_field_identity (x1 : ZMod p) (y1 : ZMod p) (Z1 : ZMod p)
    (x2 : ZMod p) (y2 : ZMod p) (Z2 : ZMod p) (X3 : ZMod p) hz1 hz2 hxc h2'
  have e1 : x3' = x3 := by
    apply eq_of_cast_eq hx30' hx31' hx30 hx31
    rw [ex3', ex3, eX3, eZ3, eX1, eY1, eX2, eY2]
    exact id1
  have e2 : y3' = y3 := by
    apply eq_of_cast_eq hy30' hy31' hy30 hy31
    rw [ey3', ey3, eY3, ex3, eZ3, eX1, eY1, eX2, eY2]
    rw [← id1, ← eX1, ← eY1, ← eX2, ← eY2, ← eX3, eX1, eY1, eX2, eY2]
    exact id2
  refine ⟨X3, Y3, Z3, x3, y3, hadd, hZ3, by rw [hc]; exact hsum, ?_⟩
  rw [haff, e1, e2]

end Field

/-! ## The reference group law and the group of points of `curveW` -/

section Group

open WeierstrassCurve

variable {p : Nat} [Fact p.Prime] {B : Int}

omit [Fact p.Prime] in
theorem represents_none_iff (Q : (curveW p B).Point) : Represents p B none Q ↔ Q = 0 := by
  cases Q with
  | zero => simp [Represents, Affine.Point.zero_def]
  | some h => simp [Represents, Affine.Point.some_ne_zero]

omit [Fact p.Prime] in
theorem represents_zero_iff (q : Option (Int × Int)) :
    Represents p B q (0 : (curveW p B).Point) ↔ q = none := by
  cases q with
  | none => simp [represents_none_iff]
  | some a =>
    obtain ⟨x, y⟩ := a
    simp only [reduceCtorEq, iff_false]
    intro h
    exact h

theorem represents_unique {q q' : Option (Int × Int)} {Q : (curveW p B).Point}
    (h : Represents p B q Q) (h' : Represents p B q' Q) : q = q' := by
  cases Q with
  | zero =>
    rw [Affine.Point.zero_def] at h h'
    rw [(represents_zero_iff q).1 h, (represents_zero_iff q').1 h']
  | some hns =>
    cases q with
    | none => exact h.elim
    | some a =>
      cases q' with
      | none => exact h'.elim
      | some a' =>
        obtain ⟨x, y⟩ := a
        obtain ⟨x', y'⟩ := a'
        obtain ⟨h1, h2, h3, h4, h5, h6⟩ := h
        obtain ⟨h1', h2', h3', h4', h5', h6'⟩ := h'
        rw [eq_of_cast_eq h1 h2 h1' h2' (h5.trans h5'.symm),
          eq_of_cast_eq h3 h4 h3' h4' (h6.trans h6'.symm)]

/-- The reference law `ecAdd` is the addition of the group of points of `curveW p B`. -/
theorem ecAdd_represents {q1 q2 : Option (Int × Int)} {Q1 Q2 : (curveW p B).Point}
    (h1 : Represents p B q1 Q1) (h2 : Represents p B q2 Q2) :
    Represents p B (ecAdd p q1 q2) (Q1 + Q2) := by
  have hp1 := one_lt_cast (p := p)
  have hp0 : (p : Int) ≠ 0 := by omega
  cases Q1 with
  | zero =>
    rw [Affine.Point.zero_def] at h1 ⊢
    rw [(represents_zero_iff q1).1 h1, zero_add]
    simpa [ecAdd] using h2
  | some hns1 =>
    rename_i x1' y1'
    cases q1 with
    | none => exact h1.elim
    | some a1 =>
      obtain ⟨x1, y1⟩ := a1
      cases Q2 with
      | zero =>
        rw [Affine.Point.zero_def] at h2 ⊢
        rw [(represents_zero_iff q2).1 h2, add_zero]
        simpa [ecAdd] using h1
      | some hns2 =>
        rename_i x2' y2'
        cases q2 with
        | none => exact h2.elim
        | some a2 =>
          obtain ⟨x2, y2⟩ := a2
          obtain ⟨hx10, hx11, hy10, hy11, ex1, ey1⟩ := h1
          obtain ⟨hx20, hx21, hy20, hy21, ex2, ey2⟩ := h2
          have hW1 : (curveW p B).a₁ = 0 := rfl
          have hW2 : (curveW p B).a₂ = 0 := rfl
          have hW3 : (curveW p B).a₃ = 0 := rfl
          have hW4 : (curveW p B).a₄ = 0 := rfl
          by_cases hx : x1' = x2'
          · have hxi : x1 = x2 := eq_of_cast_eq hx10 hx11 hx20 hx21 (by rw [ex1, ex2, hx])
            subst hxi
            by_cases hy : y1' = (curveW p B).negY x2' y2'
            · rw [Affine.Point.add_of_Y_eq hx hy]
              have hsum : (y1 + y2) % (p : Int) = 0 := by
                apply Int.emod_eq_zero_of_dvd
                apply (cast_eq_zero_iff _).1
                push_cast
                rw [ey1, ey2, hy]
                simp [Affine.negY, hW1, hW3]
              simp [ecAdd, hsum, Represents, Affine.Point.zero_def]
            · have hyy : y1' = y2' := Affine.Y_eq_of_Y_ne hns1.1 hns2.1 hx hy
              have hne : y1' + y2' ≠ 0 := by
                intro h0
                apply hy
                simp only [Affine.negY, hW1, hW3]
                linear_combination h0
              have hsum : (y1 + y2) % (p : Int) ≠ 0 := by
                intro h0
                apply hne
                rw [← ey1, ← ey2]
                have := (cast_eq_zero_iff (p := p) (y1 + y2)).2 (Int.dvd_of_emod_eq_zero h0)
                exact_mod_cast this
              have h2y : ¬ (p : Int) ∣ 2 * y1 := by
                apply not_dvd_of_cast_ne_zero
                push_cast
                rw [ey1]
                intro h0
                apply hne
                rw [← hyy]
                linear_combination h0
              obtain ⟨x', y', hdbl, hx'0, hx'1, hy'0, hy'1, ex', ey'⟩ :=
                affineDouble_cast (p := p) x1 y1 h2y
              rw [Affine.Point.add_of_Y_ne hy]
              have e : ecAdd p (some (x1, y1)) (some (x1, y2)) = some (x', y') := by
                simp only [ecAdd, if_true, if_neg hsum, hdbl]
              rw [e]
              refine ⟨hx'0, hx'1, hy'0, hy'1, ?_, ?_⟩
              · rw [ex', Affine.slope_of_Y_ne hx hy]
                simp only [Affine.addX, Affine.negY, hW1, hW2, hW3, hW4, ex1, ey1, ← hx, ← hyy]
                ring
              · rw [ey', ex', Affine.slope_of_Y_ne hx hy]
                simp only [Affine.addY, Affine.negAddY, Affine.addX, Affine.negY, hW1, hW2, hW3,
                  hW4, ex1, ey1, ← hx, ← hyy]
                ring
          · have hxi : x1 % (p : Int) ≠ x2 % (p : Int) := by
              rw [Int.emod_eq_of_lt hx10 hx11, Int.emod_eq_of_lt hx20 hx21]
              intro h0
              apply hx
              rw [← ex1, ← ex2, h0]
            have hxd : ¬ (p : Int) ∣ x2 - x1 := by
              apply not_dvd_of_cast_ne_zero
              push_cast
              rw [ex1, ex2]
              exact sub_ne_zero.2 (Ne.symm hx)
            obtain ⟨x3, y3, hadd, hx30, hx31, hy30, hy31, ex3, ey3⟩ :=
              affineAdd_cast (p := p) x1 y1 x2 y2 hxd
            rw [Affine.Point.add_of_X_ne hx]
            have e : ecAdd p (some (x1, y1)) (some (x2, y2)) = some (x3, y3) := by
              simp only [ecAdd, if_neg hxi, hadd]
            rw [e]
            have hx' : x1' - x2' ≠ 0 := sub_ne_zero.2 hx
            have hx'' : x2' - x1' ≠ 0 := sub_ne_zero.2 (Ne.symm hx)
            refine ⟨hx30, hx31, hy30, hy31, ?_, ?_⟩
            · rw [ex3, Affine.slope_of_X_ne hx]
              simp only [Affine.addX, hW1, hW2, ex1, ex2, ey1, ey2]
              field_simp
              ring
            · rw [ey3, ex3, Affine.slope_of_X_ne hx]
              simp only [Affine.addY, Affine.negAddY, Affine.addX, Affine.negY, hW1, hW2, hW3,
                ex1, ex2, ey1, ey2]
              field_simp
              ring

/-- The `n`-fold sum `ecMul` is the multiple `n • G` in the group of points. -/
theorem ecMul_represents {g : Option (Int × Int)} {G : (curveW p B).Point}
    (h : Represents p B g G) (n : Nat) : Represents p B (ecMul p n g) (n • G) := by
  induction n with
  | zero => simp [ecMul, represents_none_iff, zero_nsmul]
  | succ n ih =>
    rw [succ_nsmul]
    exact ecAdd_represents ih h

end Group

/-! ## The loop of `ScalarMult` -/

section Loop

open WeierstrassCurve

variable {p : Nat} [Fact p.Prime] {B : Int}

omit [Fact p.Prime] in
theorem represents_inj {q : Option (Int × Int)} {Q Q' : (curveW p B).Point}
    (h : Represents p B q Q) (h' : Represents p B q Q') : Q = Q' := by
  cases q with
  | none => rw [(represents_none_iff Q).1 h, (represents_none_iff Q').1 h']
  | some a =>
    obtain ⟨x, y⟩ := a
    cases Q with
    | zero => exact h.elim
    | some hns =>
      cases Q' with
      | zero => exact h'.elim
      | some hns' =>
        obtain ⟨-, -, -, -, h5, h6⟩ := h
        obtain ⟨-, -, -, -, h5', h6'⟩ := h'
        subst h5 h6
        subst h5' h6'
        rfl

theorem x_ne_of_add_ne_zero {x1 y1 x2 y2 : ZMod p} {h1 : (curveW p B).Nonsingular x1 y1}
    {h2 : (curveW p B).Nonsingular x2 y2}
    (hne : Affine.Point.some h1 ≠ Affine.Point.some h2)
    (hadd : Affine.Point.some h1 + Affine.Point.some h2 ≠ 0) : x1 ≠ x2 := by
  intro hx
  by_cases hy : y1 = (curveW p B).negY x2 y2
  · exact hadd (Affine.Point.add_of_Y_eq hx hy)
  · have hyy : y1 = y2 := Affine.Y_eq_of_Y_ne h1.1 h2.1 hx hy
    subst hx hyy
    exact hne rfl


theorem jacRepresents_lift (c : BitCurve) (hc : c.P = p) {Bx By : Int}
    {G : (curveW p c.B).Point} (hG : Represents p c.B (some (Bx, By)) G) :
    JacRepresents c p Bx By 1 G := by
  have hp1 := one_lt_cast (p := p)
  obtain ⟨G | hns⟩ := G
  · exact hG.elim
  · obtain ⟨h1, h2, h3, h4, h5, h6⟩ := hG
    refine ⟨?_, Bx, By, affineFromJacobian_one c Bx By (by omega) h1 (by omega) h3 (by omega),
      h1, h2, h3, h4, h5, h6⟩
    intro hd
    have := Int.le_of_dvd one_pos hd
    omega

/-- A doubling step of the loop: a Jacobian form of `Q` with `Q + Q ≠ 0` is mapped to a
Jacobian form of `Q + Q`. -/
theorem doubleJacobian_step (c : BitCurve) (hc : c.P = p) (hodd : p ≠ 2) {X Y Z : Int}
    {Q : (curveW p c.B).Point} (hQ : JacRepresents c p X Y Z Q) (h2Q : Q + Q ≠ 0) :
    ∃ X' Y' Z', doubleJacobian c X Y Z = some (X', Y', Z') ∧
      JacRepresents c p X' Y' Z' (Q + Q) := by
  have hp1 := one_lt_cast (p := p)
  have hp0 : (p : Int) ≠ 0 := by omega
  obtain ⟨hZ, x, y, haff, hrep⟩ := hQ
  have hadd := ecAdd_represents hrep hrep
  have hsum : (y + y) % (p : Int) ≠ 0 := by
    intro h0
    apply h2Q
    have e : ecAdd p (some (x, y)) (some (x, y)) = none := by simp [ecAdd, h0]
    rw [e] at hadd
    exact (represents_none_iff _).1 hadd
  have hy : ¬ (p : Int) ∣ y := by
    intro hd
    exact hsum (Int.emod_eq_zero_of_dvd (dvd_add hd hd))
  obtain ⟨x0, y0, haff0, -, -, -, -, -, ey0⟩ := affineFromJacobian_cast c hc X Y Z hZ
  rw [haff] at haff0
  simp only [Option.some.injEq, Prod.mk.injEq] at haff0
  obtain ⟨rfl, rfl⟩ := haff0
  have hY : ¬ (p : Int) ∣ Y := by
    intro hd
    apply cast_ne_zero_of_not_dvd hy
    rw [ey0, (cast_eq_zero_iff Y).2 hd, zero_div]
  obtain ⟨X', Y', Z', x1, y1, x', y', hdbl, hZ', haff1, hdouble, haff'⟩ :=
    doubleJacobian_affine c hc hodd X Y Z hZ hY
  rw [haff] at haff1
  simp only [Option.some.injEq, Prod.mk.injEq] at haff1
  obtain ⟨rfl, rfl⟩ := haff1
  refine ⟨X', Y', Z', hdbl, hZ', x', y', haff', ?_⟩
  have e : ecAdd p (some (x, y)) (some (x, y)) = some (x', y') := by
    rw [hc] at hdouble
    simp only [ecAdd, if_true, if_neg hsum, hdouble]
  rwa [e] at hadd

/-- An addition step of the loop: for `G ≠ Q` and `G + Q ≠ 0`, the lift of `G` and a Jacobian
form of `Q` are mapped to a Jacobian form of `G + Q`. -/
theorem addJacobian_step (c : BitCurve) (hc : c.P = p) (hodd : p ≠ 2) {Bx By X Y Z : Int}
    {G Q : (curveW p c.B).Point} (hG : Represents p c.B (some (Bx, By)) G)
    (hQ : JacRepresents c p X Y Z Q) (hne : G ≠ Q) (hsum : G + Q ≠ 0) :
    ∃ X3 Y3 Z3, addJacobian c Bx By 1 X Y Z = some (X3, Y3, Z3) ∧
      JacRepresents c p X3 Y3 Z3 (G + Q) := by
  have hp1 := one_lt_cast (p := p)
  have hGJ := jacRepresents_lift c hc hG
  obtain ⟨hZ1, gx, gy, haffG, -⟩ := hGJ
  obtain ⟨hZ, x, y, haff, hrep⟩ := hQ
  have hadd := ecAdd_represents hG hrep
  have hx : Bx ≠ x := by
    intro hx
    subst hx
    obtain ⟨G | hnsG⟩ := G
    · exact hG.elim
    · obtain ⟨Q | hnsQ⟩ := Q
      · exact hrep.elim
      · obtain ⟨-, -, -, -, h5, -⟩ := hG
        obtain ⟨-, -, -, -, h5', -⟩ := hrep
        exact x_ne_of_add_ne_zero hne hsum (h5.symm.trans h5')
  have haffG' : affineFromJacobian c Bx By 1 = some (Bx, By) := by
    obtain ⟨G | hnsG⟩ := G
    · exact hG.elim
    · obtain ⟨h1, h2, h3, h4, -, -⟩ := hG
      exact affineFromJacobian_one c Bx By (by omega) h1 (by omega) h3 (by omega)
  obtain ⟨X3, Y3, Z3, x3, y3, hj, hZ3, hchord, haff3⟩ :=
    addJacobian_affine c hc hodd Bx By 1 X Y Z Bx By x y hZ1 hZ haffG' haff hx
  refine ⟨X3, Y3, Z3, hj, hZ3, x3, y3, haff3, ?_⟩
  have hxm : Bx % (p : Int) ≠ x % (p : Int) := by
    obtain ⟨G | hnsG⟩ := G
    · exact hG.elim
    · obtain ⟨Q | hnsQ⟩ := Q
      · exact hrep.elim
      · obtain ⟨h1, h2, -, -, -, -⟩ := hG
        obtain ⟨h1', h2', -, -, -, -⟩ := hrep
        rwa [Int.emod_eq_of_lt h1 h2, Int.emod_eq_of_lt h1' h2']
  have e : ecAdd p (some (Bx, By)) (some (x, y)) = some (x3, y3) := by
    rw [hc] at hchord
    simp only [ecAdd, if_neg hxm, hchord]
  rwa [e] at hadd


theorem le_bitsValue (n m byte : Nat) : m ≤ bitsValue n m byte := by
  induction n generalizing m byte with
  | zero => exact le_rfl
  | succ n ih =>
    unfold bitsValue
    exact le_trans (by omega) (ih _ _)

theorem bitsValue_add (n m byte : Nat) :
    bitsValue n m byte = m * 2 ^ n + bitsValue n 0 byte := by
  induction n generalizing m byte with
  | zero => simp [bitsValue]
  | succ n ih =>
    unfold bitsValue
    rw [ih, ih (2 * 0 + _)]
    ring

set_option maxRecDepth 100000 in
theorem bitsValue_byte : ∀ byte < 256, bitsValue 8 0 byte = byte := by
  decide

theorem bitsValue_eight (m byte : Nat) (h : byte < 256) :
    bitsValue 8 m byte = m * 256 + byte := by
  rw [bitsValue_add, bitsValue_byte byte h]
  norm_num

theorem le_foldl_bytes (k : List Nat) (m : Nat) :
    m ≤ k.foldl (fun acc b => acc * 256 + b) m := by
  induction k generalizing m with
  | nil => exact le_rfl
  | cons b k ih =>
    rw [List.foldl_cons]
    exact le_trans (by omega) (ih _)

/-- One pass of the inner loop keeps `LoopInv`, the scanned value going from `m` to
`2 m + bit`, as long as no positive multiple of `G` up to the new value is zero. -/
theorem bitStep_inv (c : BitCurve) (hc : c.P = p) (hodd : p ≠ 2) {Bx By : Int}
    {G : (curveW p c.B).Point} (hG : Represents p c.B (some (Bx, By)) G)
    (s : LoopState) (m byte : Nat) (hinv : LoopInv c p Bx By G s m)
    (hord : ∀ j, 0 < j → j ≤ 2 * m + (if byte &&& 0x80 = 0x80 then 1 else 0) → j • G ≠ 0) :
    ∃ s', bitStep c Bx By 1 s byte = some s' ∧
      LoopInv c p Bx By G s' (2 * m + (if byte &&& 0x80 = 0x80 then 1 else 0)) := by
  obtain ⟨x, y, z, seen⟩ := s
  rcases hinv with ⟨hs, hm, hx, hy, hz⟩ | ⟨hs, hm, hJ⟩
  · simp only at hs hx hy hz
    subst hs hm hx hy hz
    by_cases hbit : byte &&& 0x80 = 0x80
    · refine ⟨⟨x, y, 1, true⟩, by simp [bitStep, hbit], Or.inr ⟨rfl, by simp [hbit], ?_⟩⟩
      simp only [hbit, if_true, mul_zero, zero_add, one_nsmul]
      exact jacRepresents_lift c hc hG
    · refine ⟨⟨x, y, 1, false⟩, by simp [bitStep, hbit], Or.inl ⟨rfl, by simp [hbit], rfl, rfl, rfl⟩⟩
  · simp only at hs hJ
    subst hs
    have h2m : m • G + m • G = (2 * m) • G := by rw [two_mul, add_nsmul]
    have hdne : m • G + m • G ≠ 0 := by
      rw [h2m]
      exact hord _ (by omega) (by omega)
    obtain ⟨X', Y', Z', hd, hJ'⟩ := doubleJacobian_step c hc hodd hJ hdne
    rw [h2m] at hJ'
    by_cases hbit : byte &&& 0x80 = 0x80
    · simp only [hbit, if_true] at hord ⊢
      have hsum : G + (2 * m) • G = (2 * m + 1) • G := by rw [succ_nsmul']
      have hne : G ≠ (2 * m) • G := by
        intro h
        have h1 : (2 * m - 1) • G + G = 0 + G := by
          rw [← succ_nsmul, zero_add]
          have e : 2 * m - 1 + 1 = 2 * m := by omega
          rw [e]
          exact h.symm
        exact hord (2 * m - 1) (by omega) (by omega) (add_right_cancel h1)
      have hsne : G + (2 * m) • G ≠ 0 := by
        rw [hsum]
        exact hord _ (by omega) le_rfl
      obtain ⟨X3, Y3, Z3, ha, hJ3⟩ := addJacobian_step c hc hodd hG hJ' hne hsne
      rw [hsum] at hJ3
      exact ⟨⟨X3, Y3, Z3, true⟩, by simp [bitStep, hbit, hd, ha], Or.inr ⟨rfl, by omega, hJ3⟩⟩
    · simp only [hbit, if_false, add_zero] at hord ⊢
      exact ⟨⟨X', Y', Z', true⟩, by simp [bitStep, hbit, hd], Or.inr ⟨rfl, by omega, hJ'⟩⟩

/-- The inner loop keeps `LoopInv`. -/
theorem bitLoop_inv (c : BitCurve) (hc : c.P = p) (hodd : p ≠ 2) {Bx By : Int}
    {G : (curveW p c.B).Point} (hG : Represents p c.B (some (Bx, By)) G) (n : Nat) :
    ∀ (s : LoopState) (m byte : Nat), LoopInv c p Bx By G s m →
      (∀ j, 0 < j → j ≤ bitsValue n m byte → j • G ≠ 0) →
      ∃ s', bitLoop c Bx By 1 n s byte = some s' ∧
        LoopInv c p Bx By G s' (bitsValue n m byte) := by
  induction n with
  | zero =>
    intro s m byte hinv _
    exact ⟨s, rfl, hinv⟩
  | succ n ih =>
    intro s m byte hinv hord
    have hle := le_bitsValue n (2 * m + (if byte &&& 0x80 = 0x80 then 1 else 0)) ((byte * 2) % 256)
    obtain ⟨s1, hs1, hinv1⟩ := bitStep_inv c hc hodd hG s m byte hinv
      (fun j hj hj' => hord j hj (le_trans hj' hle))
    obtain ⟨s2, hs2, hinv2⟩ := ih s1 _ ((byte * 2) % 256) hinv1 hord
    exact ⟨s2, by simp only [bitLoop, hs1, hs2], hinv2⟩

/-- The outer loop keeps `LoopInv`; the scanned value is the big-endian value of the bytes. -/
theorem byteLoop_inv (c : BitCurve) (hc : c.P = p) (hodd : p ≠ 2) {Bx By : Int}
    {G : (curveW p c.B).Point} (hG : Represents p c.B (some (Bx, By)) G) (k : List Nat) :
    ∀ (s : LoopState) (m : Nat), (∀ b ∈ k, b < 256) → LoopInv c p Bx By G s m →
      (∀ j, 0 < j → j ≤ k.foldl (fun acc b => acc * 256 + b) m → j • G ≠ 0) →
      ∃ s', byteLoop c Bx By 1 s k = some s' ∧
        LoopInv c p Bx By G s' (k.foldl (fun acc b => acc * 256 + b) m) := by
  induction k with
  | nil =>
    intro s m _ hinv _
    exact ⟨s, rfl, hinv⟩
  | cons b k ih =>
    intro s m hk hinv hord
    have hb : b < 256 := hk b (List.mem_cons_self _ _)
    rw [List.foldl_cons] at hord ⊢
    have hle := le_foldl_bytes k (m * 256 + b)
    obtain ⟨s1, hs1, hinv1⟩ := bitLoop_inv c hc hodd hG 8 s m b hinv
      (fun j hj hj' => hord j hj (le_trans (by rw [bitsValue_eight m b hb] at hj'; exact hj') hle))
    rw [bitsValue_eight m b hb] at hinv1
    obtain ⟨s2, hs2, hinv2⟩ := ih s1 _ (fun b' hb' => hk b' (List.mem_cons_of_mem _ hb')) hinv1 hord
    exact ⟨s2, by simp only [byteLoop, hs1, hs2], hinv2⟩

/-- If no positive multiple of `G` up to the value `n` of the scalar is zero, `ScalarMult`
returns the canonical representative of `n • G`. -/
theorem ScalarMult_represents (c : BitCurve) (hc : c.P = p) (hodd : p ≠ 2) {Bx By : Int}
    {G : (curveW p c.B).Point} (hG : Represents p c.B (some (Bx, By)) G) (k : List Nat)
    (hk : ∀ b ∈ k, b < 256) (hpos : 0 < bytesToNat k)
    (hord : ∀ j, 0 < j → j ≤ bytesToNat k → j • G ≠ 0) :
    ∃ x y, ScalarMult c Bx By k = some (some x, some y) ∧
      Represents p c.B (some (x, y)) (bytesToNat k • G) := by
  obtain ⟨s, hs, hinv⟩ := byteLoop_inv c hc hodd hG k ⟨Bx, By, 1, false⟩ 0 hk
    (Or.inl ⟨rfl, rfl, rfl, rfl, rfl⟩) hord
  rcases hinv with ⟨-, hm, -⟩ | ⟨hseen, -, -, x, y, haff, hrep⟩
  · unfold bytesToNat at hpos
    omega
  · exact ⟨x, y, by simp [ScalarMult, hs, hseen, haff], hrep⟩

end Loop

/-! ## Primality certificates -/

theorem powModAux_eq (fuel : Nat) : ∀ a e n, e < 2 ^ fuel → powModAux fuel a e n = a ^ e % n := by
  induction fuel with
  | zero =>
    intro a e n h
    have : e = 0 := by simpa using h
    subst this
    simp [powModAux]
  | succ fuel ih =>
    intro a e n h
    unfold powModAux
    by_cases he : e = 0
    · subst he; simp
    · rw [if_neg he]
      have hlt : e / 2 < 2 ^ fuel := by
        rw [pow_succ] at h
        omega
      simp only [ih a (e / 2) n hlt]
      have hmul : a ^ (e / 2) % n * (a ^ (e / 2) % n) % n = a ^ (2 * (e / 2)) % n := by
        rw [← Nat.mul_mod, ← pow_add, two_mul]
      rw [hmul]
      by_cases hpar : e % 2 = 0
      · rw [if_pos hpar]
        have e2 : 2 * (e / 2) = e := by omega
        rw [e2]
      · rw [if_neg hpar]
        have e2 : 2 * (e / 2) + 1 = e := by omega
        rw [Nat.mod_mul_mod, ← pow_succ, e2]

theorem powMod_eq (a e n : Nat) : powMod a e n = a ^ e % n :=
  powModAux_eq e a e n (Nat.lt_two_pow e)

/-- A Pratt certificate that passes `prattCheck` and whose listed factors are prime proves
that `p` is prime (Lucas test). -/
theorem prime_of_prattCheck (a : Nat) (fs : List (Nat × Nat)) {p : Nat}
    (h : prattCheck p a fs = true) (hfs : ∀ f ∈ fs, Nat.Prime f.1) : Nat.Prime p := by
  simp only [prattCheck, Bool.and_eq_true, decide_eq_true_eq, beq_iff_eq, List.all_eq_true,
    bne_iff_ne, ne_eq, powMod_eq] at h
  obtain ⟨⟨⟨hp, hprod⟩, h1⟩, h2⟩ := h
  have hone : (1 : Nat) % p = 1 := Nat.mod_eq_of_lt hp
  apply lucas_primality p (a : ZMod p)
  · have : ((a ^ (p - 1) : Nat) : ZMod p) = ((1 : Nat) : ZMod p) := by
      rw [ZMod.natCast_eq_natCast_iff']
      rw [h1, hone]
    exact_mod_cast this
  · intro q hq hdvd
    rw [← hprod] at hdvd
    obtain ⟨r, hr, hqr⟩ := (Prime.dvd_prod_iff hq.prime).1 hdvd
    obtain ⟨f, hf, rfl⟩ := List.mem_map.1 hr
    have hqf : q = f.1 :=
      (Nat.prime_dvd_prime_iff_eq hq (hfs f hf)).1 (hq.dvd_of_dvd_pow hqr)
    intro hpow
    apply h2 f hf
    have : ((a ^ ((p - 1) / q) : Nat) : ZMod p) = ((1 : Nat) : ZMod p) := by
      exact_mod_cast hpow
    rw [ZMod.natCast_eq_natCast_iff'] at this
    rw [← hqf, this, hone]

theorem primeFactors_nil : ∀ f ∈ ([] : List (Nat × Nat)), Nat.Prime f.1 := by
  intro f hf
  exact absurd hf (List.not_mem_nil f)

theorem primeFactors_cons {r e : Nat} {fs : List (Nat × Nat)} (hr : Nat.Prime r)
    (hfs : ∀ f ∈ fs, Nat.Prime f.1) : ∀ f ∈ (r, e) :: fs, Nat.Prime f.1 := by
  intro f hf
  rcases List.mem_cons.1 hf with rfl | h
  · exact hr
  · exact hfs f h

theorem prime_2 : Nat.Prime 2 := by norm_num

theorem prime_3 : Nat.Prime 3 := by norm_num

theorem prime_7 : Nat.Prime 7 := by norm_num

theorem prime_5 : Nat.Prime 5 := by norm_num

theorem prime_13441 :
    Nat.Prime 13441 :=
  prime_of_prattCheck 11
    [
      (2, 7), (3, 1), (5, 1), (7, 1)]
    (by decide!)
    (primeFactors_cons prime_2 (primeFactors_cons prime_3 (primeFactors_cons prime_5
    (primeFactors_cons prime_7 primeFactors_nil))))

theorem prime_29 : Nat.Prime 29 := by norm_num

theorem prime_31 : Nat.Prime 31 := by norm_num

theorem prime_11 : Nat.Prime 11 := by norm_num

theorem prime_13 : Nat.Prime 13 := by norm_num

theorem prime_7723 :
    Nat.Prime 7723 :=
  prime_of_prattCheck 3
    [
      (2, 1), (3, 3), (11, 1), (13, 1)]
    (by decide!)
    (primeFactors_cons prime_2 (primeFactors_cons prime_3 (primeFactors_cons prime_11
    (primeFactors_cons prime_13 primeFactors_nil))))

theorem prime_17 : Nat.Prime 17 := by norm_num

theorem prime_443 :
    Nat.Prime 443 :=
  prime_of_prattCheck 2
    [
      (2, 1), (13, 1), (17, 1)]
    (by decide!)
    (primeFactors_cons prime_2 (primeFactors_cons prime_13 (primeFactors_cons prime_17
    primeFactors_nil)))

theorem prime_887 :
    Nat.Prime 887 :=
  prime_of_prattCheck 5
    [
      (2, 1), (443, 1)]
    (by decide!)
    (primeFactors_cons prime_2 (primeFactors_cons prime_443 primeFactors_nil))

theorem prime_5323 :
    Nat.Prime 5323 :=
  prime_of_prattCheck 5
    [
      (2, 1), (3, 1), (887, 1)]
    (by decide!)
    (primeFactors_cons prime_2 (primeFactors_cons prime_3 (primeFactors_cons prime_887
    primeFactors_nil)))

theorem prime_131 :
    Nat.Prime 131 :=
  prime_of_prattCheck 2
    [
      (2, 1), (5, 1), (13, 1)]
    (by decide!)
    (primeFactors_cons prime_2 (primeFactors_cons prime_5 (primeFactors_cons prime_13
    primeFactors_nil)))

theorem prime_2621 :
    Nat.Prime 2621 :=
  prime_of_prattCheck 2
    [
      (2, 2), (5, 1), (131, 1)]
    (by decide!)
    (primeFactors_cons prime_2 (primeFactors_cons prime_5 (primeFactors_cons prime_131
    primeFactors_nil)))

theorem prime_24809 :
    Nat.Prime 24809 :=
  prime_of_prattCheck 6
    [
      (2, 3), (7, 1), (443, 1)]
    (by decide!)
    (primeFactors_cons prime_2 (primeFactors_cons prime_7 (primeFactors_cons prime_443
    primeFactors_nil)))

theorem prime_97 : Nat.Prime 97 := by norm_num

theorem prime_971 :
    Nat.Prime 971 :=
  prime_of_prattCheck 6
    [
      (2, 1), (5, 1), (97, 1)]
    (by decide!)
    (primeFactors_cons prime_2 (primeFactors_cons prime_5 (primeFactors_cons prime_97
    primeFactors_nil)))

theorem prime_1373 :
    Nat.Prime 1373 :=
  prime_of_prattCheck 2
    [
      (2, 2), (7, 3)]
    (by decide!)
    (primeFactors_cons prime_2 (primeFactors_cons prime_7 primeFactors_nil))

theorem prime_13331831 :
    Nat.Prime 13331831 :=
  prime_of_prattCheck 13
    [
      (2, 1), (5, 1), (971, 1), (1373, 1)]
    (by decide!)
    (primeFactors_cons prime_2 (primeFactors_cons prime_5 (primeFactors_cons prime_971
    (primeFactors_cons prime_1373 primeFactors_nil))))

theorem prime_173378833005251801 :
    Nat.Prime 173378833005251801 :=
  prime_of_prattCheck 6
    [
      (2, 3), (5, 2), (2621, 1), (24809, 1), (13331831, 1)]
    (by decide!)
    (primeFactors_cons prime_2 (primeFactors_cons prime_5 (primeFactors_cons prime_2621
    (primeFactors_cons prime_24809 (primeFactors_cons prime_13331831 primeFactors_nil)))))

theorem prime_22149492674086928081353 :
    Nat.Prime 22149492674086928081353 :=
  prime_of_prattCheck 5
    [
      (2, 3), (3, 1), (5323, 1), (173378833005251801, 1)]
    (by decide!)
    (primeFactors_cons prime_2 (primeFactors_cons prime_3 (primeFactors_cons prime_5323
    (primeFactors_cons prime_173378833005251801 primeFactors_nil))))

theorem prime_132896956044521568488119 :
    Nat.Prime 132896956044521568488119 :=
  prime_of_prattCheck 6
    [
      (2, 1), (3, 1), (22149492674086928081353, 1)]
    (by decide!)
    (primeFactors_cons prime_2 (primeFactors_cons prime_3
    (primeFactors_cons prime_22149492674086928081353 primeFactors_nil)))

theorem prime_271 :
    Nat.Prime 271 :=
  prime_of_prattCheck 6
    [
      (2, 1), (3, 3), (5, 1)]
    (by decide!)
    (primeFactors_cons prime_2 (primeFactors_cons prime_3 (primeFactors_cons prime_5
    primeFactors_nil)))

theorem prime_1627 :
    Nat.Prime 1627 :=
  prime_of_prattCheck 3
    [
      (2, 1), (3, 1), (271, 1)]
    (by decide!)
    (primeFactors_cons prime_2 (primeFactors_cons prime_3 (primeFactors_cons prime_271
    primeFactors_nil)))

theorem prime_83 : Nat.Prime 83 := by norm_num

theorem prime_2657 :
    Nat.Prime 2657 :=
  prime_of_prattCheck 3
    [
      (2, 5), (83, 1)]
    (by decide!)
    (primeFactors_cons prime_2 (primeFactors_cons prime_83 primeFactors_nil))

theorem prime_67 : Nat.Prime 67 := by norm_num

theorem prime_4423 :
    Nat.Prime 4423 :=
  prime_of_prattCheck 3
    [
      (2, 1), (3, 1), (11, 1), (67, 1)]
    (by decide!)
    (primeFactors_cons prime_2 (primeFactors_cons prime_3 (primeFactors_cons prime_11
    (primeFactors_cons prime_67 primeFactors_nil))))

theorem prime_103 :
    Nat.Prime 103 :=
  prime_of_prattCheck 5
    [
      (2, 1), (3, 1), (17, 1)]
    (by decide!)
    (primeFactors_cons prime_2 (primeFactors_cons prime_3 (primeFactors_cons prime_17
    primeFactors_nil)))

theorem prime_41201 :
    Nat.Prime 41201 :=
  prime_of_prattCheck 3
    [
      (2, 4), (5, 2), (103, 1)]
    (by decide!)
    (primeFactors_cons prime_2 (primeFactors_cons prime_5 (primeFactors_cons prime_103
    primeFactors_nil)))

theorem prime_101 :
    Nat.Prime 101 :=
  prime_of_prattCheck 2
    [
      (2, 2), (5, 2)]
    (by decide!)
    (primeFactors_cons prime_2 (primeFactors_cons prime_5 primeFactors_nil))

theorem prime_239 :
    Nat.Prime 239 :=
  prime_of_prattCheck 7
    [
      (2, 1), (7, 1), (17, 1)]
    (by decide!)
    (primeFactors_cons prime_2 (primeFactors_cons prime_7 (primeFactors_cons prime_17
    primeFactors_nil)))

theorem prime_96557 :
    Nat.Prime 96557 :=
  prime_of_prattCheck 2
    [
      (2, 2), (101, 1), (239, 1)]
    (by decide!)
    (primeFactors_cons prime_2 (primeFactors_cons prime_101 (primeFactors_cons prime_239
    primeFactors_nil)))

theorem prime_19 : Nat.Prime 19 := by norm_num

theorem prime_419 :
    Nat.Prime 419 :=
  prime_of_prattCheck 2
    [
      (2, 1), (11, 1), (19, 1)]
    (by decide!)
    (primeFactors_cons prime_2 (primeFactors_cons prime_11 (primeFactors_cons prime_19
    primeFactors_nil)))

theorem prime_20113 :
    Nat.Prime 20113 :=
  prime_of_prattCheck 10
    [
      (2, 4), (3, 1), (419, 1)]
    (by decide!)
    (primeFactors_cons prime_2 (primeFactors_cons prime_3 (primeFactors_cons prime_419
    primeFactors_nil)))

theorem prime_1206781 :
    Nat.Prime 1206781 :=
  prime_of_prattCheck 10
    [
      (2, 2), (3, 1), (5, 1), (20113, 1)]
    (by decide!)
    (primeFactors_cons prime_2 (primeFactors_cons prime_3 (primeFactors_cons prime_5
    (primeFactors_cons prime_20113 primeFactors_nil))))

theorem prime_7240687 :
    Nat.Prime 7240687 :=
  prime_of_prattCheck 3
    [
      (2, 1), (3, 1), (1206781, 1)]
    (by decide!)
    (primeFactors_cons prime_2 (primeFactors_cons prime_3 (primeFactors_cons prime_1206781
    primeFactors_nil)))

theorem prime_53 : Nat.Prime 53 := by norm_num

theorem prime_107590001 :
    Nat.Prime 107590001 :=
  prime_of_prattCheck 3
    [
      (2, 4), (5, 4), (7, 1), (29, 1), (53, 1)]
    (by decide!)
    (primeFactors_cons prime_2 (primeFactors_cons prime_5 (primeFactors_cons prime_7
    (primeFactors_cons prime_29 (primeFactors_cons prime_53 primeFactors_nil)))))

theorem prime_255515944373312847190720520512484175977 :
    Nat.Prime 255515944373312847190720520512484175977 :=
  prime_of_prattCheck 3
    [
      (2, 3), (7, 2), (11, 1), (1627, 1), (2657, 1), (4423, 1), (41201, 1), (96557, 1),
      (7240687, 1), (107590001, 1)]
    (by decide!)
    (primeFactors_cons prime_2 (primeFactors_cons prime_7 (primeFactors_cons prime_11
    (primeFactors_cons prime_1627 (primeFactors_cons prime_2657 (primeFactors_cons prime_4423
    (primeFactors_cons prime_41201 (primeFactors_cons prime_96557
    (primeFactors_cons prime_7240687 (primeFactors_cons prime_107590001
    primeFactors_nil))))))))))

theorem prime_205115282021455665897114700593932402728804164701536103180137503955397371 :
    Nat.Prime 205115282021455665897114700593932402728804164701536103180137503955397371 :=
  prime_of_prattCheck 10
    [
      (2, 1), (3, 1), (5, 1), (29, 2), (31, 1), (7723, 1), (132896956044521568488119, 1),
      (255515944373312847190720520512484175977, 1)]
    (by decide!)
    (primeFactors_cons prime_2 (primeFactors_cons prime_3 (primeFactors_cons prime_5
    (primeFactors_cons prime_29 (primeFactors_cons prime_31 (primeFactors_cons prime_7723
    (primeFactors_cons prime_132896956044521568488119
    (primeFactors_cons prime_255515944373312847190720520512484175977 primeFactors_nil))))))))

theorem prime_115792089237316195423570985008687907853269984665640564039457584007908834671663 :
    Nat.Prime 115792089237316195423570985008687907853269984665640564039457584007908834671663 :=
  prime_of_prattCheck 3
    [
      (2, 1), (3, 1), (7, 1), (13441, 1),
      (205115282021455665897114700593932402728804164701536103180137503955397371, 1)]
    (by decide!)
    (primeFactors_cons prime_2 (primeFactors_cons prime_3 (primeFactors_cons prime_7
    (primeFactors_cons prime_13441
    (primeFactors_cons prime_205115282021455665897114700593932402728804164701536103180137503955397371
    primeFactors_nil)))))

theorem prime_37 : Nat.Prime 37 := by norm_num

theorem prime_149 :
    Nat.Prime 149 :=
  prime_of_prattCheck 2
    [
      (2, 2), (37, 1)]
    (by decide!)
    (primeFactors_cons prime_2 (primeFactors_cons prime_37 primeFactors_nil))

theorem prime_631 :
    Nat.Prime 631 :=
  prime_of_prattCheck 3
    [
      (2, 1), (3, 2), (5, 1), (7, 1)]
    (by decide!)
    (primeFactors_cons prime_2 (primeFactors_cons prime_3 (primeFactors_cons prime_5
    (primeFactors_cons prime_7 primeFactors_nil))))

theorem prime_23 : Nat.Prime 23 := by norm_num

theorem prime_16699 :
    Nat.Prime 16699 :=
  prime_of_prattCheck 3
    [
      (2, 1), (3, 1), (11, 2), (23, 1)]
    (by decide!)
    (primeFactors_cons prime_2 (primeFactors_cons prime_3 (primeFactors_cons prime_11
    (primeFactors_cons prime_23 primeFactors_nil))))

theorem prime_2861 :
    Nat.Prime 2861 :=
  prime_of_prattCheck 2
    [
      (2, 2), (5, 1), (11, 1), (13, 1)]
    (by decide!)
    (primeFactors_cons prime_2 (primeFactors_cons prime_5 (primeFactors_cons prime_11
    (primeFactors_cons prime_13 primeFactors_nil))))

theorem prime_85831 :
    Nat.Prime 85831 :=
  prime_of_prattCheck 3
    [
      (2, 1), (3, 1), (5, 1), (2861, 1)]
    (by decide!)
    (primeFactors_cons prime_2 (primeFactors_cons prime_3 (primeFactors_cons prime_5
    (primeFactors_cons prime_2861 primeFactors_nil))))

theorem prime_2011 :
    Nat.Prime 2011 :=
  prime_of_prattCheck 3
    [
      (2, 1), (3, 1), (5, 1), (67, 1)]
    (by decide!)
    (primeFactors_cons prime_2 (primeFactors_cons prime_3 (primeFactors_cons prime_5
    (primeFactors_cons prime_67 primeFactors_nil))))

theorem prime_4681609 :
    Nat.Prime 4681609 :=
  prime_of_prattCheck 23
    [
      (2, 3), (3, 1), (97, 1), (2011, 1)]
    (by decide!)
    (primeFactors_cons prime_2 (primeFactors_cons prime_3 (primeFactors_cons prime_97
    (primeFactors_cons prime_2011 primeFactors_nil))))

theorem prime_107361793816595537 :
    Nat.Prime 107361793816595537 :=
  prime_of_prattCheck 3
    [
      (2, 4), (16699, 1), (85831, 1), (4681609, 1)]
    (by decide!)
    (primeFactors_cons prime_2 (primeFactors_cons prime_16699 (primeFactors_cons prime_85831
    (primeFactors_cons prime_4681609 primeFactors_nil))))

theorem prime_59 : Nat.Prime 59 := by norm_num

theorem prime_4051 :
    Nat.Prime 4051 :=
  prime_of_prattCheck 10
    [
      (2, 1), (3, 4), (5, 2)]
    (by decide!)
    (primeFactors_cons prime_2 (primeFactors_cons prime_3 (primeFactors_cons prime_5
    primeFactors_nil)))

theorem prime_113 :
    Nat.Prime 113 :=
  prime_of_prattCheck 3
    [
      (2, 4), (7, 1)]
    (by decide!)
    (primeFactors_cons prime_2 (primeFactors_cons prime_7 primeFactors_nil))

theorem prime_120233 :
    Nat.Prime 120233 :=
  prime_of_prattCheck 3
    [
      (2, 3), (7, 1), (19, 1), (113, 1)]
    (by decide!)
    (primeFactors_cons prime_2 (primeFactors_cons prime_7 (primeFactors_cons prime_19
    (primeFactors_cons prime_113 primeFactors_nil))))

theorem prime_199 :
    Nat.Prime 199 :=
  prime_of_prattCheck 3
    [
      (2, 1), (3, 2), (11, 1)]
    (by decide!)
    (primeFactors_cons prime_2 (primeFactors_cons prime_3 (primeFactors_cons prime_11
    primeFactors_nil)))

theorem prime_797 :
    Nat.Prime 797 :=
  prime_of_prattCheck 2
    [
      (2, 2), (199, 1)]
    (by decide!)
    (primeFactors_cons prime_2 (primeFactors_cons prime_199 primeFactors_nil))

theorem prime_41 : Nat.Prime 41 := by norm_num

theorem prime_9349 :
    Nat.Prime 9349 :=
  prime_of_prattCheck 2
    [
      (2, 2), (3, 1), (19, 1), (41, 1)]
    (by decide!)
    (primeFactors_cons prime_2 (primeFactors_cons prime_3 (primeFactors_cons prime_19
    (primeFactors_cons prime_41 primeFactors_nil))))

theorem prime_44706919 :
    Nat.Prime 44706919 :=
  prime_of_prattCheck 6
    [
      (2, 1), (3, 1), (797, 1), (9349, 1)]
    (by decide!)
    (primeFactors_cons prime_2 (primeFactors_cons prime_3 (primeFactors_cons prime_797
    (primeFactors_cons prime_9349 primeFactors_nil))))

theorem prime_174723607534414371449 :
    Nat.Prime 174723607534414371449 :=
  prime_of_prattCheck 3
    [
      (2, 3), (17, 1), (59, 1), (4051, 1), (120233, 1), (44706919, 1)]
    (by decide!)
    (primeFactors_cons prime_2 (primeFactors_cons prime_17 (primeFactors_cons prime_59
    (primeFactors_cons prime_4051 (primeFactors_cons prime_120233
    (primeFactors_cons prime_44706919 primeFactors_nil))))))

theorem prime_109 :
    Nat.Prime 109 :=
  prime_of_prattCheck 6
    [
      (2, 2), (3, 3)]
    (by decide!)
    (primeFactors_cons prime_2 (primeFactors_cons prime_3 primeFactors_nil))

theorem prime_73 : Nat.Prime 73 := by norm_num

theorem prime_293 :
    Nat.Prime 293 :=
  prime_of_prattCheck 2
    [
      (2, 2), (73, 1)]
    (by decide!)
    (primeFactors_cons prime_2 (primeFactors_cons prime_73 primeFactors_nil))

theorem prime_2731 :
    Nat.Prime 2731 :=
  prime_of_prattCheck 3
    [
      (2, 1), (3, 1), (5, 1), (7, 1), (13, 1)]
    (by decide!)
    (primeFactors_cons prime_2 (primeFactors_cons prime_3 (primeFactors_cons prime_5
    (primeFactors_cons prime_7 (primeFactors_cons prime_13 primeFactors_nil)))))

theorem prime_305873 :
    Nat.Prime 305873 :=
  prime_of_prattCheck 3
    [
      (2, 4), (7, 1), (2731, 1)]
    (by decide!)
    (primeFactors_cons prime_2 (primeFactors_cons prime_7 (primeFactors_cons prime_2731
    primeFactors_nil)))

theorem prime_1409 :
    Nat.Prime 1409 :=
  prime_of_prattCheck 3
    [
      (2, 7), (11, 1)]
    (by decide!)
    (primeFactors_cons prime_2 (primeFactors_cons prime_11 primeFactors_nil))

theorem prime_28181 :
    Nat.Prime 28181 :=
  prime_of_prattCheck 2
    [
      (2, 2), (5, 1), (1409, 1)]
    (by decide!)
    (primeFactors_cons prime_2 (primeFactors_cons prime_5 (primeFactors_cons prime_1409
    primeFactors_nil)))

theorem prime_545358713 :
    Nat.Prime 545358713 :=
  prime_of_prattCheck 5
    [
      (2, 3), (41, 1), (59, 1), (28181, 1)]
    (by decide!)
    (primeFactors_cons prime_2 (primeFactors_cons prime_41 (primeFactors_cons prime_59
    (primeFactors_cons prime_28181 primeFactors_nil))))

theorem prime_461 :
    Nat.Prime 461 :=
  prime_of_prattCheck 2
    [
      (2, 2), (5, 1), (23, 1)]
    (by decide!)
    (primeFactors_cons prime_2 (primeFactors_cons prime_5 (primeFactors_cons prime_23
    primeFactors_nil)))

theorem prime_1871 :
    Nat.Prime 1871 :=
  prime_of_prattCheck 14
    [
      (2, 1), (5, 1), (11, 1), (17, 1)]
    (by decide!)
    (primeFactors_cons prime_2 (primeFactors_cons prime_5 (primeFactors_cons prime_11
    (primeFactors_cons prime_17 primeFactors_nil))))

theorem prime_1627771 :
    Nat.Prime 1627771 :=
  prime_of_prattCheck 3
    [
      (2, 1), (3, 1), (5, 1), (29, 1), (1871, 1)]
    (by decide!)
    (primeFactors_cons prime_2 (primeFactors_cons prime_3 (primeFactors_cons prime_5
    (primeFactors_cons prime_29 (primeFactors_cons prime_1871 primeFactors_nil)))))

theorem prime_297159362677 :
    Nat.Prime 297159362677 :=
  prime_of_prattCheck 2
    [
      (2, 2), (3, 2), (11, 1), (461, 1), (1627771, 1)]
    (by decide!)
    (primeFactors_cons prime_2 (primeFactors_cons prime_3 (primeFactors_cons prime_11
    (primeFactors_cons prime_461 (primeFactors_cons prime_1627771 primeFactors_nil)))))

theorem prime_29047611873442575647497758179 :
    Nat.Prime 29047611873442575647497758179 :=
  prime_of_prattCheck 2
    [
      (2, 1), (293, 1), (305873, 1), (545358713, 1), (297159362677, 1)]
    (by decide!)
    (primeFactors_cons prime_2 (primeFactors_cons prime_293 (primeFactors_cons prime_305873
    (primeFactors_cons prime_545358713 (primeFactors_cons prime_297159362677
    primeFactors_nil)))))

theorem prime_341948486974166000522343609283189 :
    Nat.Prime 341948486974166000522343609283189 :=
  prime_of_prattCheck 2
    [
      (2, 2), (3, 3), (109, 1), (29047611873442575647497758179, 1)]
    (by decide!)
    (primeFactors_cons prime_2 (primeFactors_cons prime_3 (primeFactors_cons prime_109
    (primeFactors_cons prime_29047611873442575647497758179 primeFactors_nil))))

theorem prime_115792089237316195423570985008687907852837564279074904382605163141518161494337 :
    Nat.Prime 115792089237316195423570985008687907852837564279074904382605163141518161494337 :=
  prime_of_prattCheck 7
    [
      (2, 6), (3, 1), (149, 1), (631, 1), (107361793816595537, 1), (174723607534414371449, 1),
      (341948486974166000522343609283189, 1)]
    (by decide!)
    (primeFactors_cons prime_2 (primeFactors_cons prime_3 (primeFactors_cons prime_149
    (primeFactors_cons prime_631 (primeFactors_cons prime_107361793816595537
    (primeFactors_cons prime_174723607534414371449
    (primeFactors_cons prime_341948486974166000522343609283189 primeFactors_nil)))))))

/-- The field modulus of secp256k1 is prime. -/
theorem S256_P_prime : Nat.Prime S256.P.toNat :=
  prime_115792089237316195423570985008687907853269984665640564039457584007908834671663

/-- The group order of secp256k1 is prime. -/
theorem S256_N_prime : Nat.Prime S256.N.toNat :=
  prime_115792089237316195423570985008687907852837564279074904382605163141518161494337

/-! ## The order of a point -/

section Order

open WeierstrassCurve

variable {p : Nat} [Fact p.Prime] {B : Int}

/-- The double-and-add evaluation `ecMulBin` is the multiple `n • G`. -/
theorem ecMulBin_represents {g : Option (Int × Int)} {G : (curveW p B).Point}
    (h : Represents p B g G) (fuel : Nat) :
    ∀ n, n < 2 ^ fuel → Represents p B (ecMulBin p fuel n g) (n • G) := by
  induction fuel with
  | zero =>
    intro n hn
    have : n = 0 := by simpa using hn
    subst this
    simp [ecMulBin, represents_none_iff, zero_nsmul]
  | succ fuel ih =>
    intro n hn
    unfold ecMulBin
    by_cases h0 : n = 0
    · subst h0
      simp [represents_none_iff, zero_nsmul]
    · rw [if_neg h0]
      have hlt : n / 2 < 2 ^ fuel := by
        rw [pow_succ] at hn
        omega
      have hh := ih (n / 2) hlt
      have hd := ecAdd_represents hh hh
      rw [← add_nsmul] at hd
      by_cases hpar : n % 2 = 0
      · simp only [if_pos hpar]
        have e : n / 2 + n / 2 = n := by omega
        rwa [e] at hd
      · simp only [if_neg hpar]
        have hs := ecAdd_represents hd h
        rw [← succ_nsmul] at hs
        have e : n / 2 + n / 2 + 1 = n := by omega
        rwa [e] at hs

/-- A reduced pair with `y ≠ 0` that satisfies the curve equation modulo an odd prime is a
(nonsingular) point of `curveW p B`. -/
theorem exists_point (hodd : p ≠ 2) {x y : Int} (hx0 : 0 ≤ x) (hx : x < p) (hy0 : 0 ≤ y)
    (hy : y < p) (hy1 : y ≠ 0) (hcurve : (y ^ 2 - (x ^ 3 + B)) % (p : Int) = 0) :
    ∃ G : (curveW p B).Point, Represents p B (some (x, y)) G := by
  have h2 := two_ne_zero_cast hodd
  have hyc : (y : ZMod p) ≠ 0 := by
    apply cast_ne_zero_of_not_dvd
    intro hd
    have := Int.le_of_dvd (by omega) hd
    omega
  have hns : (curveW p B).Nonsingular (x : ZMod p) (y : ZMod p) := by
    rw [Affine.nonsingular_iff, Affine.equation_iff]
    have hW1 : (curveW p B).a₁ = 0 := rfl
    have hW2 : (curveW p B).a₂ = 0 := rfl
    have hW3 : (curveW p B).a₃ = 0 := rfl
    have hW4 : (curveW p B).a₄ = 0 := rfl
    have hW6 : (curveW p B).a₆ = (B : ZMod p) := rfl
    rw [hW1, hW2, hW3, hW4, hW6]
    constructor
    · have := (cast_eq_zero_iff (p := p) _).2 (Int.dvd_of_emod_eq_zero hcurve)
      push_cast at this
      linear_combination this
    · right
      intro h
      apply mul_ne_zero h2 hyc
      linear_combination h
  exact ⟨Affine.Point.some hns, hx0, hx, hy0, hy, rfl, rfl⟩

/-- A point other than infinity that is annihilated by a prime `N` has order `N`. -/
theorem hasOrder_of_prime {g : Option (Int × Int)} {G : (curveW p B).Point}
    (h : Represents p B g G) {N : Nat} (hN : Nat.Prime N) (hg : g ≠ none)
    (hNG : ecMulBin p N N g = none) : HasOrder p g N := by
  have hG0 : G ≠ 0 := fun h0 => hg ((represents_zero_iff g).1 (h0 ▸ h))
  have hNG' : N • G = 0 := by
    have := ecMulBin_represents h N N (Nat.lt_two_pow N)
    rw [hNG] at this
    exact (represents_none_iff _).1 this
  haveI : Fact N.Prime := ⟨hN⟩
  have hord : addOrderOf G = N := addOrderOf_eq_prime hNG' hG0
  refine ⟨hN.pos, ?_, ?_⟩
  · have := ecMul_represents h N
    rw [hNG'] at this
    exact (represents_zero_iff _).1 this
  · intro m hm hmN hmul
    have := ecMul_represents h m
    rw [hmul] at this
    have hz : m • G = 0 := (represents_none_iff _).1 this
    have hdvd : N ∣ m := by
      rw [← hord]
      exact addOrderOf_dvd_of_nsmul_eq_zero hz
    have := Nat.le_of_dvd hm hdvd
    omega

end Order

/-! ## Scalar multiplication and the group law on secp256k1 -/

section Main

open WeierstrassCurve

/-- If no `j`-fold sum of the input point with `0 < j ≤ n` is the point at infinity,
`ScalarMult` returns the `n`-fold sum of the input point under `ecAdd`. -/
theorem ScalarMult_eq_ecMul {p : Nat} [Fact p.Prime] (c : BitCurve) (hc : c.P = p)
    (hodd : p ≠ 2) {Bx By : Int} {G : (curveW p c.B).Point}
    (hG : Represents p c.B (some (Bx, By)) G) (k : List Nat) (hk : ∀ b ∈ k, b < 256)
    (hpos : 0 < bytesToNat k)
    (hord : ∀ j, 0 < j → j ≤ bytesToNat k → ecMul c.P j (some (Bx, By)) ≠ none) :
    ∃ x y, ecMul c.P (bytesToNat k) (some (Bx, By)) = some (x, y) ∧
      ScalarMult c Bx By k = some (some x, some y) ∧
      Represents p c.B (some (x, y)) (bytesToNat k • G) := by
  have hord' : ∀ j, 0 < j → j ≤ bytesToNat k → j • G ≠ 0 := by
    intro j hj hjk h0
    apply hord j hj hjk
    have := ecMul_represents hG j
    rw [h0] at this
    rw [hc]
    exact (represents_zero_iff _).1 this
  obtain ⟨x, y, hmul, hrep⟩ := ScalarMult_represents c hc hodd hG k hk hpos hord'
  refine ⟨x, y, ?_, hmul, hrep⟩
  rw [hc]
  exact represents_unique (ecMul_represents hG _) hrep

theorem S256_P_cast : S256.P = ((S256.P.toNat : Nat) : Int) := by decide

theorem S256_P_odd : S256.P.toNat ≠ 2 := by decide

/-- The base point of secp256k1 satisfies the curve equation. -/
theorem S256_G_on_curve :
    (S256.Gy ^ 2 - (S256.Gx ^ 3 + S256.B)) % ((S256.P.toNat : Nat) : Int) = 0 := by decide!

theorem S256_G_point (hP : Nat.Prime S256.P.toNat) :
    haveI : Fact (Nat.Prime S256.P.toNat) := ⟨hP⟩
    ∃ G : (curveW S256.P.toNat S256.B).Point,
      Represents S256.P.toNat S256.B (some (S256.Gx, S256.Gy)) G := by
  haveI : Fact (Nat.Prime S256.P.toNat) := ⟨hP⟩
  exact exists_point S256_P_odd (by decide) (by decide) (by decide) (by decide) (by decide)
    S256_G_on_curve

set_option maxRecDepth 1000000 in
/-- On secp256k1, `N` times the base point is the point at infinity. -/
theorem S256_N_mul_G :
    ecMulBin ((S256.P.toNat : Nat) : Int) S256.N.toNat S256.N.toNat
      (some (S256.Gx, S256.Gy)) = none := by
  decide!

/-- The base point of secp256k1 has order `N` under `ecAdd`. -/
theorem S256_hasOrder : HasOrder S256.P (some (S256.Gx, S256.Gy)) S256.N.toNat := by
  haveI : Fact (Nat.Prime S256.P.toNat) := ⟨S256_P_prime⟩
  obtain ⟨G, hG⟩ := S256_G_point S256_P_prime
  rw [S256_P_cast]
  exact hasOrder_of_prime hG S256_N_prime (by simp) S256_N_mul_G

/-- C1: on the S256 curve, taking as hypotheses that `P` is prime and that the base point
`G = (Gx, Gy)` has order `N` under the textbook chord-and-tangent law `ecAdd`, for every
byte sequence `k` whose big-endian value `n` satisfies `1 ≤ n < N`, `ScalarBaseMult k`
returns exactly the affine coordinates of `n * G`, the `n`-fold sum `ecMul n G`. -/
theorem ScalarBaseMult_eq_ecMul (k : List Nat) (hP : Nat.Prime S256.P.toNat)
    (hN : HasOrder S256.P (some (S256.Gx, S256.Gy)) S256.N.toNat)
    (hk : ∀ b ∈ k, b < 256) (h1 : 1 ≤ bytesToNat k) (h2 : (bytesToNat k : Int) < S256.N) :
    ∃ x y, ecMul S256.P (bytesToNat k) (some (S256.Gx, S256.Gy)) = some (x, y) ∧
      ScalarBaseMult S256 k = some (some x, some y) := by
  haveI : Fact (Nat.Prime S256.P.toNat) := ⟨hP⟩
  obtain ⟨G, hG⟩ := S256_G_point hP
  have h2' : bytesToNat k < S256.N.toNat := by
    have : S256.N = ((S256.N.toNat : Nat) : Int) := by decide
    rw [this] at h2
    exact_mod_cast h2
  obtain ⟨x, y, h, h', -⟩ := ScalarMult_eq_ecMul S256 S256_P_cast S256_P_odd hG k hk h1
    (fun j hj hjk => hN.2.2 j hj (by omega))
  exact ⟨x, y, h, h'⟩

/-- The hypotheses of `ScalarBaseMult_eq_ecMul` hold: the field prime of S256 is prime, its
base point has order `N`, and `sampleScalar` encodes `N - 2`. -/
theorem ScalarBaseMult_eq_ecMul_witness :
    Nat.Prime S256.P.toNat ∧ HasOrder S256.P (some (S256.Gx, S256.Gy)) S256.N.toNat ∧
    (∀ b ∈ sampleScalar, b < 256) ∧
    1 ≤ bytesToNat sampleScalar ∧
    (bytesToNat sampleScalar : Int) < S256.N ∧
    ∃ x y, ecMul S256.P (bytesToNat sampleScalar) (some (S256.Gx, S256.Gy)) = some (x, y) ∧
      ScalarBaseMult S256 sampleScalar = some (some x, some y) :=
  ⟨S256_P_prime, S256_hasOrder, by decide, by decide, by decide,
    ScalarBaseMult_eq_ecMul sampleScalar S256_P_prime S256_hasOrder (by decide) (by decide)
      (by decide)⟩

theorem S256_nsmul_ne_zero {G : (curveW S256.P.toNat S256.B).Point}
    [Fact (Nat.Prime S256.P.toNat)]
    (hG : Represents S256.P.toNat S256.B (some (S256.Gx, S256.Gy)) G) (j : Nat) (hj : 0 < j)
    (hjN : j < S256.N.toNat) : j • G ≠ 0 := by
  intro h0
  have h := S256_hasOrder.2.2 j hj hjN
  apply h
  have := ecMul_represents hG j
  rw [h0] at this
  rw [S256_P_cast]
  exact (represents_zero_iff _).1 this

theorem S256_nsmul_ne_nsmul {G : (curveW S256.P.toNat S256.B).Point}
    [Fact (Nat.Prime S256.P.toNat)]
    (hG : Represents S256.P.toNat S256.B (some (S256.Gx, S256.Gy)) G) (a b : Nat) (hab : a < b)
    (hbN : b < S256.N.toNat) : a • G ≠ b • G := by
  intro h
  have e : b • G = (b - a) • G + a • G := by
    rw [← add_nsmul]
    congr 1
    omega
  have h1 : 0 + a • G = (b - a) • G + a • G := by rw [zero_add, ← e, h]
  exact S256_nsmul_ne_zero hG (b - a) (by omega) (by omega) (add_right_cancel h1).symm

set_option maxRecDepth 1000000 in
/-- C5: the code departs from the claim at `k1 = k2 = 1`. `ScalarBaseMult` of 1 is the base
point `G`, and adding `G` to itself through `addJacobian`, which has no equal-point case,
gives `(0, 0, 0)`; `affineFromJacobian` has no inverse of `Z = 0` to convert it, so no sum
comes out, although the sum exists: `doubleJacobian` on the same lift gives the point that
`ScalarBaseMult` returns for the scalar 2. -/
theorem addsTo_one_one_fails :
    1 ≤ bytesToNat (scalar32 1) ∧
    bytesToNat (scalar32 2) = bytesToNat (scalar32 1) + bytesToNat (scalar32 1) ∧
    (bytesToNat (scalar32 2) : Int) < S256.N ∧
    ScalarBaseMult S256 (scalar32 1) = some (some S256.Gx, some S256.Gy) ∧
    addJacobian S256 S256.Gx S256.Gy 1 S256.Gx S256.Gy 1 = some (0, 0, 0) ∧
    liftAddAffine S256 S256.Gx S256.Gy S256.Gx S256.Gy = none ∧
    liftDoubleAffine S256 S256.Gx S256.Gy =
      some (89565891926547004231252920425935692360644145829622209833684329913297188986597,
        12158399299693830322967808612713398636155367887041628176798871954788371653930) ∧
    ScalarBaseMult S256 (scalar32 2) =
      some (some 89565891926547004231252920425935692360644145829622209833684329913297188986597,
        some 12158399299693830322967808612713398636155367887041628176798871954788371653930) ∧
    ¬ AddsTo (scalar32 1) (scalar32 1) (scalar32 2) := by
  refine ⟨by decide, by decide, by decide, by decide, by decide, by decide, by decide!,
    by decide!, ?_⟩
  rintro ⟨x1, y1, x2, y2, x3, y3, h1, h2, h3, -⟩
  have e : ScalarBaseMult S256 (scalar32 1) = some (some S256.Gx, some S256.Gy) := by decide
  rw [e] at h1 h2
  simp only [Option.some.injEq, Prod.mk.injEq] at h1 h2
  obtain ⟨rfl, rfl⟩ := h1
  obtain ⟨rfl, rfl⟩ := h2
  have e3 : liftAddAffine S256 S256.Gx S256.Gy S256.Gx S256.Gy = none := by decide
  rw [e3] at h3
  exact Option.noConfusion h3

/-- Away from the equal-point case the additivity of `ScalarBaseMult` holds on the code: on
the S256 curve, for all scalars `k1`, `k2` with distinct nonzero values and `k1 + k2 < N`,
adding the points `ScalarBaseMult k1` and `ScalarBaseMult k2` (lift with `Z = 1`,
`addJacobian`, `affineFromJacobian`) gives exactly `ScalarBaseMult` of the sum. -/
theorem addsTo_of_ne (k1 k2 k3 : List Nat) (hk1 : ∀ b ∈ k1, b < 256)
    (hk2 : ∀ b ∈ k2, b < 256) (hk3 : ∀ b ∈ k3, b < 256) (h1 : 1 ≤ bytesToNat k1)
    (h2 : 1 ≤ bytesToNat k2) (hne : bytesToNat k1 ≠ bytesToNat k2)
    (hsum : bytesToNat k3 = bytesToNat k1 + bytesToNat k2)
    (hlt : (bytesToNat k3 : Int) < S256.N) : AddsTo k1 k2 k3 := by
  haveI : Fact (Nat.Prime S256.P.toNat) := ⟨S256_P_prime⟩
  obtain ⟨G, hG⟩ := S256_G_point S256_P_prime
  have hlt' : bytesToNat k3 < S256.N.toNat := by
    have : S256.N = ((S256.N.toNat : Nat) : Int) := by decide
    rw [this] at hlt
    exact_mod_cast hlt
  have hO := S256_hasOrder
  obtain ⟨x1, y1, -, hm1, hr1⟩ := ScalarMult_eq_ecMul S256 S256_P_cast S256_P_odd hG k1 hk1 h1
    (fun j hj hjk => hO.2.2 j hj (by omega))
  obtain ⟨x2, y2, -, hm2, hr2⟩ := ScalarMult_eq_ecMul S256 S256_P_cast S256_P_odd hG k2 hk2 h2
    (fun j hj hjk => hO.2.2 j hj (by omega))
  obtain ⟨x3, y3, -, hm3, hr3⟩ := ScalarMult_eq_ecMul S256 S256_P_cast S256_P_odd hG k3 hk3
    (by omega) (fun j hj hjk => hO.2.2 j hj (by omega))
  have hpne : bytesToNat k1 • G ≠ bytesToNat k2 • G := by
    rcases Nat.lt_or_gt_of_ne hne with h | h
    · exact S256_nsmul_ne_nsmul hG _ _ h (by omega)
    · exact (S256_nsmul_ne_nsmul hG _ _ h (by omega)).symm
  have hadd : bytesToNat k1 • G + bytesToNat k2 • G = bytesToNat k3 • G := by
    rw [hsum, add_nsmul]
  have hsne : bytesToNat k1 • G + bytesToNat k2 • G ≠ 0 := by
    rw [hadd]
    exact S256_nsmul_ne_zero hG _ (by omega) hlt'
  obtain ⟨X3, Y3, Z3, hj, -, x, y, haff, hrep⟩ := addJacobian_step S256 S256_P_cast S256_P_odd
    hr1 (jacRepresents_lift S256 S256_P_cast hr2) hpne hsne
  rw [hadd] at hrep
  have e := represents_unique hrep hr3
  simp only [Option.some.injEq, Prod.mk.injEq] at e
  obtain ⟨rfl, rfl⟩ := e
  exact ⟨x1, y1, x2, y2, x, y, hm1, hm2, by simp only [liftAddAffine, hj, haff], hm3⟩

/-- The hypotheses of `addsTo_of_ne` hold for the scalars 1, 2 and 3. -/
theorem addsTo_of_ne_witness :
    (∀ b ∈ scalar32 1, b < 256) ∧ (∀ b ∈ scalar32 2, b < 256) ∧ (∀ b ∈ scalar32 3, b < 256) ∧
    1 ≤ bytesToNat (scalar32 1) ∧ 1 ≤ bytesToNat (scalar32 2) ∧
    bytesToNat (scalar32 1) ≠ bytesToNat (scalar32 2) ∧
    bytesToNat (scalar32 3) = bytesToNat (scalar32 1) + bytesToNat (scalar32 2) ∧
    (bytesToNat (scalar32 3) : Int) < S256.N ∧
    AddsTo (scalar32 1) (scalar32 2) (scalar32 3) :=
  ⟨by decide, by decide, by decide, by decide, by decide, by decide, by decide, by decide,
    addsTo_of_ne (scalar32 1) (scalar32 2) (scalar32 3) (by decide) (by decide) (by decide)
      (by decide) (by decide) (by decide) (by decide) (by decide)⟩

/-- C9: `doubleJacobian` returns the double of its input. For every odd prime `P` and every
Jacobian triple `(X, Y, Z)` with `Z` and `Y` nonzero modulo `P`, representing the affine
point `(x, y)`, the output has `Z'` nonzero modulo `P` and `affineFromJacobian` maps it to
the tangent-rule double `affineDouble P x y` (slope `3x²/2y`, `x' = slope² - 2x`,
`y' = slope·(x - x') - y`, all modulo `P`). -/
theorem doubleJacobian_doubles (c : BitCurve) (X Y Z : Int) (hP : Nat.Prime c.P.toNat)
    (hodd : c.P ≠ 2) (hZ : ¬ c.P ∣ Z) (hY : ¬ c.P ∣ Y) :
    ∃ X' Y' Z' x y x' y', doubleJacobian c X Y Z = some (X', Y', Z') ∧ ¬ c.P ∣ Z' ∧
      affineFromJacobian c X Y Z = some (x, y) ∧
      affineDouble c.P x y = some (x', y') ∧
      affineFromJacobian c X' Y' Z' = some (x', y') := by
  haveI : Fact (Nat.Prime c.P.toNat) := ⟨hP⟩
  have hpos : 0 ≤ c.P := by
    by_contra h
    have : c.P.toNat = 0 := Int.toNat_eq_zero.2 (by omega)
    rw [this] at hP
    exact Nat.not_prime_zero hP
  have hc : c.P = ((c.P.toNat : Nat) : Int) := (Int.toNat_of_nonneg hpos).symm
  have hodd' : c.P.toNat ≠ 2 := by
    intro h
    apply hodd
    rw [hc, h]
    rfl
  rw [hc] at hZ hY
  obtain ⟨X', Y', Z', x, y, x', y', h1, h2, h3, h4, h5⟩ :=
    doubleJacobian_affine c hc hodd' X Y Z hZ hY
  rw [← hc] at h2
  exact ⟨X', Y', Z', x, y, x', y', h1, h2, h3, h4, h5⟩

set_option maxRecDepth 100000 in
/-- The hypotheses of `doubleJacobian_doubles` hold on S256 for the Jacobian form
`(4 Gx, 8 Gy, 2)` of the base point. -/
theorem doubleJacobian_doubles_witness :
    Nat.Prime S256.P.toNat ∧ S256.P ≠ 2 ∧ ¬ S256.P ∣ 2 ∧ ¬ S256.P ∣ 8 * S256.Gy ∧
    ∃ X' Y' Z' x y x' y',
      doubleJacobian S256 (4 * S256.Gx) (8 * S256.Gy) 2 = some (X', Y', Z') ∧ ¬ S256.P ∣ Z' ∧
      affineFromJacobian S256 (4 * S256.Gx) (8 * S256.Gy) 2 = some (x, y) ∧
      affineDouble S256.P x y = some (x', y') ∧
      affineFromJacobian S256 X' Y' Z' = some (x', y') :=
  ⟨S256_P_prime, by decide, by decide, by decide,
    doubleJacobian_doubles S256 (4 * S256.Gx) (8 * S256.Gy) 2 S256_P_prime (by decide)
      (by decide) (by decide)⟩

/-- C10: `addJacobian` returns the sum of its inputs. For every odd prime `P` and any two
Jacobian triples with `Z1`, `Z2` nonzero modulo `P` whose affine points `(x1, y1)` and
`(x2, y2)` have different x-coordinates, the output has `Z3` nonzero modulo `P` and
`affineFromJacobian` maps it to the chord-rule sum `affineAdd P x1 y1 x2 y2` (slope
`(y2 - y1)/(x2 - x1)`, `x3 = slope² - x1 - x2`, `y3 = slope·(x1 - x3) - y1`, all modulo
`P`). -/
theorem addJacobian_adds (c : BitCurve) (X1 Y1 Z1 X2 Y2 Z2 x1 y1 x2 y2 : Int)
    (hP : Nat.Prime c.P.toNat) (hodd : c.P ≠ 2) (hZ1 : ¬ c.P ∣ Z1) (hZ2 : ¬ c.P ∣ Z2)
    (h1 : affineFromJacobian c X1 Y1 Z1 = some (x1, y1))
    (h2 : affineFromJacobian c X2 Y2 Z2 = some (x2, y2)) (hx : x1 ≠ x2) :
    ∃ X3 Y3 Z3 x3 y3, addJacobian c X1 Y1 Z1 X2 Y2 Z2 = some (X3, Y3, Z3) ∧ ¬ c.P ∣ Z3 ∧
      affineAdd c.P x1 y1 x2 y2 = some (x3, y3) ∧
      affineFromJacobian c X3 Y3 Z3 = some (x3, y3) := by
  haveI : Fact (Nat.Prime c.P.toNat) := ⟨hP⟩
  have hpos : 0 ≤ c.P := by
    by_contra h
    have : c.P.toNat = 0 := Int.toNat_eq_zero.2 (by omega)
    rw [this] at hP
    exact Nat.not_prime_zero hP
  have hc : c.P = ((c.P.toNat : Nat) : Int) := (Int.toNat_of_nonneg hpos).symm
  have hodd' : c.P.toNat ≠ 2 := by
    intro h
    apply hodd
    rw [hc, h]
    rfl
  rw [hc] at hZ1 hZ2
  obtain ⟨X3, Y3, Z3, x3, y3, h3, h4, h5, h6⟩ :=
    addJacobian_affine c hc hodd' X1 Y1 Z1 X2 Y2 Z2 x1 y1 x2 y2 hZ1 hZ2 h1 h2 hx
  rw [← hc] at h4
  exact ⟨X3, Y3, Z3, x3, y3, h3, h4, h5, h6⟩

set_option maxRecDepth 100000 in
/-- The hypotheses of `addJacobian_adds` hold on S256 for the base point and the Jacobian
form of its double returned by `doubleJacobian`. -/
theorem addJacobian_adds_witness :
    Nat.Prime S256.P.toNat ∧ S256.P ≠ 2 ∧ ¬ S256.P ∣ 1 ∧
    ¬ S256.P ∣ 65341020041517633956166170261014086368942546761318486551877808671514674964848 ∧
    affineFromJacobian S256 S256.Gx S256.Gy 1 = some (S256.Gx, S256.Gy) ∧
    affineFromJacobian S256
      56576513649176532955305617254616790498672209379484940581393603843805619269570
      39155707150128334349216371677407456506802956851096117747929288260567018884059
      65341020041517633956166170261014086368942546761318486551877808671514674964848 =
      some (89565891926547004231252920425935692360644145829622209833684329913297188986597,
        12158399299693830322967808612713398636155367887041628176798871954788371653930) ∧
    S256.Gx ≠ 89565891926547004231252920425935692360644145829622209833684329913297188986597 ∧
    ∃ X3 Y3 Z3 x3 y3,
      addJacobian S256 S256.Gx S256.Gy 1
        56576513649176532955305617254616790498672209379484940581393603843805619269570
        39155707150128334349216371677407456506802956851096117747929288260567018884059
        65341020041517633956166170261014086368942546761318486551877808671514674964848 = some (X3, Y3, Z3) ∧
      ¬ S256.P ∣ Z3 ∧
      affineAdd S256.P S256.Gx S256.Gy
        89565891926547004231252920425935692360644145829622209833684329913297188986597
        12158399299693830322967808612713398636155367887041628176798871954788371653930 = some (x3, y3) ∧
      affineFromJacobian S256 X3 Y3 Z3 = some (x3, y3) :=
  ⟨S256_P_prime, by decide, by decide, by decide, by decide, by decide, by decide,
    addJacobian_adds S256 _ _ _ _ _ _ _ _ _ _ S256_P_prime (by decide) (by decide) (by decide)
      (by decide) (by decide) (by decide)⟩

end Main

/-! ## The formulas of `doubleJacobian` and `addJacobian` -/

/-- Equal casts into `ZMod n` give equal residues modulo `n`. -/
theorem emod_eq_of_cast_eq (n : Nat) {a b : Int} (h : (a : ZMod n) = (b : ZMod n)) :
    a % (n : Int) = b % (n : Int) :=
  (ZMod.intCast_eq_intCast_iff a b n).1 h

/-- The renormalisation `if h < 0 then h + n` does not change the residue. -/
theorem cast_renorm_nat (n : Nat) (h : Int) :
    (((if h < 0 then h + (n : Int) else h : Int)) : ZMod n) = (h : ZMod n) := by
  split_ifs <;> simp

/-- On a difference of two residues the renormalisation is the reduction modulo `P`. -/
theorem renorm_eq_emod {a P : Int} (h1 : -P < a) (h2 : a < P) :
    (if a < 0 then a + P else a) = a % P := by
  split_ifs with h
  · rw [← Int.add_mul_emod_self (a := a) (b := 1) (c := P), one_mul]
    rw [Int.emod_eq_of_lt (by omega) (by omega)]
  · rw [Int.emod_eq_of_lt (by omega) h2]

/-- For `P > 0`, `doubleJacobian` returns `doubleJacobianSpec`. -/
theorem doubleJacobian_eq_spec (c : BitCurve) (X Y Z : Int) (hP : 0 < c.P) :
    doubleJacobian c X Y Z = some (doubleJacobianSpec c.P X Y Z) := by
  have hP0 : c.P ≠ 0 := by omega
  simp only [doubleJacobian, if_neg hP0, doubleJacobianSpec]
  congr 3 <;> ring_nf

/-- For `P > 0`, `addJacobian` returns `addJacobianSpec`. -/
theorem addJacobian_eq_spec (c : BitCurve) (X1 Y1 Z1 X2 Y2 Z2 : Int) (hP : 0 < c.P) :
    addJacobian c X1 Y1 Z1 X2 Y2 Z2 = some (addJacobianSpec c.P X1 Y1 Z1 X2 Y2 Z2) := by
  have hP0 : c.P ≠ 0 := by omega
  obtain ⟨n, hn⟩ : ∃ n : Nat, c.P = n := ⟨c.P.toNat, (Int.toNat_of_nonneg hP.le).symm⟩
  have hu1 : X1 * (Z2 * Z2 % c.P) % c.P = X1 * Z2 ^ 2 % c.P := by
    rw [hn]; apply emod_eq_of_cast_eq; push_cast [ZMod.intCast_mod]; ring
  have hu2 : X2 * (Z1 * Z1 % c.P) % c.P = X2 * Z1 ^ 2 % c.P := by
    rw [hn]; apply emod_eq_of_cast_eq; push_cast [ZMod.intCast_mod]; ring
  have hs1 : Y1 * Z2 * (Z2 * Z2 % c.P) % c.P = Y1 * Z2 ^ 3 % c.P := by
    rw [hn]; apply emod_eq_of_cast_eq; push_cast [ZMod.intCast_mod]; ring
  have hs2 : Y2 * Z1 * (Z1 * Z1 % c.P) % c.P = Y2 * Z1 ^ 3 % c.P := by
    rw [hn]; apply emod_eq_of_cast_eq; push_cast [ZMod.intCast_mod]; ring
  have bnd : ∀ a : Int, 0 ≤ a % c.P ∧ a % c.P < c.P :=
    fun a => ⟨Int.emod_nonneg _ hP0, Int.emod_lt_of_pos _ hP⟩
  have hh : ∀ a b : Int, (if a % c.P - b % c.P < 0 then a % c.P - b % c.P + c.P
      else a % c.P - b % c.P) = (a % c.P - b % c.P) % c.P := by
    intro a b
    have := bnd a
    have := bnd b
    exact renorm_eq_emod (by omega) (by omega)
  simp only [addJacobian, if_neg hP0, addJacobianSpec, hu1, hu2, hs1, hs2, hh]
  congr 2
  · congr 1; ring_nf
  · congr 1
    · congr 1; ring_nf
    · rw [hn]
      apply emod_eq_of_cast_eq
      simp only [Int.cast_mul, Int.cast_sub, Int.cast_add, Int.cast_pow, ZMod.intCast_mod,
        cast_renorm_nat]
      ring


/-- C14: `doubleJacobian` computes the specified formula. For every `P > 0` and all integers
`X`, `Y`, `Z` it returns the triple `doubleJacobianSpec P X Y Z`, that is
`X' = (F − 2D) mod P`, `Y' = (E·(D − X') − 8C) mod P`, `Z' = (2·Y·Z) mod P`, and each of
the three outputs lies in `[0, P)`. -/
theorem doubleJacobian_formula (c : BitCurve) (X Y Z : Int) (hP : 0 < c.P) :
    doubleJacobian c X Y Z = some (doubleJacobianSpec c.P X Y Z) ∧
    0 ≤ (doubleJacobianSpec c.P X Y Z).1 ∧ (doubleJacobianSpec c.P X Y Z).1 < c.P ∧
    0 ≤ (doubleJacobianSpec c.P X Y Z).2.1 ∧ (doubleJacobianSpec c.P X Y Z).2.1 < c.P ∧
    0 ≤ (doubleJacobianSpec c.P X Y Z).2.2 ∧ (doubleJacobianSpec c.P X Y Z).2.2 < c.P := by
  have hP0 : c.P ≠ 0 := by omega
  exact ⟨doubleJacobian_eq_spec c X Y Z hP, Int.emod_nonneg _ hP0, Int.emod_lt_of_pos _ hP,
    Int.emod_nonneg _ hP0, Int.emod_lt_of_pos _ hP, Int.emod_nonneg _ hP0,
    Int.emod_lt_of_pos _ hP⟩

/-- The hypothesis of `doubleJacobian_formula` holds on S256; the inputs are the base point
with `Z = 1`. -/
theorem doubleJacobian_formula_witness :
    0 < S256.P ∧
    doubleJacobian S256 S256.Gx S256.Gy 1 = some (doubleJacobianSpec S256.P S256.Gx S256.Gy 1) ∧
    0 ≤ (doubleJacobianSpec S256.P S256.Gx S256.Gy 1).1 ∧
    (doubleJacobianSpec S256.P S256.Gx S256.Gy 1).1 < S256.P ∧
    0 ≤ (doubleJacobianSpec S256.P S256.Gx S256.Gy 1).2.1 ∧
    (doubleJacobianSpec S256.P S256.Gx S256.Gy 1).2.1 < S256.P ∧
    0 ≤ (doubleJacobianSpec S256.P S256.Gx S256.Gy 1).2.2 ∧
    (doubleJacobianSpec S256.P S256.Gx S256.Gy 1).2.2 < S256.P :=
  ⟨by decide, doubleJacobian_formula S256 S256.Gx S256.Gy 1 (by decide)⟩

/-- C15: `addJacobian` computes the specified formula. For every `P > 0` and all integer
inputs it returns the triple `addJacobianSpec P X1 Y1 Z1 X2 Y2 Z2`, that is
`X3 = (R² − J − 2V) mod P`, `Y3 = (R·(V − X3) − 2·S1·J) mod P`,
`Z3 = (H·((Z1+Z2)² − Z1² − Z2²)) mod P`, and each of the three outputs lies in `[0, P)`. -/
theorem addJacobian_formula (c : BitCurve) (X1 Y1 Z1 X2 Y2 Z2 : Int) (hP : 0 < c.P) :
    addJacobian c X1 Y1 Z1 X2 Y2 Z2 = some (addJacobianSpec c.P X1 Y1 Z1 X2 Y2 Z2) ∧
    0 ≤ (addJacobianSpec c.P X1 Y1 Z1 X2 Y2 Z2).1 ∧
    (addJacobianSpec c.P X1 Y1 Z1 X2 Y2 Z2).1 < c.P ∧
    0 ≤ (addJacobianSpec c.P X1 Y1 Z1 X2 Y2 Z2).2.1 ∧
    (addJacobianSpec c.P X1 Y1 Z1 X2 Y2 Z2).2.1 < c.P ∧
    0 ≤ (addJacobianSpec c.P X1 Y1 Z1 X2 Y2 Z2).2.2 ∧
    (addJacobianSpec c.P X1 Y1 Z1 X2 Y2 Z2).2.2 < c.P := by
  have hP0 : c.P ≠ 0 := by omega
  exact ⟨addJacobian_eq_spec c X1 Y1 Z1 X2 Y2 Z2 hP, Int.emod_nonneg _ hP0,
    Int.emod_lt_of_pos _ hP, Int.emod_nonneg _ hP0, Int.emod_lt_of_pos _ hP,
    Int.emod_nonneg _ hP0, Int.emod_lt_of_pos _ hP⟩

/-- The hypothesis of `addJacobian_formula` holds on S256; the inputs are the base point
with `Z = 1` and the Jacobian form `(4 Gx, 8 Gy, 2)` of the same point. -/
theorem addJacobian_formula_witness :
    0 < S256.P ∧
    addJacobian S256 S256.Gx S256.Gy 1 (4 * S256.Gx) (8 * S256.Gy) 2 =
      some (addJacobianSpec S256.P S256.Gx S256.Gy 1 (4 * S256.Gx) (8 * S256.Gy) 2) ∧
    0 ≤ (addJacobianSpec S256.P S256.Gx S256.Gy 1 (4 * S256.Gx) (8 * S256.Gy) 2).1 ∧
    (addJacobianSpec S256.P S256.Gx S256.Gy 1 (4 * S256.Gx) (8 * S256.Gy) 2).1 < S256.P ∧
    0 ≤ (addJacobianSpec S256.P S256.Gx S256.Gy 1 (4 * S256.Gx) (8 * S256.Gy) 2).2.1 ∧
    (addJacobianSpec S256.P S256.Gx S256.Gy 1 (4 * S256.Gx) (8 * S256.Gy) 2).2.1 < S256.P ∧
    0 ≤ (addJacobianSpec S256.P S256.Gx S256.Gy 1 (4 * S256.Gx) (8 * S256.Gy) 2).2.2 ∧
    (addJacobianSpec S256.P S256.Gx S256.Gy 1 (4 * S256.Gx) (8 * S256.Gy) 2).2.2 < S256.P :=
  ⟨by decide,
    addJacobian_formula S256 S256.Gx S256.Gy 1 (4 * S256.Gx) (8 * S256.Gy) 2 (by decide)⟩

/-! ## The parameters of secp256k1 -/

set_option maxRecDepth 100000 in
/-- C12: the parameter set returned by `S256` is the published secp256k1 one and is
internally consistent: `P = 2^256 − 2^32 − 977`, `B = 7`, and `BitSize = 256` is the bit
length of `P`; `N`, `Gx` and `Gy` are the constants of SEC 2, section 2.7.1. -/
theorem S256_parameters :
    S256.P = 2 ^ 256 - 2 ^ 32 - 977 ∧ S256.B = 7 ∧ S256.BitSize = 256 ∧
    (2 : Int) ^ 255 ≤ S256.P ∧ S256.P < 2 ^ 256 ∧
    (BitLen S256.P : Int) = S256.BitSize ∧
    S256.N = 0xFFFFFFFFFFFFFFFFFFFFFFFFFFFFFFFEBAAEDCE6AF48A03BBFD25E8CD0364141 ∧
    S256.Gx = 0x79BE667EF9DCBBAC55A06295CE870B07029BFCDB2DCE28D959F2815B16F81798 ∧
    S256.Gy = 0x483ADA7726A3C4655DA4FBFC0E1108A8FD17B448A68554199C47D08FFB10D4B8 := by
  decide!

set_option maxRecDepth 100000 in
/-- C19: the base point stored by `S256` lies on the curve it is registered with:
`Gy² ≡ Gx³ + B` modulo `P` with `B = 7`, and both coordinates are in `[0, P)`. -/
theorem S256_base_point_on_curve :
    S256.Gy ^ 2 ≡ S256.Gx ^ 3 + S256.B [ZMOD S256.P] ∧ S256.B = 7 ∧
    0 ≤ S256.Gx ∧ S256.Gx < S256.P ∧ 0 ≤ S256.Gy ∧ S256.Gy < S256.P := by
  unfold Int.ModEq
  decide!

/-! ## Leading zero bytes -/

/-- The outer loop on a concatenation runs the two parts in sequence. -/
theorem byteLoop_append (c : BitCurve) (Bx By Bz : Int) (k1 k2 : List Nat) :
    ∀ s : LoopState, byteLoop c Bx By Bz s (k1 ++ k2) =
      (byteLoop c Bx By Bz s k1).bind fun s' => byteLoop c Bx By Bz s' k2 := by
  induction k1 with
  | nil => intro s; rfl
  | cons b k1 ih =>
    intro s
    simp only [List.cons_append, byteLoop]
    cases bitLoop c Bx By Bz 8 s b with
    | none => rfl
    | some s1 => exact ih s1

/-- Zero bytes in front of the scalar leave the result of `ScalarMult` unchanged. -/
theorem ScalarMult_zeros_append (c : BitCurve) (Bx By : Int) (k : List Nat) (m : Nat) :
    ScalarMult c Bx By (List.replicate m 0 ++ k) = ScalarMult c Bx By k := by
  simp only [ScalarMult, byteLoop_append, byteLoop_zero_bytes, Option.some_bind]

/-- The big-endian value is the base-256 number with the reversed bytes as digits. -/
theorem bytesToNat_eq_ofDigits (k : List Nat) : bytesToNat k = Nat.ofDigits 256 k.reverse := by
  rw [Nat.ofDigits_eq_foldr, List.foldr_reverse, bytesToNat]
  congr 1
  funext acc b
  simp [mul_comm, add_comm]

/-- Zero bytes in front do not change the big-endian value. -/
theorem bytesToNat_zeros_append (k : List Nat) (m : Nat) :
    bytesToNat (List.replicate m 0 ++ k) = bytesToNat k := by
  induction m with
  | zero => rfl
  | succ m ih =>
    rw [List.replicate_succ, List.cons_append]
    simpa [bytesToNat] using ih

/-- Every byte sequence is a run of zero bytes followed by a sequence that is empty or starts
with a nonzero byte. -/
theorem exists_strip (k : List Nat) :
    ∃ (m : Nat) (k' : List Nat), k = List.replicate m 0 ++ k' ∧ ∀ h : k' ≠ [], k'.head h ≠ 0 := by
  induction k with
  | nil => exact ⟨0, [], rfl, fun h => absurd rfl h⟩
  | cons b k ih =>
    by_cases hb : b = 0
    · obtain ⟨m, k', hk, hh⟩ := ih
      exact ⟨m + 1, k', by rw [hb, hk, List.replicate_succ, List.cons_append], hh⟩
    · exact ⟨0, b :: k, rfl, fun _ => hb⟩

/-- The result of `ScalarMult` on well-formed bytes is the result on the minimal big-endian
encoding of their value. -/
theorem ScalarMult_eq_digits (c : BitCurve) (Bx By : Int) (k : List Nat)
    (hk : ∀ b ∈ k, b < 256) :
    ScalarMult c Bx By k = ScalarMult c Bx By (Nat.digits 256 (bytesToNat k)).reverse := by
  obtain ⟨m, k', hkk, hh⟩ := exists_strip k
  have hk' : ∀ b ∈ k', b < 256 := fun b hb => hk b (by rw [hkk]; exact List.mem_append_right _ hb)
  have hd : Nat.digits 256 (bytesToNat k) = k'.reverse := by
    rw [hkk, bytesToNat_zeros_append, bytesToNat_eq_ofDigits]
    apply Nat.digits_ofDigits 256 (by norm_num)
    · intro l hl
      exact hk' l (List.mem_reverse.1 hl)
    · intro h
      have hne : k' ≠ [] := fun h0 => h (by rw [h0]; rfl)
      rw [List.getLast_reverse]
      exact hh hne
  rw [hd, List.reverse_reverse]
  conv_lhs => rw [hkk]
  exact ScalarMult_zeros_append c Bx By k' m

/-- C18: leading zero bytes do not change the result. For every curve, input point, byte
sequence `k` and `m ≥ 0`, `ScalarMult` on `m` zero bytes followed by `k` equals `ScalarMult`
on `k`; hence two byte sequences with the same big-endian value give the same result. -/
theorem ScalarMult_leading_zeros (c : BitCurve) (Bx By : Int) (k : List Nat) (m : Nat) :
    ScalarMult c Bx By (List.replicate m 0 ++ k) = ScalarMult c Bx By k ∧
    ∀ k1 k2 : List Nat, (∀ b ∈ k1, b < 256) → (∀ b ∈ k2, b < 256) →
      bytesToNat k1 = bytesToNat k2 → ScalarMult c Bx By k1 = ScalarMult c Bx By k2 := by
  refine ⟨ScalarMult_zeros_append c Bx By k m, ?_⟩
  intro k1 k2 h1 h2 h
  rw [ScalarMult_eq_digits c Bx By k1 h1, ScalarMult_eq_digits c Bx By k2 h2, h]

/-- The hypotheses of the second part of `ScalarMult_leading_zeros` hold on S256 for the
32-byte and the one-byte encoding of the scalar 2. -/
theorem ScalarMult_leading_zeros_witness :
    (∀ b ∈ scalar32 2, b < 256) ∧ (∀ b ∈ [2], b < 256) ∧
    bytesToNat (scalar32 2) = bytesToNat [2] ∧
    ScalarMult S256 S256.Gx S256.Gy (List.replicate 31 0 ++ [2]) =
      ScalarMult S256 S256.Gx S256.Gy [2] ∧
    ScalarMult S256 S256.Gx S256.Gy (scalar32 2) = ScalarMult S256 S256.Gx S256.Gy [2] :=
  ⟨by decide, by decide, by decide,
    (ScalarMult_leading_zeros S256 S256.Gx S256.Gy [2] 31).1,
    (ScalarMult_leading_zeros S256 S256.Gx S256.Gy [2] 31).2 (scalar32 2) [2] (by decide)
      (by decide) (by decide)⟩


/-! ## The loop of `ScalarMult` on scalars of any size -/

section Prefix

open WeierstrassCurve

variable {p : Nat} [Fact p.Prime] {B : Int}

/-- The inner loop reads less than `2 ^ n` in `n` passes that start from the value 0. -/
theorem bitsValue_zero_lt (n byte : Nat) : bitsValue n 0 byte < 2 ^ n := by
  induction n generalizing byte with
  | zero => simp [bitsValue]
  | succ n ih =>
    unfold bitsValue
    rw [bitsValue_add]
    have := ih ((byte * 2) % 256)
    have e : 2 ^ (n + 1) = 2 ^ n + 2 ^ n := by ring
    split_ifs
    · simp only [mul_zero, zero_add, one_mul]
      omega
    · simp only [mul_zero, zero_add, zero_mul]
      omega

/-- Dropping the `n` bits read by the inner loop gives back the value it started from. -/
theorem bitsValue_div (n m byte : Nat) : bitsValue n m byte / 2 ^ n = m := by
  rw [bitsValue_add, Nat.add_comm, Nat.add_mul_div_right _ _ (by positivity),
    Nat.div_eq_of_lt (bitsValue_zero_lt n byte), zero_add]

/-- Dropping the bits of the bytes `k` gives back the value the outer loop started from. -/
theorem foldl_bytes_div (k : List Nat) (hk : ∀ b ∈ k, b < 256) (m : Nat) :
    k.foldl (fun acc b => acc * 256 + b) m / 2 ^ (8 * k.length) = m := by
  induction k generalizing m with
  | nil => simp
  | cons b k ih =>
    have hb : b < 256 := hk b (List.mem_cons_self _ _)
    have e : 8 * (k.length + 1) = 8 * k.length + 8 := by ring
    rw [List.foldl_cons, List.length_cons, e, pow_add, ← Nat.div_div_eq_div_mul,
      ih (fun b' hb' => hk b' (List.mem_cons_of_mem _ hb'))]
    norm_num
    omega

omit [Fact p.Prime] in
theorem represents_some_ne_zero {x y : Int} {Q : (curveW p B).Point}
    (h : Represents p B (some (x, y)) Q) : Q ≠ 0 := by
  rintro rfl
  exact h.elim

/-- One pass of the inner loop keeps `LoopInv`, the scanned value going from `m` to
`2 m + bit`, when the new value meets `StepOK` and doubling a nonzero multiple of `G` never
gives the point at infinity. -/
theorem bitStep_inv_of_stepOK (c : BitCurve) (hc : c.P = p) (hodd : p ≠ 2) {Bx By : Int}
    {G : (curveW p c.B).Point} (hG : Represents p c.B (some (Bx, By)) G)
    (h2 : ∀ a : Nat, a • G ≠ 0 → (2 * a) • G ≠ 0)
    (s : LoopState) (m byte : Nat) (hinv : LoopInv c p Bx By G s m)
    (hok : StepOK G (2 * m + (if byte &&& 0x80 = 0x80 then 1 else 0))) :
    ∃ s', bitStep c Bx By 1 s byte = some s' ∧
      LoopInv c p Bx By G s' (2 * m + (if byte &&& 0x80 = 0x80 then 1 else 0)) := by
  obtain ⟨x, y, z, seen⟩ := s
  rcases hinv with ⟨hs, hm, hx, hy, hz⟩ | ⟨hs, hm, hJ⟩
  · simp only at hs hx hy hz
    subst hs hm hx hy hz
    by_cases hbit : byte &&& 0x80 = 0x80
    · refine ⟨⟨x, y, 1, true⟩, by simp [bitStep, hbit], Or.inr ⟨rfl, by simp [hbit], ?_⟩⟩
      simp only [hbit, if_true, mul_zero, zero_add, one_nsmul]
      exact jacRepresents_lift c hc hG
    · refine ⟨⟨x, y, 1, false⟩, by simp [bitStep, hbit], Or.inl ⟨rfl, by simp [hbit], rfl, rfl, rfl⟩⟩
  · simp only at hs hJ
    subst hs
    have hmG : m • G ≠ 0 := by
      obtain ⟨-, x0, y0, -, hrep⟩ := hJ
      exact represents_some_ne_zero hrep
    have h2m : m • G + m • G = (2 * m) • G := by rw [two_mul, add_nsmul]
    have hdne : m • G + m • G ≠ 0 := by
      rw [h2m]
      exact h2 m hmG
    obtain ⟨X', Y', Z', hd, hJ'⟩ := doubleJacobian_step c hc hodd hJ hdne
    rw [h2m] at hJ'
    by_cases hbit : byte &&& 0x80 = 0x80
    · simp only [hbit, if_true] at hok ⊢
      obtain ⟨hne0, hneG⟩ := hok (by omega)
      have hsum : G + (2 * m) • G = (2 * m + 1) • G := by rw [succ_nsmul']
      have hne : G ≠ (2 * m) • G := by
        have := hneG (by omega) (by omega)
        simpa using this
      have hsne : G + (2 * m) • G ≠ 0 := by
        rw [hsum]
        exact hne0
      obtain ⟨X3, Y3, Z3, ha, hJ3⟩ := addJacobian_step c hc hodd hG hJ' hne hsne
      rw [hsum] at hJ3
      exact ⟨⟨X3, Y3, Z3, true⟩, by simp [bitStep, hbit, hd, ha], Or.inr ⟨rfl, by omega, hJ3⟩⟩
    · simp only [hbit, if_false, add_zero] at hok ⊢
      exact ⟨⟨X', Y', Z', true⟩, by simp [bitStep, hbit, hd], Or.inr ⟨rfl, by omega, hJ'⟩⟩

/-- The inner loop keeps `LoopInv` when every value `v / 2 ^ j` of the leading bits of the
final value `v` meets `StepOK`. -/
theorem bitLoop_inv_of_stepOK (c : BitCurve) (hc : c.P = p) (hodd : p ≠ 2) {Bx By : Int}
    {G : (curveW p c.B).Point} (hG : Represents p c.B (some (Bx, By)) G)
    (h2 : ∀ a : Nat, a • G ≠ 0 → (2 * a) • G ≠ 0) (n : Nat) :
    ∀ (s : LoopState) (m byte : Nat), LoopInv c p Bx By G s m →
      (∀ j, StepOK G (bitsValue n m byte / 2 ^ j)) →
      ∃ s', bitLoop c Bx By 1 n s byte = some s' ∧
        LoopInv c p Bx By G s' (bitsValue n m byte) := by
  induction n with
  | zero =>
    intro s m byte hinv _
    exact ⟨s, rfl, hinv⟩
  | succ n ih =>
    intro s m byte hinv hok
    have hstep : StepOK G (2 * m + (if byte &&& 0x80 = 0x80 then 1 else 0)) := by
      have := hok n
      unfold bitsValue at this
      rwa [bitsValue_div] at this
    obtain ⟨s1, hs1, hinv1⟩ := bitStep_inv_of_stepOK c hc hodd hG h2 s m byte hinv hstep
    obtain ⟨s2, hs2, hinv2⟩ := ih s1 _ ((byte * 2) % 256) hinv1 hok
    exact ⟨s2, by simp only [bitLoop, hs1, hs2], hinv2⟩

/-- The outer loop keeps `LoopInv` when every value `v / 2 ^ j` of the leading bits of the
final value `v` meets `StepOK`. -/
theorem byteLoop_inv_of_stepOK (c : BitCurve) (hc : c.P = p) (hodd : p ≠ 2) {Bx By : Int}
    {G : (curveW p c.B).Point} (hG : Represents p c.B (some (Bx, By)) G)
    (h2 : ∀ a : Nat, a • G ≠ 0 → (2 * a) • G ≠ 0) (k : List Nat) :
    ∀ (s : LoopState) (m : Nat), (∀ b ∈ k, b < 256) → LoopInv c p Bx By G s m →
      (∀ j, StepOK G (k.foldl (fun acc b => acc * 256 + b) m / 2 ^ j)) →
      ∃ s', byteLoop c Bx By 1 s k = some s' ∧
        LoopInv c p Bx By G s' (k.foldl (fun acc b => acc * 256 + b) m) := by
  induction k with
  | nil =>
    intro s m _ hinv _
    exact ⟨s, rfl, hinv⟩
  | cons b k ih =>
    intro s m hk hinv hok
    have hb : b < 256 := hk b (List.mem_cons_self _ _)
    have hk' : ∀ b' ∈ k, b' < 256 := fun b' hb' => hk b' (List.mem_cons_of_mem _ hb')
    rw [List.foldl_cons] at hok ⊢
    have hok1 : ∀ j, StepOK G (bitsValue 8 m b / 2 ^ j) := by
      intro j
      have := hok (8 * k.length + j)
      rwa [pow_add, ← Nat.div_div_eq_div_mul, foldl_bytes_div k hk', ← bitsValue_eight m b hb]
        at this
    obtain ⟨s1, hs1, hinv1⟩ := bitLoop_inv_of_stepOK c hc hodd hG h2 8 s m b hinv hok1
    rw [bitsValue_eight m b hb] at hinv1
    obtain ⟨s2, hs2, hinv2⟩ := ih s1 _ hk' hinv1 hok
    exact ⟨s2, by simp only [byteLoop, hs1, hs2], hinv2⟩

/-- If every value `n / 2 ^ j` of the leading bits of the scalar `n` meets `StepOK`,
`ScalarMult` returns the canonical representative of `n • G`. -/
theorem ScalarMult_represents_of_stepOK (c : BitCurve) (hc : c.P = p) (hodd : p ≠ 2)
    {Bx By : Int} {G : (curveW p c.B).Point} (hG : Represents p c.B (some (Bx, By)) G)
    (h2 : ∀ a : Nat, a • G ≠ 0 → (2 * a) • G ≠ 0) (k : List Nat)
    (hk : ∀ b ∈ k, b < 256) (hpos : 0 < bytesToNat k)
    (hok : ∀ j, StepOK G (bytesToNat k / 2 ^ j)) :
    ∃ x y, ScalarMult c Bx By k = some (some x, some y) ∧
      Represents p c.B (some (x, y)) (bytesToNat k • G) := by
  obtain ⟨s, hs, hinv⟩ := byteLoop_inv_of_stepOK c hc hodd hG h2 k ⟨Bx, By, 1, false⟩ 0 hk
    (Or.inl ⟨rfl, rfl, rfl, rfl, rfl⟩) hok
  rcases hinv with ⟨-, hm, -⟩ | ⟨hseen, -, -, x, y, haff, hrep⟩
  · unfold bytesToNat at hpos
    omega
  · exact ⟨x, y, by simp [ScalarMult, hs, hseen, haff], hrep⟩

end Prefix

/-! ## The outcomes of `ScalarBaseMult` on secp256k1 -/

section Valid

open WeierstrassCurve

/-- A canonical representative of a point of `curveW p B` is reduced and satisfies the curve
equation modulo `p`. -/
theorem represents_on_curve {p : Nat} [Fact p.Prime] {B x y : Int} {Q : (curveW p B).Point}
    (h : Represents p B (some (x, y)) Q) :
    0 ≤ x ∧ x < p ∧ 0 ≤ y ∧ y < p ∧ y ^ 2 ≡ x ^ 3 + B [ZMOD (p : Int)] := by
  cases Q with
  | zero => exact h.elim
  | some hns =>
    obtain ⟨h1, h2, h3, h4, h5, h6⟩ := h
    refine ⟨h1, h2, h3, h4, ?_⟩
    have heq := hns.1
    rw [Affine.equation_iff] at heq
    have hW1 : (curveW p B).a₁ = 0 := rfl
    have hW2 : (curveW p B).a₂ = 0 := rfl
    have hW3 : (curveW p B).a₃ = 0 := rfl
    have hW4 : (curveW p B).a₄ = 0 := rfl
    have hW6 : (curveW p B).a₆ = (B : ZMod p) := rfl
    rw [hW1, hW2, hW3, hW4, hW6, ← h5, ← h6] at heq
    apply (ZMod.intCast_eq_intCast_iff _ _ p).1
    push_cast
    linear_combination heq

/-- A byte sequence of value zero consists of zero bytes. -/
theorem bytes_zero_of_bytesToNat_zero (k : List Nat) (h : bytesToNat k = 0) :
    ∃ m, k = List.replicate m 0 := by
  obtain ⟨m, k', hk, hh⟩ := exists_strip k
  refine ⟨m, ?_⟩
  cases k' with
  | nil => simpa using hk
  | cons b k'' =>
    exfalso
    have hb : b ≠ 0 := hh (List.cons_ne_nil _ _)
    rw [hk, bytesToNat_zeros_append] at h
    have := le_foldl_bytes k'' (0 * 256 + b)
    unfold bytesToNat at h
    rw [List.foldl_cons] at h
    omega

/-- A scalar whose multiple of the base point is `none` under `ecMul` gives the point at
infinity of `curveW`. -/
theorem S256_nsmul_eq_zero_of_ecMul {G : (curveW S256.P.toNat S256.B).Point}
    [Fact (Nat.Prime S256.P.toNat)]
    (hG : Represents S256.P.toNat S256.B (some (S256.Gx, S256.Gy)) G) (n : Nat)
    (h : ecMul S256.P n (some (S256.Gx, S256.Gy)) = none) : n • G = 0 := by
  have hr := ecMul_represents hG n
  rw [← S256_P_cast, h] at hr
  exact (represents_none_iff _).1 hr

/-- On secp256k1, `N • G` is the point at infinity. -/
theorem S256_order_nsmul {G : (curveW S256.P.toNat S256.B).Point}
    [Fact (Nat.Prime S256.P.toNat)]
    (hG : Represents S256.P.toNat S256.B (some (S256.Gx, S256.Gy)) G) :
    S256.N.toNat • G = 0 :=
  S256_nsmul_eq_zero_of_ecMul hG _ S256_hasOrder.2.1

/-- On secp256k1, `j • G` is the point at infinity exactly when `N` divides `j`. -/
theorem S256_nsmul_eq_zero_iff {G : (curveW S256.P.toNat S256.B).Point}
    [Fact (Nat.Prime S256.P.toNat)]
    (hG : Represents S256.P.toNat S256.B (some (S256.Gx, S256.Gy)) G) (j : Nat) :
    j • G = 0 ↔ j % S256.N.toNat = 0 := by
  have hN := S256_order_nsmul hG
  have hne := fun i => S256_nsmul_ne_zero hG i
  have hpos : 0 < S256.N.toNat := S256_hasOrder.1
  generalize S256.N.toNat = N at hN hne hpos ⊢
  have e : j • G = (j % N) • G := by
    conv_lhs => rw [← Nat.div_add_mod j N]
    rw [add_nsmul, mul_nsmul, hN, nsmul_zero, zero_add]
  rw [e]
  constructor
  · intro h
    by_contra hne0
    exact hne _ (Nat.pos_of_ne_zero hne0) (Nat.mod_lt _ hpos) h
  · intro h
    rw [h, zero_nsmul]


/-- Below `2 T`, with `T < N`, only the value itself can reach `N`: every shifted value
`n / 2 ^ j` other than `N` is nonzero modulo `N`, and other than `N + 2` it is not an odd
number congruent to 2. -/
theorem prefix_mod_of_lt (N T n : Nat) (hT : T < N) (hn : n < 2 * T) (hN : n ≠ N)
    (hN2 : n ≠ N + 2) (j : Nat) (hpos : 0 < n / 2 ^ j) :
    (n / 2 ^ j) % N ≠ 0 ∧ ¬ ((n / 2 ^ j) % 2 = 1 ∧ (n / 2 ^ j) % N = 2) := by
  cases j with
  | zero =>
    simp only [pow_zero, Nat.div_one] at hpos ⊢
    rcases Nat.lt_or_ge n N with h | h
    · rw [Nat.mod_eq_of_lt h]
      omega
    · rw [Nat.mod_eq_sub_mod h, Nat.mod_eq_of_lt (by omega)]
      omega
  | succ j =>
    have h2 : n / 2 ^ (j + 1) ≤ n / 2 := by
      apply Nat.div_le_div_left _ (by norm_num)
      calc 2 = 2 ^ 1 := by norm_num
        _ ≤ 2 ^ (j + 1) := Nat.pow_le_pow_right (by norm_num) (by omega)
    generalize n / 2 ^ (j + 1) = m at hpos h2 ⊢
    rw [Nat.mod_eq_of_lt (by omega)]
    omega

/-- The group order of secp256k1 has 256 bits. -/
theorem S256_N_gt : 2 ^ 255 < S256.N.toNat := by decide

/-- Scalars below `2 ^ 256` other than `N` and `N + 2` meet the condition on the
values of the leading bits: only the scalar itself can reach `N`. -/
theorem S256_prefix_of_lt (n : Nat) (hn : n < 2 ^ 256) (hN : n ≠ S256.N.toNat)
    (hN2 : n ≠ S256.N.toNat + 2) (j : Nat) (hpos : 0 < n / 2 ^ j) :
    (n / 2 ^ j) % S256.N.toNat ≠ 0 ∧
      ¬ ((n / 2 ^ j) % 2 = 1 ∧ (n / 2 ^ j) % S256.N.toNat = 2) :=
  prefix_mod_of_lt S256.N.toNat (2 ^ 255) n S256_N_gt hn hN hN2 j hpos


/-- On secp256k1, doubling a nonzero multiple of `G` does not give the point at infinity:
the order `N` is an odd prime. -/
theorem S256_two_nsmul_ne_zero {G : (curveW S256.P.toNat S256.B).Point}
    [Fact (Nat.Prime S256.P.toNat)]
    (hG : Represents S256.P.toNat S256.B (some (S256.Gx, S256.Gy)) G) (a : Nat)
    (ha : a • G ≠ 0) : (2 * a) • G ≠ 0 := by
  rw [Ne, S256_nsmul_eq_zero_iff hG] at ha ⊢
  have hp := S256_N_prime
  have h2 : 2 < S256.N.toNat := lt_trans (by norm_num) S256_N_gt
  generalize S256.N.toNat = N at ha hp h2 ⊢
  intro h
  rcases (Nat.Prime.dvd_mul hp).1 (Nat.dvd_of_mod_eq_zero h) with hd | hd
  · have := Nat.le_of_dvd (by norm_num) hd
    omega
  · exact ha (Nat.mod_eq_zero_of_dvd hd)

/-- On secp256k1, `StepOK` in terms of residues modulo `N`: the value is not a multiple of
`N`, and it is not an odd number congruent to 2. -/
theorem S256_stepOK {G : (curveW S256.P.toNat S256.B).Point}
    [Fact (Nat.Prime S256.P.toNat)]
    (hG : Represents S256.P.toNat S256.B (some (S256.Gx, S256.Gy)) G) (v : Nat)
    (h : 0 < v → v % S256.N.toNat ≠ 0 ∧ ¬ (v % 2 = 1 ∧ v % S256.N.toNat = 2)) :
    StepOK G v := by
  intro hpos
  obtain ⟨h0, h1⟩ := h hpos
  refine ⟨fun hz => h0 ((S256_nsmul_eq_zero_iff hG v).1 hz), fun hodd hgt hGeq => ?_⟩
  have e : (v - 2) • G + G = 0 + G := by
    rw [← succ_nsmul, zero_add]
    have : v - 2 + 1 = v - 1 := by omega
    rw [this]
    exact hGeq.symm
  have hz := (S256_nsmul_eq_zero_iff hG (v - 2)).1 (add_right_cancel e)
  have h2 : 2 < S256.N.toNat := lt_trans (by norm_num) S256_N_gt
  generalize S256.N.toNat = N at h0 h1 hz h2
  apply h1
  refine ⟨hodd, ?_⟩
  obtain ⟨t, ht⟩ := Nat.dvd_of_mod_eq_zero hz
  have hv : v = 2 + N * t := by omega
  rw [hv, Nat.add_mul_mod_self_left, Nat.mod_eq_of_lt h2]

set_option maxRecDepth 1000000 in
/-- C11, as stated, fails at the 32-byte scalar that encodes the group order `N`: it has
set bits, yet the loop ends with `Z = 0` (the last step adds `G` to `(N - 1) G = -G`), for
which `affineFromJacobian` has no inverse, so `ScalarBaseMult` returns neither a valid
point nor the `nil, nil` result. -/
theorem ScalarBaseMult_order_fails :
    (∀ b ∈ orderScalar, b < 256) ∧ (∃ b ∈ orderScalar, b ≠ 0) ∧
    (bytesToNat orderScalar : Int) = S256.N ∧
    ScalarBaseMult S256 orderScalar = none ∧
    byteLoop S256 S256.Gx S256.Gy 1 ⟨S256.Gx, S256.Gy, 1, false⟩ orderScalar =
      some ⟨67843730092425645355445292181517028067523622867702620240445886075527424848397,
        15045730150784987231716833143945816467777065213805199221309579937103364952962,
        0, true⟩ := by
  exact ⟨by decide, by decide, by decide, by decide!, by decide!⟩

set_option maxRecDepth 1000000 in
/-- The defect of `addJacobian` inside `ScalarMult`: at the 32-byte scalar that encodes
`N + 2` the last pass of the loop doubles to `(N + 1) G = G` and adds `G` to it, the
equal-point case for which `addJacobian` has no formula; the loop ends at `(0, 0, 0)` and
`affineFromJacobian` has no inverse to convert it, although `(N + 2) G = 2 G` is the point
returned for the scalar 2. -/
theorem ScalarBaseMult_order_plus_two_fails :
    (∀ b ∈ orderPlusTwoScalar, b < 256) ∧
    (bytesToNat orderPlusTwoScalar : Int) = S256.N + 2 ∧
    byteLoop S256 S256.Gx S256.Gy 1 ⟨S256.Gx, S256.Gy, 1, false⟩ orderPlusTwoScalar =
      some ⟨0, 0, 0, true⟩ ∧
    ScalarBaseMult S256 orderPlusTwoScalar = none ∧
    ScalarBaseMult S256 (scalar32 2) =
      some (some 89565891926547004231252920425935692360644145829622209833684329913297188986597,
        some 12158399299693830322967808612713398636155367887041628176798871954788371653930) := by
  exact ⟨by decide, by decide, by decide!, by decide!, by decide!⟩

/-- The outcomes of `ScalarBaseMult` on S256 for a scalar of any length whose leading-bit
values meet the conditions modulo `N`. -/
theorem ScalarBaseMult_outcomes (k : List Nat) (hk : ∀ b ∈ k, b < 256)
    (hreg : ∀ j, 0 < bytesToNat k / 2 ^ j →
      (bytesToNat k / 2 ^ j) % S256.N.toNat ≠ 0 ∧
        ¬ ((bytesToNat k / 2 ^ j) % 2 = 1 ∧ (bytesToNat k / 2 ^ j) % S256.N.toNat = 2)) :
    (bytesToNat k = 0 ∧ ScalarBaseMult S256 k = some (none, none)) ∨
    (1 ≤ bytesToNat k ∧ ∃ x y, ScalarBaseMult S256 k = some (some x, some y) ∧
      0 ≤ x ∧ x < S256.P ∧ 0 ≤ y ∧ y < S256.P ∧ y ^ 2 ≡ x ^ 3 + 7 [ZMOD S256.P]) := by
  by_cases h0 : bytesToNat k = 0
  · left
    refine ⟨h0, ?_⟩
    obtain ⟨m, rfl⟩ := bytes_zero_of_bytesToNat_zero k h0
    have := ScalarMult_zeros_append S256 S256.Gx S256.Gy [] m
    rw [List.append_nil] at this
    rw [ScalarBaseMult, this]
    rfl
  · right
    have h1 : 1 ≤ bytesToNat k := Nat.one_le_iff_ne_zero.2 h0
    refine ⟨h1, ?_⟩
    haveI : Fact (Nat.Prime S256.P.toNat) := ⟨S256_P_prime⟩
    obtain ⟨G, hG⟩ := S256_G_point S256_P_prime
    obtain ⟨x, y, hm, hr⟩ := ScalarMult_represents_of_stepOK S256 S256_P_cast S256_P_odd hG
      (S256_two_nsmul_ne_zero hG) k hk h1 (fun j => S256_stepOK hG _ (hreg j))
    obtain ⟨hx0, hx1, hy0, hy1, hc⟩ := represents_on_curve hr
    rw [← S256_P_cast] at hx1 hy1 hc
    exact ⟨x, y, hm, hx0, hx1, hy0, hy1, hc⟩

/-- C11, amended: on the S256 curve, for every byte sequence `k` (of any length) with value
`n`, such that no value `n / 2 ^ j` of the leading bits of `n` (`n` itself included) is a
positive multiple of the group order `N`, and none is an odd number congruent to 2 modulo
`N` (the scalars at which the loop adds `G` to `G` are left out), `ScalarBaseMult k` returns
a valid point when `k` has a set bit (`n ≥ 1`): a pair `(x, y)` with `0 ≤ x < P`,
`0 ≤ y < P` and `y² ≡ x³ + 7` modulo `P`; the `nil, nil` result for an all-zero scalar is
the only other outcome. Every `n < N` and every `n < 2 ^ 256` other than `N` and `N + 2`
meets the condition. -/
theorem ScalarBaseMult_valid (k : List Nat) (hk : ∀ b ∈ k, b < 256)
    (hreg : ∀ j, 0 < bytesToNat k / 2 ^ j →
      (bytesToNat k / 2 ^ j) % S256.N.toNat ≠ 0 ∧
        ¬ ((bytesToNat k / 2 ^ j) % 2 = 1 ∧ (bytesToNat k / 2 ^ j) % S256.N.toNat = 2)) :
    ((bytesToNat k = 0 ∧ ScalarBaseMult S256 k = some (none, none)) ∨
    (1 ≤ bytesToNat k ∧ ∃ x y, ScalarBaseMult S256 k = some (some x, some y) ∧
      0 ≤ x ∧ x < S256.P ∧ 0 ≤ y ∧ y < S256.P ∧ y ^ 2 ≡ x ^ 3 + 7 [ZMOD S256.P])) ∧
    ∀ k2 : List Nat, (∀ b ∈ k2, b < 256) → bytesToNat k2 < 2 ^ 256 →
      bytesToNat k2 ≠ S256.N.toNat → bytesToNat k2 ≠ S256.N.toNat + 2 →
      ((bytesToNat k2 = 0 ∧ ScalarBaseMult S256 k2 = some (none, none)) ∨
      (1 ≤ bytesToNat k2 ∧ ∃ x y, ScalarBaseMult S256 k2 = some (some x, some y) ∧
        0 ≤ x ∧ x < S256.P ∧ 0 ≤ y ∧ y < S256.P ∧ y ^ 2 ≡ x ^ 3 + 7 [ZMOD S256.P])) :=
  ⟨ScalarBaseMult_outcomes k hk hreg, fun k2 hk2 hlt hN hN2 =>
    ScalarBaseMult_outcomes k2 hk2 (S256_prefix_of_lt _ hlt hN hN2)⟩

/-- The hypotheses of `ScalarBaseMult_valid` hold for `orderPlusOneScalar`, the 32-byte
encoding of `N + 1`, a scalar above the group order. -/
theorem ScalarBaseMult_valid_witness :
    (∀ b ∈ orderPlusOneScalar, b < 256) ∧
    (bytesToNat orderPlusOneScalar : Int) = S256.N + 1 ∧
    (∀ j, 0 < bytesToNat orderPlusOneScalar / 2 ^ j →
      (bytesToNat orderPlusOneScalar / 2 ^ j) % S256.N.toNat ≠ 0 ∧
        ¬ ((bytesToNat orderPlusOneScalar / 2 ^ j) % 2 = 1 ∧
          (bytesToNat orderPlusOneScalar / 2 ^ j) % S256.N.toNat = 2)) ∧
    ((bytesToNat orderPlusOneScalar = 0 ∧
        ScalarBaseMult S256 orderPlusOneScalar = some (none, none)) ∨
    (1 ≤ bytesToNat orderPlusOneScalar ∧
      ∃ x y, ScalarBaseMult S256 orderPlusOneScalar = some (some x, some y) ∧
        0 ≤ x ∧ x < S256.P ∧ 0 ≤ y ∧ y < S256.P ∧ y ^ 2 ≡ x ^ 3 + 7 [ZMOD S256.P])) :=
  ⟨by decide, by decide,
    S256_prefix_of_lt _ (by decide) (by decide) (by decide),
    (ScalarBaseMult_valid orderPlusOneScalar (by decide)
      (S256_prefix_of_lt _ (by decide) (by decide) (by decide))).1⟩

end Valid

/-! ## The encoding of the public key -/

/-- The encoding of zero is all zero bytes. -/
theorem bePad_zero (L : Nat) : bePad L 0 = List.replicate L 0 := by
  induction L with
  | zero => rfl
  | succ L ih => simp [bePad, ih, List.replicate_succ']

/-- For `n < 256^L` the minimal big-endian bytes of `n` are at most `L`, and left-padding
them with zeros gives the `L`-byte encoding. -/
theorem natBytesFuel_pad (fuel : Nat) :
    ∀ (L n : Nat), n ≤ fuel → n < 256 ^ L →
      (natBytesFuel fuel n).length ≤ L ∧
      List.replicate (L - (natBytesFuel fuel n).length) 0 ++ natBytesFuel fuel n = bePad L n := by
  induction fuel with
  | zero =>
    intro L n hn _
    have : n = 0 := by omega
    subst this
    simp [natBytesFuel, bePad_zero]
  | succ fuel ih =>
    intro L n hn hL
    unfold natBytesFuel
    by_cases h0 : n = 0
    · subst h0
      simp [bePad_zero]
    · rw [if_neg h0]
      cases L with
      | zero => simp at hL; omega
      | succ L =>
        have hdiv : n / 256 < 256 ^ L := by
          rw [pow_succ] at hL
          omega
        obtain ⟨hlen, hpad⟩ := ih L (n / 256) (by omega) hdiv
        refine ⟨by simp; omega, ?_⟩
        simp only [List.length_append, List.length_singleton, bePad]
        rw [← hpad, ← List.append_assoc]
        congr 2
        congr 1
        omega

/-- The recursive encoding `bePad` lists the base-256 digits by position. -/
theorem bePad_eq_map (L : Nat) :
    ∀ n : Nat, bePad L n = (List.range L).map fun i => n / 256 ^ (L - 1 - i) % 256 := by
  induction L with
  | zero => intro n; rfl
  | succ L ih =>
    intro n
    rw [bePad, ih, List.range_succ, List.map_append, List.map_singleton]
    congr 1
    · apply List.map_congr_left
      intro i hi
      have hi' : i < L := List.mem_range.1 hi
      have e : L + 1 - 1 - i = (L - 1 - i) + 1 := by omega
      rw [e, pow_succ, Nat.div_div_eq_div_mul, mul_comm]
    · simp

/-- The 32-byte recursive encoding is `be32`. -/
theorem bePad_eq_be32 (x : Int) : bePad 32 x.toNat = be32 x := by
  rw [bePad_eq_map]
  rfl

/-- For `0 ≤ x < 2^256`, `Bytes x` has at most 32 bytes and left-padded gives `be32 x`. -/
theorem Bytes_pad (x : Int) (h0 : 0 ≤ x) (h : x < 2 ^ 256) :
    (Bytes x).length ≤ 32 ∧
    List.replicate (32 - (Bytes x).length) 0 ++ Bytes x = be32 x := by
  have e : x.natAbs = x.toNat := by omega
  have hlt : x.toNat < 256 ^ 32 := by
    have : (256 : Nat) ^ 32 = 2 ^ 256 := by norm_num
    rw [this]
    have h2 : ((x.toNat : Nat) : Int) < ((2 ^ 256 : Nat) : Int) := by
      rw [Int.toNat_of_nonneg h0]
      exact_mod_cast h
    exact_mod_cast h2
  have := natBytesFuel_pad x.toNat 32 x.toNat le_rfl hlt
  rw [← bePad_eq_be32]
  unfold Bytes
  rw [e]
  exact this

/-- The encoding `be32` has 32 bytes. -/
theorem be32_length (x : Int) : (be32 x).length = 32 := by
  simp [be32]

/-- For a point with both coordinates in `[0, 2^256)`, `getPublic` returns the tag byte 4
followed by the two padded coordinates. -/
theorem getPublic_eq (scalarBaseMult : List Nat → Option (Option Int × Option Int))
    (priv_key : List Nat) (x y : Int) (h : scalarBaseMult priv_key = some (some x, some y))
    (hx0 : 0 ≤ x) (hx : x < 2 ^ 256) (hy0 : 0 ≤ y) (hy : y < 2 ^ 256) :
    getPublic scalarBaseMult priv_key = some (4 :: (be32 x ++ be32 y)) := by
  obtain ⟨hlx, hpx⟩ := Bytes_pad x hx0 hx
  obtain ⟨hly, hpy⟩ := Bytes_pad y hy0 hy
  have hbx := be32_length x
  simp only [getPublic, h]
  generalize Bytes x = xs at hlx hpx
  generalize Bytes y = ys at hly hpy
  have hret : (List.replicate 65 0).set 0 4 = 4 :: List.replicate 64 0 := rfl
  rw [hret]
  have h1 : copySlice (4 :: List.replicate 64 0) (1 + 32 - (xs.length : Int)) 33 xs =
      some (4 :: (be32 x ++ List.replicate 32 0)) := by
    have hlo : (1 + 32 - (xs.length : Int)).toNat = (32 - xs.length) + 1 := by omega
    have hn : min ((33 : Int) - (1 + 32 - (xs.length : Int))).toNat xs.length = xs.length := by
      omega
    have hc : (0 : Int) ≤ 1 + 32 - (xs.length : Int) ∧ 1 + 32 - (xs.length : Int) ≤ 33 ∧
        (33 : Int) ≤ ((4 :: List.replicate 64 0).length : Int) := by
      simp
      omega
    simp only [copySlice, if_pos hc, hlo, hn, List.take_succ_cons, List.take_length]
    rw [← hpx]
    simp only [List.take_replicate, List.cons_append, List.append_assoc]
    congr 3
    · congr 1
      omega
    · have e : 32 - xs.length + 1 + xs.length = 32 + 1 := by omega
      rw [e, List.drop_succ_cons, List.drop_replicate]
  rw [h1]
  have hlo : (33 + 32 - (ys.length : Int)).toNat = (32 + (32 - ys.length)) + 1 := by omega
  have hn : min ((65 : Int) - (33 + 32 - (ys.length : Int))).toNat ys.length = ys.length := by
    omega
  have hc : (0 : Int) ≤ 33 + 32 - (ys.length : Int) ∧ 33 + 32 - (ys.length : Int) ≤ 65 ∧
      (65 : Int) ≤ ((4 :: (be32 x ++ List.replicate 32 0)).length : Int) := by
    simp [hbx]
    omega
  simp only [copySlice, if_pos hc, hlo, hn, List.take_succ_cons, List.take_length]
  rw [← hpy]
  have ht : List.take (32 + (32 - ys.length)) (be32 x ++ List.replicate 32 0) =
      be32 x ++ List.replicate (32 - ys.length) 0 := by
    rw [List.take_append_eq_append_take, hbx, List.take_of_length_le (by rw [hbx]; omega),
      List.take_replicate]
    congr 2
    omega
  have hd : List.drop (32 + (32 - ys.length) + 1 + ys.length)
      (4 :: (be32 x ++ List.replicate 32 0)) = [] := by
    apply List.drop_of_length_le
    simp [hbx]
    omega
  rw [ht, hd]
  simp

/-- C17: the uncompressed public-key encoding built in `getPublic` is fixed-width. For every
affine point `(x, y)` with `0 ≤ x < 2^256` and `0 ≤ y < 2^256` returned by the scalar
multiplication, the output has exactly 65 bytes, byte 0 is `0x04`, bytes 1..32 are the
32-byte big-endian encoding of `x` left-padded with zeros, and bytes 33..64 are that of
`y`. -/
theorem getPublic_encoding (scalarBaseMult : List Nat → Option (Option Int × Option Int))
    (priv_key : List Nat) (x y : Int) (h : scalarBaseMult priv_key = some (some x, some y))
    (hx0 : 0 ≤ x) (hx : x < 2 ^ 256) (hy0 : 0 ≤ y) (hy : y < 2 ^ 256) :
    ∃ out, getPublic scalarBaseMult priv_key = some out ∧ out = 4 :: (be32 x ++ be32 y) ∧
      out.length = 65 ∧ out.head? = some 4 ∧
      (out.drop 1).take 32 = be32 x ∧ (out.drop 33).take 32 = be32 y := by
  have hbx := be32_length x
  have hby := be32_length y
  refine ⟨4 :: (be32 x ++ be32 y), getPublic_eq scalarBaseMult priv_key x y h hx0 hx hy0 hy,
    rfl, by simp [hbx, hby], rfl, ?_, ?_⟩
  · rw [List.drop_succ_cons, List.drop_zero, List.take_append_of_le_length (by omega),
      List.take_of_length_le (by omega)]
  · rw [List.drop_succ_cons, List.drop_append_of_le_length (by omega),
      List.drop_of_length_le (by omega), List.nil_append, List.take_of_length_le (by omega)]

set_option maxRecDepth 100000 in
/-- The hypotheses of `getPublic_encoding` hold for the scalar multiplication of S256 at the
scalar 1, which returns the base point. -/
theorem getPublic_encoding_witness :
    ScalarBaseMult S256 (scalar32 1) = some (some S256.Gx, some S256.Gy) ∧
    0 ≤ S256.Gx ∧ S256.Gx < 2 ^ 256 ∧ 0 ≤ S256.Gy ∧ S256.Gy < 2 ^ 256 ∧
    ∃ out, getPublic (ScalarBaseMult S256) (scalar32 1) = some out ∧
      out = 4 :: (be32 S256.Gx ++ be32 S256.Gy) ∧
      out.length = 65 ∧ out.head? = some 4 ∧
      (out.drop 1).take 32 = be32 S256.Gx ∧ (out.drop 33).take 32 = be32 S256.Gy :=
  ⟨by decide, by decide, by decide, by decide, by decide,
    getPublic_encoding (ScalarBaseMult S256) (scalar32 1) S256.Gx S256.Gy (by decide)
      (by decide) (by decide) (by decide) (by decide)⟩

/-! ## Degenerate states are not reached -/

/-- Forgetting the record, `bitStepTrace` is `bitStep`. -/
theorem bitStepTrace_fst (c : BitCurve) (Bx By Bz : Int) (s : LoopState) (byte : Nat) :
    (bitStepTrace c Bx By Bz s byte).map Prod.fst = bitStep c Bx By Bz s byte := by
  obtain ⟨sx, sy, sz, seen⟩ := s
  by_cases hbit : byte &&& 0x80 = 0x80
  · cases seen
    · simp [bitStepTrace, bitStep, hbit]
    · cases hd : doubleJacobian c sx sy sz with
      | none => simp [bitStepTrace, bitStep, hd]
      | some r =>
        obtain ⟨x, y, z⟩ := r
        cases ha : addJacobian c Bx By Bz x y z with
        | none => simp [bitStepTrace, bitStep, hbit, hd, ha]
        | some r3 => simp [bitStepTrace, bitStep, hbit, hd, ha]
  · cases seen
    · simp [bitStepTrace, bitStep, hbit]
    · cases hd : doubleJacobian c sx sy sz with
      | none => simp [bitStepTrace, bitStep, hd]
      | some r => simp [bitStepTrace, bitStep, hbit, hd]

/-- Forgetting the record, `bitLoopTrace` is `bitLoop`. -/
theorem bitLoopTrace_fst (c : BitCurve) (Bx By Bz : Int) (n : Nat) :
    ∀ (s : LoopState) (byte : Nat),
      (bitLoopTrace c Bx By Bz n s byte).map Prod.fst = bitLoop c Bx By Bz n s byte := by
  induction n with
  | zero => intro s byte; rfl
  | succ n ih =>
    intro s byte
    unfold bitLoopTrace bitLoop
    rw [← bitStepTrace_fst]
    cases h : bitStepTrace c Bx By Bz s byte with
    | none => rfl
    | some r =>
      obtain ⟨s1, evs⟩ := r
      simp only [Option.map_some', Option.map_map]
      rw [← ih]
      congr 1

/-- Forgetting the record, `byteLoopTrace` is `byteLoop`. -/
theorem byteLoopTrace_fst (c : BitCurve) (Bx By Bz : Int) (k : List Nat) :
    ∀ s : LoopState,
      (byteLoopTrace c Bx By Bz s k).map Prod.fst = byteLoop c Bx By Bz s k := by
  induction k with
  | nil => intro s; rfl
  | cons b k ih =>
    intro s
    unfold byteLoopTrace byteLoop
    rw [← bitLoopTrace_fst]
    cases h : bitLoopTrace c Bx By Bz 8 s b with
    | none => rfl
    | some r =>
      obtain ⟨s1, evs⟩ := r
      simp only [Option.map_some', Option.map_map]
      rw [← ih]
      congr 1

section Safety

open WeierstrassCurve

variable {p : Nat} [Fact p.Prime]

omit [Fact p.Prime] in
/-- A number that `p` does not divide has a nonzero residue. -/
theorem emod_ne_zero_of_not_dvd {z : Int} (h : ¬ (p : Int) ∣ z) : z % (p : Int) ≠ 0 :=
  fun h0 => h (Int.dvd_of_emod_eq_zero h0)

/-- For `G ≠ Q` and `G + Q ≠ 0`, the call `addJacobian` on the lift of `G` and a Jacobian form
of `Q` has `H = U2 - U1` nonzero modulo `P`. -/
theorem addJacobianH_ne_zero (c : BitCurve) (hc : c.P = p) {Bx By X Y Z : Int}
    {G Q : (curveW p c.B).Point} (hG : Represents p c.B (some (Bx, By)) G)
    (hQ : JacRepresents c p X Y Z Q) (hne : G ≠ Q) (hsum : G + Q ≠ 0) :
    addJacobianH c Bx 1 X Z % c.P ≠ 0 := by
  obtain ⟨hZ, x, y, haff, hrep⟩ := hQ
  obtain ⟨x0, y0, haff0, -, -, -, -, ex0, -⟩ := affineFromJacobian_cast c hc X Y Z hZ
  rw [haff] at haff0
  simp only [Option.some.injEq, Prod.mk.injEq] at haff0
  obtain ⟨rfl, rfl⟩ := haff0
  have hz := cast_ne_zero_of_not_dvd hZ
  have hxne : (x : ZMod p) ≠ (Bx : ZMod p) := by
    obtain ⟨G | hnsG⟩ := G
    · exact hG.elim
    · obtain ⟨Q | hnsQ⟩ := Q
      · exact hrep.elim
      · obtain ⟨-, -, -, -, h5, -⟩ := hG
        obtain ⟨-, -, -, -, h5', -⟩ := hrep
        rw [h5, h5']
        exact (x_ne_of_add_ne_zero hne hsum).symm
  rw [hc]
  apply emod_ne_zero_of_not_dvd
  apply not_dvd_of_cast_ne_zero
  have eH : ((addJacobianH c Bx 1 X Z : Int) : ZMod p) =
      ((x : ZMod p) - Bx) * (Z : ZMod p) ^ 2 := by
    simp only [addJacobianH, hc, Int.cast_sub, Int.cast_mul, cast_emod, Int.cast_one]
    rw [ex0]
    field_simp
    ring
  rw [eH]
  exact mul_ne_zero (sub_ne_zero.2 hxne) (pow_ne_zero 2 hz)

/-- One pass of the inner loop keeps `LoopInv` and records only safe events. -/
theorem bitStepTrace_inv (c : BitCurve) (hc : c.P = p) (hodd : p ≠ 2) {Bx By : Int}
    {G : (curveW p c.B).Point} (hG : Represents p c.B (some (Bx, By)) G)
    (s : LoopState) (m byte : Nat) (hinv : LoopInv c p Bx By G s m)
    (hord : ∀ j, 0 < j → j ≤ 2 * m + (if byte &&& 0x80 = 0x80 then 1 else 0) → j • G ≠ 0) :
    ∃ s' evs, bitStepTrace c Bx By 1 s byte = some (s', evs) ∧
      LoopInv c p Bx By G s' (2 * m + (if byte &&& 0x80 = 0x80 then 1 else 0)) ∧
      ∀ e ∈ evs, Event.Safe c e := by
  have hp1 := one_lt_cast (p := p)
  obtain ⟨x, y, z, seen⟩ := s
  rcases hinv with ⟨hs, hm, hx, hy, hz⟩ | ⟨hs, hm, hJ⟩
  · simp only at hs hx hy hz
    subst hs hm hx hy hz
    by_cases hbit : byte &&& 0x80 = 0x80
    · refine ⟨⟨x, y, 1, true⟩, [], by simp [bitStepTrace, hbit],
        Or.inr ⟨rfl, by simp [hbit], ?_⟩, by simp⟩
      simp only [hbit, if_true, mul_zero, zero_add, one_nsmul]
      exact jacRepresents_lift c hc hG
    · exact ⟨⟨x, y, 1, false⟩, [], by simp [bitStepTrace, hbit],
        Or.inl ⟨rfl, by simp [hbit], rfl, rfl, rfl⟩, by simp⟩
  · simp only at hs hJ
    subst hs
    have h2m : m • G + m • G = (2 * m) • G := by rw [two_mul, add_nsmul]
    have hdne : m • G + m • G ≠ 0 := by
      rw [h2m]
      exact hord _ (by omega) (by omega)
    obtain ⟨X', Y', Z', hd, hJ'⟩ := doubleJacobian_step c hc hodd hJ hdne
    rw [h2m] at hJ'
    have hZ' : Z' % c.P ≠ 0 := by
      rw [hc]
      exact emod_ne_zero_of_not_dvd hJ'.1
    by_cases hbit : byte &&& 0x80 = 0x80
    · simp only [hbit, if_true] at hord ⊢
      have hsum : G + (2 * m) • G = (2 * m + 1) • G := by rw [succ_nsmul']
      have hne : G ≠ (2 * m) • G := by
        intro h
        have h1 : (2 * m - 1) • G + G = 0 + G := by
          rw [← succ_nsmul, zero_add]
          have e : 2 * m - 1 + 1 = 2 * m := by omega
          rw [e]
          exact h.symm
        exact hord (2 * m - 1) (by omega) (by omega) (add_right_cancel h1)
      have hsne : G + (2 * m) • G ≠ 0 := by
        rw [hsum]
        exact hord _ (by omega) le_rfl
      have hH := addJacobianH_ne_zero c hc hG hJ' hne hsne
      obtain ⟨X3, Y3, Z3, ha, hJ3⟩ := addJacobian_step c hc hodd hG hJ' hne hsne
      have hZ3 : Z3 % c.P ≠ 0 := by
        rw [hc]
        exact emod_ne_zero_of_not_dvd hJ3.1
      have h1 : (1 : Int) % c.P ≠ 0 := by
        rw [hc, Int.emod_eq_of_lt (by omega) hp1]
        exact one_ne_zero
      rw [hsum] at hJ3
      refine ⟨⟨X3, Y3, Z3, true⟩, [Event.doubled X' Y' Z', Event.added Bx By 1 X' Y' Z' X3 Y3 Z3],
        by simp [bitStepTrace, hbit, hd, ha], Or.inr ⟨rfl, by omega, hJ3⟩, ?_⟩
      intro e he
      simp only [List.mem_cons, List.mem_singleton, List.not_mem_nil, or_false] at he
      rcases he with rfl | rfl
      · exact hZ'
      · exact ⟨h1, hZ', hH, hZ3⟩
    · simp only [hbit, if_false, add_zero] at hord ⊢
      refine ⟨⟨X', Y', Z', true⟩, [Event.doubled X' Y' Z'], by simp [bitStepTrace, hbit, hd],
        Or.inr ⟨rfl, by omega, hJ'⟩, ?_⟩
      intro e he
      simp only [List.mem_singleton] at he
      subst he
      exact hZ'

/-- The inner loop keeps `LoopInv` and records only safe events. -/
theorem bitLoopTrace_inv (c : BitCurve) (hc : c.P = p) (hodd : p ≠ 2) {Bx By : Int}
    {G : (curveW p c.B).Point} (hG : Represents p c.B (some (Bx, By)) G) (n : Nat) :
    ∀ (s : LoopState) (m byte : Nat), LoopInv c p Bx By G s m →
      (∀ j, 0 < j → j ≤ bitsValue n m byte → j • G ≠ 0) →
      ∃ s' evs, bitLoopTrace c Bx By 1 n s byte = some (s', evs) ∧
        LoopInv c p Bx By G s' (bitsValue n m byte) ∧ ∀ e ∈ evs, Event.Safe c e := by
  induction n with
  | zero =>
    intro s m byte hinv _
    exact ⟨s, [], rfl, hinv, by simp⟩
  | succ n ih =>
    intro s m byte hinv hord
    have hle := le_bitsValue n (2 * m + (if byte &&& 0x80 = 0x80 then 1 else 0)) ((byte * 2) % 256)
    obtain ⟨s1, e1, hs1, hinv1, hsafe1⟩ := bitStepTrace_inv c hc hodd hG s m byte hinv
      (fun j hj hj' => hord j hj (le_trans hj' hle))
    obtain ⟨s2, e2, hs2, hinv2, hsafe2⟩ := ih s1 _ ((byte * 2) % 256) hinv1 hord
    refine ⟨s2, e1 ++ e2, by simp only [bitLoopTrace, hs1, hs2, Option.map_some'], hinv2, ?_⟩
    intro e he
    rcases List.mem_append.1 he with h | h
    · exact hsafe1 e h
    · exact hsafe2 e h

/-- The outer loop keeps `LoopInv` and records only safe events. -/
theorem byteLoopTrace_inv (c : BitCurve) (hc : c.P = p) (hodd : p ≠ 2) {Bx By : Int}
    {G : (curveW p c.B).Point} (hG : Represents p c.B (some (Bx, By)) G) (k : List Nat) :
    ∀ (s : LoopState) (m : Nat), (∀ b ∈ k, b < 256) → LoopInv c p Bx By G s m →
      (∀ j, 0 < j → j ≤ k.foldl (fun acc b => acc * 256 + b) m → j • G ≠ 0) →
      ∃ s' evs, byteLoopTrace c Bx By 1 s k = some (s', evs) ∧
        LoopInv c p Bx By G s' (k.foldl (fun acc b => acc * 256 + b) m) ∧
        ∀ e ∈ evs, Event.Safe c e := by
  induction k with
  | nil =>
    intro s m _ hinv _
    exact ⟨s, [], rfl, hinv, by simp⟩
  | cons b k ih =>
    intro s m hk hinv hord
    have hb : b < 256 := hk b (List.mem_cons_self _ _)
    rw [List.foldl_cons] at hord ⊢
    have hle := le_foldl_bytes k (m * 256 + b)
    obtain ⟨s1, e1, hs1, hinv1, hsafe1⟩ := bitLoopTrace_inv c hc hodd hG 8 s m b hinv
      (fun j hj hj' => hord j hj (le_trans (by rw [bitsValue_eight m b hb] at hj'; exact hj') hle))
    rw [bitsValue_eight m b hb] at hinv1
    obtain ⟨s2, e2, hs2, hinv2, hsafe2⟩ :=
      ih s1 _ (fun b' hb' => hk b' (List.mem_cons_of_mem _ hb')) hinv1 hord
    refine ⟨s2, e1 ++ e2, by simp only [byteLoopTrace, hs1, hs2, Option.map_some'], hinv2, ?_⟩
    intro e he
    rcases List.mem_append.1 he with h | h
    · exact hsafe1 e h
    · exact hsafe2 e h

/-- C16: degenerate states are unreachable on the supported domain. On the S256 curve, with
`P` prime and `G` of order `N` as hypotheses, for every scalar whose big-endian value `n`
satisfies `1 ≤ n < N`, every call to `addJacobian` made inside `ScalarBaseMult` receives two
points with `H = U2 - U1` nonzero modulo `P` (distinct and not inverses of each other), every
running `Z` coordinate is nonzero modulo `P`, and the final `Z` passed to
`affineFromJacobian` is invertible modulo `P`. -/
theorem ScalarBaseMult_no_degenerate (k : List Nat) (hP : Nat.Prime S256.P.toNat)
    (hN : HasOrder S256.P (some (S256.Gx, S256.Gy)) S256.N.toNat)
    (hk : ∀ b ∈ k, b < 256) (h1 : 1 ≤ bytesToNat k) (h2 : (bytesToNat k : Int) < S256.N) :
    ∃ s evs,
      byteLoopTrace S256 S256.Gx S256.Gy 1 ⟨S256.Gx, S256.Gy, 1, false⟩ k = some (s, evs) ∧
      byteLoop S256 S256.Gx S256.Gy 1 ⟨S256.Gx, S256.Gy, 1, false⟩ k = some s ∧
      (∀ e ∈ evs, Event.Safe S256 e) ∧
      s.seenFirstTrue = true ∧ s.z % S256.P ≠ 0 ∧ Int.gcd s.z S256.P = 1 ∧
      ∃ x y, affineFromJacobian S256 s.x s.y s.z = some (x, y) ∧
        ScalarBaseMult S256 k = some (some x, some y) := by
  haveI : Fact (Nat.Prime S256.P.toNat) := ⟨hP⟩
  obtain ⟨G, hG⟩ := S256_G_point hP
  have h2' : bytesToNat k < S256.N.toNat := by
    have : S256.N = ((S256.N.toNat : Nat) : Int) := by decide
    rw [this] at h2
    exact_mod_cast h2
  have hord : ∀ j, 0 < j → j ≤ bytesToNat k → j • G ≠ 0 := by
    intro j hj hjk h0
    apply hN.2.2 j hj (by omega)
    have := ecMul_represents hG j
    rw [h0] at this
    rw [S256_P_cast]
    exact (represents_zero_iff _).1 this
  obtain ⟨s, evs, htr, hinv, hsafe⟩ := byteLoopTrace_inv S256 S256_P_cast S256_P_odd hG k
    ⟨S256.Gx, S256.Gy, 1, false⟩ 0 hk (Or.inl ⟨rfl, rfl, rfl, rfl, rfl⟩) hord
  have hbl : byteLoop S256 S256.Gx S256.Gy 1 ⟨S256.Gx, S256.Gy, 1, false⟩ k = some s := by
    rw [← byteLoopTrace_fst, htr]
    rfl
  rcases hinv with ⟨-, hm, -⟩ | ⟨hseen, -, hZ, x, y, haff, -⟩
  · unfold bytesToNat at h1
    omega
  · refine ⟨s, evs, htr, hbl, hsafe, hseen, ?_, ?_, x, y, haff, ?_⟩
    · rw [S256_P_cast]
      exact emod_ne_zero_of_not_dvd hZ
    · rw [S256_P_cast]
      exact gcd_eq_one_of_not_dvd hZ
    · simp [ScalarBaseMult, ScalarMult, hbl, hseen, haff]

/-- The hypotheses of `ScalarBaseMult_no_degenerate` hold for `sampleScalar`, the encoding of
`N - 2`. -/
theorem ScalarBaseMult_no_degenerate_witness :
    Nat.Prime S256.P.toNat ∧ HasOrder S256.P (some (S256.Gx, S256.Gy)) S256.N.toNat ∧
    (∀ b ∈ sampleScalar, b < 256) ∧ 1 ≤ bytesToNat sampleScalar ∧
    (bytesToNat sampleScalar : Int) < S256.N ∧
    ∃ s evs,
      byteLoopTrace S256 S256.Gx S256.Gy 1 ⟨S256.Gx, S256.Gy, 1, false⟩ sampleScalar =
        some (s, evs) ∧
      byteLoop S256 S256.Gx S256.Gy 1 ⟨S256.Gx, S256.Gy, 1, false⟩ sampleScalar = some s ∧
      (∀ e ∈ evs, Event.Safe S256 e) ∧
      s.seenFirstTrue = true ∧ s.z % S256.P ≠ 0 ∧ Int.gcd s.z S256.P = 1 ∧
      ∃ x y, affineFromJacobian S256 s.x s.y s.z = some (x, y) ∧
        ScalarBaseMult S256 sampleScalar = some (some x, some y) :=
  ⟨S256_P_prime, S256_hasOrder, by decide, by decide, by decide,
    ScalarBaseMult_no_degenerate sampleScalar S256_P_prime S256_hasOrder (by decide)
      (by decide) (by decide)⟩

end Safety

end Warpwallet
